import Mathlib

/-!
Shallow embedding of `src/posterus.js` (the posterus future/task library):
the task state machine (`Future.prototype.settle`, `map`, `weak`,
`toPromise`, `finishPending`, `deinit`), the scheduler (`Scheduler.prototype.
tick`), and the `all` / `race` combinators with their juncture state objects.

JS objects live in explicit heaps indexed by `Nat` ids inside a global state
`St`.  JS values are modelled by `Val`; the bitmask `bits_` is modelled by a
record of the six named flags (the source only ever reads or writes `bits_`
through the named masks, so the record is an exact rendering).  The mutually
recursive group of internal functions (`settle`, mapper invocation,
`finishPending`, `finalize`, `deinit`, the juncture functions, the scheduler
drain loop) is rendered as one fuel-indexed interpreter `exec` over a `Call`
code; exhausted fuel surfaces as a distinguished thrown value that never
occurs in the proofs below.  JS exceptions are threaded explicitly as an
`Option Val` (`none` = normal return).
-/

namespace Posterus

/-- JS values as used by the library: the `undefined` sentinel, primitives,
`Error` objects (identified by their message), future references (heap ids),
and arrays. -/
inductive Val : Type where
  | undef : Val
  | bool : Bool → Val
  | int : Int → Val
  | str : String → Val
  | errObj : String → Val
  | fut : Nat → Val
  | arr : List Val → Val

/-- JS identity test `v === future` against the future with heap id `i`
(object identity: only the reference itself compares equal). -/
def isSelfRef (v : Val) (i : Nat) : Bool :=
  match v with
  | .fut j => j == i
  | _ => false

/-- JS truthiness of a `Val`. -/
def truthy : Val → Bool
  | .undef => false
  | .bool b => b
  | .int n => n != 0
  | .str s => s != ""
  | .errObj _ => true
  | .fut _ => true
  | .arr _ => true

/-- `isFuture` from the source: in this model exactly the future references
(every future in the heap is an instance of the base `Future` class, so
`isBaseFuture` coincides with `isFuture`). -/
def isFutureV : Val → Bool
  | .fut _ => true
  | _ => false

/-- Heap id of a future value (`0` as a don't-care default otherwise). -/
def futId : Val → Nat
  | .fut i => i
  | _ => 0

/-- JS `a || b`. -/
def orVal (a b : Val) : Val := if truthy a then a else b

/-- `CONSUMABLE_ERROR` message from the source. -/
def CONSUMABLE_ERROR : String :=
  "Expected a consumable future: one that has not been mapped or passed to .settle"

/-- `DEINIT_ERROR` message from the source. -/
def DEINIT_ERROR : String := "DEINIT"

/-- Message of the cyclic-chain error thrown by `settle`. -/
def SELF_CHAIN_ERROR : String := "A future cannot be chained to itself"

/-- Thrown value signalling interpreter fuel exhaustion; models nothing in
the source and never occurs in the results proved below. -/
def FUEL_ERROR : String := "MODEL_FUEL_EXHAUSTED"

/-- Thrown value for a JS `TypeError` (calling a method on `undefined`);
unreachable in the source's own call graph. -/
def TYPE_ERROR : String := "TYPE_ERROR"

/-- `isDeinitError` from the source. -/
def isDeinitError (v : Val) : Bool :=
  match v with
  | .errObj m => m == DEINIT_ERROR
  | _ => false

/-- The `bits_` bitmask of a future, rendered as its six named flags
(`PENDING`, `ERROR`, `SUCCESS`, `PENDING_REJECTION`, `CONSUMED`,
`MAPPING`). -/
structure Bits : Type where
  pending : Bool
  error : Bool
  success : Bool
  pendingRejection : Bool
  consumed : Bool
  mapping : Bool
  deriving DecidableEq, Repr

/-- `someBitsSet(self, SETTLED)`. -/
def Bits.settled (b : Bits) : Bool := b.error || b.success

/-- `replaceStateBits(self, ERROR)` / `replaceStateBits(self, SUCCESS)`:
clear the three state flags, then set the given one. -/
def Bits.replaceState (b : Bits) (isError : Bool) : Bits :=
  { b with pending := false, error := isError, success := !isError }

/-- Mappers storable in a future's `mapper_` slot.  User-written mapper
functions are embedded as pure Lean functions from the `(error, result)`
pair to a returned or thrown value; the library's internal mapper closures
are listed by name. -/
inductive Mapper : Type where
  /-- a user function passed to `Future.prototype.map` -/
  | fn : (Val → Val → Except Val Val) → Mapper
  /-- `alwaysThrow` -/
  | alwaysThrow : Mapper
  /-- `mapError.bind(null, fun)` as created by `Future.prototype.mapError` -/
  | mapErrorW : (Val → Except Val Val) → Mapper
  /-- `mapResult.bind(null, fun)` as created by `Future.prototype.mapResult` -/
  | mapResultW : (Val → Except Val Val) → Mapper
  /-- `mapFinally.bind(null, fun)` as created by `Future.prototype.finally` -/
  | finallyW : (Val → Val → Except Val Val) → Mapper
  /-- the `errorSettle` closure created in `settle`, capturing `self` -/
  | errorSettle : Nat → Mapper
  /-- the `valueSettle` closure created in `settle`, capturing `self` -/
  | valueSettle : Nat → Mapper
  /-- `settleAllJunctureAtIndex.bind(null, all, i)` -/
  | settleAllAtIndex : Nat → Nat → Mapper
  /-- `settleRaceJuncture.bind(null, race)` -/
  | settleRaceWith : Nat → Mapper
  /-- the `settleFuturePromise` closure, capturing the future and promise -/
  | settlePromise : Nat → Nat → Mapper

/-- Functions storable in a future's `finalizer_` slot.  `ext` stands for an
arbitrary external cleanup function: observably it appends its tag to a
ghost log and optionally throws. -/
inductive Finalizer : Type where
  /-- an external (user-side) finalizer with a ghost tag -/
  | ext : Nat → Option Val → Finalizer
  /-- `settleAllJunctureAtIndex.bind(null, all, i)` installed by `setupFinalizer` -/
  | settleAllAtIndexF : Nat → Nat → Finalizer
  /-- `settleRaceJuncture.bind(null, race)` installed by `setupFinalizer` -/
  | settleRaceF : Nat → Finalizer
  /-- `all.deinit.bind(all)` / `race.deinit.bind(race)` -/
  | junctDeinitF : Nat → Finalizer
  /-- the `settleFuturePromise` closure installed by `mapFutureToPromise` -/
  | settlePromiseF : Nat → Nat → Finalizer

/-- A `Future` instance: the fields set up by the `Future` constructor. -/
structure Fut : Type where
  bits : Bits
  value : Val
  predecessor : Option Nat
  successor : Option Nat
  weaks : List Nat
  mapper : Option Mapper
  finalizer : Option Finalizer

/-- `new Future()`: `bits_ = PENDING`, everything else unset. -/
def freshFut : Fut :=
  { bits := { pending := true, error := false, success := false,
              pendingRejection := false, consumed := false, mapping := false }
    value := .undef
    predecessor := none
    successor := none
    weaks := []
    mapper := none
    finalizer := none }

/-- An `AllJuncture` / `RaceJuncture` state object. -/
structure Junct : Type where
  future : Option Nat
  values : Option (List Val)
  pending : Int

/-- A host promise, as far as the adapter observes it. -/
inductive Prom : Type where
  | unsettled : Prom
  | resolved : Val → Prom
  | rejected : Val → Prom

/-- Global state: the future heap, juncture heap, promise heap (each a
total map from ids with an allocation counter), the default scheduler's
pending FIFO and `isScheduled_` flag, and a ghost log of external
finalizer invocations. -/
structure St : Type where
  futs : Nat → Fut
  nFuts : Nat
  juncts : Nat → Junct
  nJuncts : Nat
  proms : Nat → Prom
  nProms : Nat
  queue : List Nat
  scheduled : Bool
  extLog : List Nat

/-- The empty initial state. -/
def St.empty : St :=
  { futs := fun _ => freshFut
    nFuts := 0
    juncts := fun _ => { future := none, values := none, pending := 0 }
    nJuncts := 0
    proms := fun _ => .unsettled
    nProms := 0
    queue := []
    scheduled := false
    extLog := [] }

/-- Read a future record. -/
def getF (s : St) (i : Nat) : Fut := s.futs i

/-- Write a future record. -/
def setF (s : St) (i : Nat) (f : Fut) : St :=
  { s with futs := Function.update s.futs i f }

/-- Update a future record in place. -/
def modF (s : St) (i : Nat) (g : Fut → Fut) : St := setF s i (g (getF s i))

/-- Allocate a fresh future (`new Future()`), returning its id. -/
def allocF (s : St) : St × Nat :=
  ({ s with futs := Function.update s.futs s.nFuts freshFut, nFuts := s.nFuts + 1 },
   s.nFuts)

/-- Read a juncture record. -/
def getJ (s : St) (j : Nat) : Junct := s.juncts j

/-- Write a juncture record. -/
def setJ (s : St) (j : Nat) (ju : Junct) : St :=
  { s with juncts := Function.update s.juncts j ju }

/-- Allocate a juncture (`new AllJuncture(future, values)` or the race
analogue; `values.slice()` is the snapshot passed in). -/
def allocJ (s : St) (fid : Nat) (vs : List Val) : St × Nat :=
  ({ s with
     juncts := Function.update s.juncts s.nJuncts
       { future := some fid, values := some vs, pending := 0 }
     nJuncts := s.nJuncts + 1 },
   s.nJuncts)

/-- Allocate a fresh unsettled promise. -/
def allocP (s : St) : St × Nat :=
  ({ s with proms := Function.update s.proms s.nProms .unsettled,
            nProms := s.nProms + 1 },
   s.nProms)

/-- Settle a promise (first settlement wins, as with host promises). -/
def settleProm (s : St) (p : Nat) (pr : Prom) : St :=
  match s.proms p with
  | .unsettled => { s with proms := Function.update s.proms p pr }
  | _ => s

/-- `scheduleTick`: arrange one host callback unless already arranged. -/
def scheduleTickS (s : St) : St :=
  if s.scheduled then s else { s with scheduled := true }

/-- `Scheduler.prototype.push` on the default scheduler: enqueue and arrange
a tick. -/
def schedulerPush (s : St) (i : Nat) : St :=
  scheduleTickS { s with queue := s.queue ++ [i] }

/-- `scheduleFuture`: push the future onto the default scheduler. -/
def scheduleFuture (s : St) (i : Nat) : St := schedulerPush s i

/-- `setupPredecessorSuccessorPair`. -/
def setupPair (s : St) (pred succ : Nat) : St :=
  let s := modF s pred (fun f => { f with successor := some succ })
  let s := modF s succ (fun f => { f with predecessor := some pred })
  if (getF s pred).bits.settled then scheduleFuture s pred else s

/-- `setupFinalizer`. -/
def setupFinalizer (s : St) (i : Nat) (fn : Finalizer) : St :=
  let s := modF s i (fun f => { f with finalizer := some fn })
  if (getF s i).bits.settled then scheduleFuture s i else s

/-- `quietlyConsume`: set `CONSUMED`, return the stored value. -/
def quietlyConsume (s : St) (i : Nat) : St × Val :=
  (modF s i (fun f => { f with bits := { f.bits with consumed := true } }), (getF s i).value)

/-- `Future.prototype.map`: throws the consumable error on a `CONSUMED`
receiver; otherwise marks it `CONSUMED`, clears `PENDING_REJECTION`,
allocates the successor future carrying the mapper, and links the pair.
Returns the new future's id. -/
def mapFut (s : St) (i : Nat) (m : Mapper) : St × Except Val Nat :=
  let f := getF s i
  if f.bits.consumed then (s, .error (.errObj CONSUMABLE_ERROR))
  else
    let s1 := setF s i
      { f with bits := { f.bits with consumed := true, pendingRejection := false } }
    let sn := allocF s1
    let s2 := setF sn.1 sn.2 { freshFut with mapper := some m }
    (setupPair s2 i sn.2, .ok sn.2)

/-- `Future.prototype.weak`: allocate a fresh pending branch, append it to
the receiver's weak FIFO, and schedule the receiver.  Never throws. -/
def weakFut (s : St) (i : Nat) : St × Nat :=
  let sn := allocF s
  let s2 := modF sn.1 i (fun f => { f with weaks := f.weaks ++ [sn.2] })
  (scheduleFuture s2 i, sn.2)

/-- `Future.prototype.deref`. -/
def derefFut (s : St) (i : Nat) : St × Except Val Val :=
  let f := getF s i
  if f.bits.error then
    (modF s i (fun f => { f with bits := { f.bits with pendingRejection := false } }),
     .error f.value)
  else (s, .ok f.value)

/-- `Future.prototype.toPromise`: throws on a `CONSUMED` receiver, clears
`PENDING_REJECTION`, returns an immediately settled promise for a settled
receiver; for a pending receiver runs `mapFutureToPromise`, which installs
`settleFuturePromise` as the finalizer when the slot is free and otherwise
maps with it.  Returns the promise id. -/
def toPromiseFut (s : St) (i : Nat) : St × Except Val Nat :=
  let f := getF s i
  if f.bits.consumed then (s, .error (.errObj CONSUMABLE_ERROR))
  else
    let s := modF s i (fun f => { f with bits := { f.bits with pendingRejection := false } })
    if f.bits.error then
      let sp := allocP s
      (settleProm sp.1 sp.2 (.rejected f.value), .ok sp.2)
    else if f.bits.success then
      let sp := allocP s
      (settleProm sp.1 sp.2 (.resolved f.value), .ok sp.2)
    else
      let sp := allocP s
      if (getF sp.1 i).finalizer.isNone then
        (setupFinalizer sp.1 i (.settlePromiseF i sp.2), .ok sp.2)
      else
        match mapFut sp.1 i (.settlePromise i sp.2) with
        | (s, .error e) => (s, .error e)
        | (s, .ok _) => (s, .ok sp.2)

/-- Result of running an embedded operation: the new state, the thrown JS
value if the operation threw, and the returned JS value otherwise. -/
structure Out : Type where
  st : St
  exn : Option Val
  ret : Val

/-- Normal completion with no interesting return value. -/
def Out.done (s : St) : Out := { st := s, exn := none, ret := .undef }

/-- Normal completion returning `v`. -/
def Out.val (s : St) (v : Val) : Out := { st := s, exn := none, ret := v }

/-- Abrupt completion throwing `e`. -/
def Out.raise (s : St) (e : Val) : Out := { st := s, exn := some e, ret := .undef }

/-- Forget the returned value (JS statement position). -/
def Out.dropRet (o : Out) : Out := { o with ret := .undef }

/-- Codes for the mutually recursive internal functions of the source. -/
inductive Call : Type where
  /-- `Future.prototype.settle(error, result)` on future `i` -/
  | settle : Nat → Val → Val → Call
  /-- invoking a stored mapper with the `(error, result)` pair -/
  | runMapper : Mapper → Val → Val → Call
  /-- `Future.prototype.finishPending` on future `i` -/
  | finishPending : Nat → Call
  /-- the weak-branch `while` loop inside `finishPending` -/
  | weakLoop : Nat → Call
  /-- `finalize(future)` -/
  | finalizeFut : Nat → Call
  /-- invoking a stored finalizer with the `(error, result)` pair -/
  | runFinalizer : Finalizer → Val → Val → Call
  /-- `Future.prototype.deinit` on future `i` -/
  | deinit : Nat → Call
  /-- `settleAllJunctureAtIndex(all, i, error, result)` -/
  | settleAllIdx : Nat → Nat → Val → Val → Call
  /-- `settleAllJuncture(all, error)` -/
  | settleAllJcall : Nat → Val → Call
  /-- `settleRaceJuncture(race, error, result)` -/
  | settleRaceJcall : Nat → Val → Val → Call
  /-- `AllJuncture.prototype.deinit` / `RaceJuncture.prototype.deinit` -/
  | junctDeinit : Nat → Call
  /-- `forceDeinitFutures` body `forceEach(list, deinitFuture)`, with the
  last caught error accumulated -/
  | forceDeinit : List Val → Option Val → Call
  /-- the `for` loop of `initAllJuncture`, from index `i` -/
  | initAll : Nat → Nat → Call
  /-- the `for` loop of `initRaceJuncture`, from index `i` -/
  | initRace : Nat → Nat → Call
  /-- the drain `while` loop of `Scheduler.prototype.tick` -/
  | tickLoop : Call

/-- The unhandled-rejection epilogue of `finishPending`: the default
`Future.onUnhandledRejection` hook rethrows the stored value. -/
def rejectionCheck (s : St) (i : Nat) : Out :=
  let f := getF s i
  if f.bits.pendingRejection then
    Out.raise (modF s i (fun g => { g with bits := { g.bits with pendingRejection := false } }))
      f.value
  else Out.done s

/-- The body of `Future.prototype.settle`, parameterized by the recursive
interpreter `recur` used for nested calls. -/
def settleBody (recur : Call → St → Out) (i : Nat) (e r : Val) (s : St) : Out :=
  let f := getF s i
  if f.bits.settled || f.bits.mapping then Out.done s
  else if isSelfRef e i || isSelfRef r i then Out.raise s (.errObj SELF_CHAIN_ERROR)
  else
    let e2 := if truthy e then e else Val.undef
    let r2 := if truthy e then Val.undef else r
    if isFutureV e2 then
      let eid := futId e2
      let ef := getF s eid
      if ef.bits.consumed then Out.raise s (.errObj CONSUMABLE_ERROR)
      else if ef.successor.isNone && f.mapper.isNone then
        let s := setF s i { f with mapper := some .alwaysThrow }
        Out.done (setupPair s eid i)
      else
        match mapFut s eid (.errorSettle i) with
        | (s, .error ex) => Out.raise s ex
        | (s, .ok nid) =>
          Out.done (modF s i (fun g => { g with predecessor := some nid }))
    else if isFutureV r2 then
      let rid := futId r2
      let rf := getF s rid
      if rf.bits.consumed then Out.raise s (.errObj CONSUMABLE_ERROR)
      else if rf.successor.isNone then Out.done (setupPair s rid i)
      else
        match mapFut s rid (.valueSettle i) with
        | (s, .error ex) => Out.raise s ex
        | (s, .ok nid) =>
          Out.done (modF s i (fun g => { g with predecessor := some nid }))
    else
      match f.mapper with
      | some m =>
        let s := setF s i
          { f with mapper := none, bits := { f.bits with mapping := true } }
        let o := recur (.runMapper m e2 r2) s
        let s := modF o.st i
          (fun g => { g with bits := { g.bits with mapping := false } })
        match o.exn with
        | some err => recur (.settle i err .undef) s
        | none => recur (.settle i .undef o.ret) s
      | none =>
        let s := setF s i
          { f with value := orVal e2 r2
                   bits := { f.bits.replaceState (truthy e2) with
                             pendingRejection := truthy e2 || f.bits.pendingRejection } }
        Out.done (scheduleFuture s i)

/-- Invocation of a stored mapper with the settled `(error, result)` pair. -/
def runMapperBody (recur : Call → St → Out) (m : Mapper) (e r : Val) (s : St) : Out :=
  match m with
  | .fn f =>
    match f e r with
    | .ok v => Out.val s v
    | .error ex => Out.raise s ex
  | .alwaysThrow => Out.raise s (orVal e r)
  | .mapErrorW f =>
    if truthy e then
      match f e with
      | .ok v => Out.val s v
      | .error ex => Out.raise s ex
    else Out.val s r
  | .mapResultW f =>
    if truthy e then Out.raise s e
    else
      match f r with
      | .ok v => Out.val s v
      | .error ex => Out.raise s ex
  | .finallyW f =>
    match f e r with
    | .error ex => Out.raise s ex
    | .ok fin =>
      if isFutureV fin then
        match mapFut s (futId fin) (.mapResultW (fun _ => .ok r)) with
        | (s, .error ex) => Out.raise s ex
        | (s, .ok nid) => Out.val s (.fut nid)
      else if truthy e then Out.raise s e
      else Out.val s r
  | .errorSettle i => Out.dropRet (recur (.settle i (orVal e r) .undef) s)
  | .valueSettle i => Out.dropRet (recur (.settle i e r) s)
  | .settleAllAtIndex j i => Out.dropRet (recur (.settleAllIdx j i e r) s)
  | .settleRaceWith j => Out.dropRet (recur (.settleRaceJcall j e r) s)
  | .settlePromise fid pid =>
    let s := modF s fid
      (fun g => { g with bits := { g.bits with pendingRejection := false } })
    if truthy e then Out.done (settleProm s pid (.rejected e))
    else Out.done (settleProm s pid (.resolved r))

/-- The body of `Future.prototype.finishPending`. -/
def finishPendingBody (recur : Call → St → Out) (i : Nat) (s : St) : Out :=
  let f := getF s i
  if f.bits.settled then
    let succ := f.successor
    let s := setF s i { f with successor := none }
    let o :=
      match succ with
      | none => Out.done s
      | some sc =>
        let s := modF s i
          (fun g => { g with bits := { g.bits with pendingRejection := false } })
        if f.bits.error then recur (.settle sc f.value .undef) s
        else recur (.settle sc .undef f.value) s
    match o.exn with
    | some ex => Out.raise o.st ex
    | none =>
      let o := recur (.weakLoop i) o.st
      match o.exn with
      | some ex => Out.raise o.st ex
      | none =>
        let o := recur (.finalizeFut i) o.st
        match o.exn with
        | some ex => Out.raise o.st ex
        | none => rejectionCheck o.st i
  else rejectionCheck s i

/-- The weak-branch `while` loop inside `finishPending`. -/
def weakLoopBody (recur : Call → St → Out) (i : Nat) (s : St) : Out :=
  let f := getF s i
  match f.weaks with
  | [] => Out.done s
  | w :: rest =>
    let s := setF s i { f with weaks := rest }
    let o :=
      if f.bits.error then recur (.settle w f.value .undef) s
      else recur (.settle w .undef f.value) s
    match o.exn with
    | some ex => Out.raise o.st ex
    | none => recur (.weakLoop i) o.st

/-- `finalize(future)`: detach and invoke the finalizer, if any. -/
def finalizeBody (recur : Call → St → Out) (i : Nat) (s : St) : Out :=
  let f := getF s i
  let s := setF s i { f with finalizer := none }
  match f.finalizer with
  | none => Out.done s
  | some fn =>
    if f.bits.error then recur (.runFinalizer fn f.value .undef) s
    else recur (.runFinalizer fn .undef f.value) s

/-- Invocation of a stored finalizer with the `(error, result)` pair. -/
def runFinalizerBody (recur : Call → St → Out) (fn : Finalizer) (e r : Val) (s : St) : Out :=
  match fn with
  | .ext tag exn =>
    { st := { s with extLog := s.extLog ++ [tag] }, exn := exn, ret := .undef }
  | .settleAllAtIndexF j i => Out.dropRet (recur (.settleAllIdx j i e r) s)
  | .settleRaceF j => Out.dropRet (recur (.settleRaceJcall j e r) s)
  | .junctDeinitF j => Out.dropRet (recur (.junctDeinit j) s)
  | .settlePromiseF fid pid =>
    let s := modF s fid
      (fun g => { g with bits := { g.bits with pendingRejection := false } })
    if truthy e then Out.done (settleProm s pid (.rejected e))
    else Out.done (settleProm s pid (.resolved r))

/-- The body of `Future.prototype.deinit`: the nested `try`/`finally`
structure is rendered by threading each clause's state and exception. -/
def deinitBody (recur : Call → St → Out) (i : Nat) (s : St) : Out :=
  let f := getF s i
  if f.bits.mapping then Out.done s
  else
    let prev := f.predecessor
    let s := setF s i { f with predecessor := none }
    let oA :=
      if f.bits.settled then Out.done s
      else recur (.settle i (.errObj DEINIT_ERROR) .undef) s
    let oA :=
      match oA.exn with
      | some _ => oA
      | none =>
        Out.done (modF oA.st i
          (fun g => { g with bits := { g.bits with pendingRejection := false } }))
    let oB := recur (.finalizeFut i) oA.st
    let oC :=
      match prev with
      | some p => recur (.deinit p) oB.st
      | none => Out.done oB.st
    let next := (getF oC.st i).predecessor
    let s2 := modF oC.st i (fun g => { g with predecessor := none })
    let oD :=
      match next with
      | some p2 => recur (.deinit p2) s2
      | none => Out.done s2
    { st := oD.st, exn := oD.exn <|> oC.exn <|> oB.exn <|> oA.exn, ret := .undef }

/-- `settleAllJunctureAtIndex(all, i, error, result)`. -/
def settleAllIdxBody (recur : Call → St → Out) (j i : Nat) (e r : Val) (s : St) : Out :=
  let ju := getJ s j
  match ju.values with
  | none => Out.done s
  | some vs =>
    let ju2 := { ju with pending := ju.pending - 1 }
    let s := setJ s j ju2
    if truthy e then Out.dropRet (recur (.settleAllJcall j e) s)
    else
      let s := setJ s j { ju2 with values := some (vs.set i r) }
      if ju2.pending == 0 then Out.dropRet (recur (.settleAllJcall j .undef) s)
      else Out.done s

/-- `settleAllJuncture(all, error)`. -/
def settleAllJBody (recur : Call → St → Out) (j : Nat) (e : Val) (s : St) : Out :=
  let ju := getJ s j
  let s := setJ s j { ju with future := none, values := none }
  match ju.future with
  | none => Out.raise s (.errObj TYPE_ERROR)
  | some fid =>
    if truthy e then
      let o := recur (.settle fid e .undef) s
      match o.exn with
      | some ex => Out.raise o.st ex
      | none =>
        match ju.values with
        | none => Out.done o.st
        | some vs => Out.dropRet (recur (.forceDeinit vs none) o.st)
    else
      let payload := match ju.values with
        | some vs => Val.arr vs
        | none => Val.undef
      Out.dropRet (recur (.settle fid .undef payload) s)

/-- `settleRaceJuncture(race, error, result)`. -/
def settleRaceJBody (recur : Call → St → Out) (j : Nat) (e r : Val) (s : St) : Out :=
  let ju := getJ s j
  let s := setJ s j { ju with future := none, values := none }
  match ju.future with
  | none => Out.done s
  | some fid =>
    let o := recur (.settle fid e r) s
    match o.exn with
    | some ex => Out.raise o.st ex
    | none =>
      match ju.values with
      | none => Out.done o.st
      | some vs => Out.dropRet (recur (.forceDeinit vs none) o.st)

/-- `AllJuncture.prototype.deinit` / `RaceJuncture.prototype.deinit` (the
source's `pending_ = undefined` is rendered as `0`; the cleared `values`
slot makes it unreadable). -/
def junctDeinitBody (recur : Call → St → Out) (j : Nat) (s : St) : Out :=
  let ju := getJ s j
  let s := setJ s j { future := none, values := none, pending := 0 }
  match ju.values with
  | none => Out.done s
  | some vs => Out.dropRet (recur (.forceDeinit vs none) s)

/-- `forceDeinitFutures` via `forceEach`: deinit every future in the list,
remembering the last caught exception and rethrowing it at the end. -/
def forceDeinitBody (recur : Call → St → Out) (vs : List Val) (acc : Option Val)
    (s : St) : Out :=
  match vs with
  | [] => { st := s, exn := acc, ret := .undef }
  | v :: rest =>
    if isFutureV v then
      let o := recur (.deinit (futId v)) s
      match o.exn with
      | some ex => recur (.forceDeinit rest (some ex)) o.st
      | none => recur (.forceDeinit rest acc) o.st
    else recur (.forceDeinit rest acc) s

/-- The `for` loop of `initAllJuncture`, from index `i`. -/
def initAllBody (recur : Call → St → Out) (j i : Nat) (s : St) : Out :=
  let ju := getJ s j
  let vs := ju.values.getD []
  if i < vs.length then
    let v := vs.getD i .undef
    if !isFutureV v then recur (.initAll j (i + 1)) s
    else
      let vid := futId v
      let vf := getF s vid
      if vf.bits.consumed then Out.raise s (.errObj CONSUMABLE_ERROR)
      else if vf.bits.error then Out.dropRet (recur (.settleAllJcall j (.fut vid)) s)
      else if vf.bits.success then
        let sv := quietlyConsume s vid
        let s := sv.1
        let s := setJ s j
          { getJ s j with values := some (((getJ s j).values.getD []).set i sv.2) }
        recur (.initAll j (i + 1)) s
      else if vf.finalizer.isNone then
        let s := setupFinalizer s vid (.settleAllAtIndexF j i)
        let s :=
          if (getF s vid).bits.pending then
            setJ s j { getJ s j with pending := (getJ s j).pending + 1 }
          else s
        recur (.initAll j (i + 1)) s
      else
        match mapFut s vid (.settleAllAtIndex j i) with
        | (s, .error ex) => Out.raise s ex
        | (s, .ok nid) =>
          let s := setJ s j
            { getJ s j with
              values := some (((getJ s j).values.getD []).set i (.fut nid))
              pending := (getJ s j).pending + 1 }
          recur (.initAll j (i + 1)) s
  else
    if ju.pending != 0 then
      match ju.future with
      | some fid =>
        Out.done (modF s fid (fun g => { g with finalizer := some (.junctDeinitF j) }))
      | none => Out.raise s (.errObj TYPE_ERROR)
    else Out.dropRet (recur (.settleAllJcall j .undef) s)

/-- The `for` loop of `initRaceJuncture`, from index `i`. -/
def initRaceBody (recur : Call → St → Out) (j i : Nat) (s : St) : Out :=
  let ju := getJ s j
  let vs := ju.values.getD []
  if i < vs.length then
    let v := vs.getD i .undef
    if !isFutureV v then Out.dropRet (recur (.settleRaceJcall j .undef v) s)
    else
      let vid := futId v
      let vf := getF s vid
      if vf.bits.consumed then Out.raise s (.errObj CONSUMABLE_ERROR)
      else if vf.bits.error then
        Out.dropRet (recur (.settleRaceJcall j (.fut vid) .undef) s)
      else if vf.bits.success then
        let sv := quietlyConsume s vid
        Out.dropRet (recur (.settleRaceJcall j .undef sv.2) sv.1)
      else if vf.finalizer.isNone then
        let s := setupFinalizer s vid (.settleRaceF j)
        let s :=
          if (getF s vid).bits.pending then
            setJ s j { getJ s j with pending := (getJ s j).pending + 1 }
          else s
        recur (.initRace j (i + 1)) s
      else
        match mapFut s vid (.settleRaceWith j) with
        | (s, .error ex) => Out.raise s ex
        | (s, .ok nid) =>
          let s := setJ s j
            { getJ s j with
              values := some (((getJ s j).values.getD []).set i (.fut nid))
              pending := (getJ s j).pending + 1 }
          recur (.initRace j (i + 1)) s
  else
    if ju.pending != 0 then
      match ju.future with
      | some fid =>
        Out.done (modF s fid (fun g => { g with finalizer := some (.junctDeinitF j) }))
      | none => Out.raise s (.errObj TYPE_ERROR)
    else Out.dropRet (recur (.settleRaceJcall j .undef .undef) s)

/-- The drain `while` loop of `Scheduler.prototype.tick`: each iteration
shifts one future off the FIFO and runs its `finishPending`; an exception
aborts the loop. -/
def tickLoopBody (recur : Call → St → Out) (s : St) : Out :=
  match s.queue with
  | [] => Out.done s
  | i :: rest =>
    let o := recur (.finishPending i) { s with queue := rest }
    match o.exn with
    | some ex => Out.raise o.st ex
    | none => recur .tickLoop o.st

/-- Fuel-indexed interpreter tying the bodies together.  Fuel exhaustion
throws the `FUEL_ERROR` sentinel. -/
def exec : Nat → Call → St → Out
  | 0, _, s => Out.raise s (.errObj FUEL_ERROR)
  | n + 1, c, s =>
    match c with
    | .settle i e r => settleBody (exec n) i e r s
    | .runMapper m e r => runMapperBody (exec n) m e r s
    | .finishPending i => finishPendingBody (exec n) i s
    | .weakLoop i => weakLoopBody (exec n) i s
    | .finalizeFut i => finalizeBody (exec n) i s
    | .runFinalizer fn e r => runFinalizerBody (exec n) fn e r s
    | .deinit i => deinitBody (exec n) i s
    | .settleAllIdx j i e r => settleAllIdxBody (exec n) j i e r s
    | .settleAllJcall j e => settleAllJBody (exec n) j e s
    | .settleRaceJcall j e r => settleRaceJBody (exec n) j e r s
    | .junctDeinit j => junctDeinitBody (exec n) j s
    | .forceDeinit vs acc => forceDeinitBody (exec n) vs acc s
    | .initAll j i => initAllBody (exec n) j i s
    | .initRace j i => initRaceBody (exec n) j i s
    | .tickLoop => tickLoopBody (exec n) s

/-- `Future.prototype.settle` entry point. -/
def settle (fuel : Nat) (s : St) (i : Nat) (e r : Val) : St × Option Val :=
  let o := exec fuel (.settle i e r) s
  (o.st, o.exn)

/-- `Future.prototype.deinit` entry point. -/
def deinit (fuel : Nat) (s : St) (i : Nat) : St × Option Val :=
  let o := exec fuel (.deinit i) s
  (o.st, o.exn)

/-- `Future.prototype.finishPending` entry point. -/
def finishPending (fuel : Nat) (s : St) (i : Nat) : St × Option Val :=
  let o := exec fuel (.finishPending i) s
  (o.st, o.exn)

/-- `Scheduler.prototype.tick` on the default scheduler: drain the FIFO,
and in the `finally` clause re-arm the host callback when items remain. -/
def tick (fuel : Nat) (s : St) : St × Option Val :=
  let o := exec fuel .tickLoop s
  let s2 := if o.st.queue.isEmpty then o.st else scheduleTickS o.st
  (s2, o.exn)

/-- `scheduledTick`: the host callback clears `isScheduled_` then ticks. -/
def scheduledTick (fuel : Nat) (s : St) : St × Option Val :=
  tick fuel { s with scheduled := false }

/-- One host "run soon" delivery: fires the armed callback, if any. -/
def hostFire (fuel : Nat) (s : St) : St × Option Val :=
  if s.scheduled then scheduledTick fuel s else (s, none)

/-- `Scheduler.prototype.deinit`: empty the FIFO without notifications. -/
def schedulerDeinit (s : St) : St := { s with queue := [] }

/-- `Future.prototype.mapError`. -/
def mapErrorFut (s : St) (i : Nat) (f : Val → Except Val Val) : St × Except Val Nat :=
  mapFut s i (.mapErrorW f)

/-- `Future.prototype.mapResult`. -/
def mapResultFut (s : St) (i : Nat) (f : Val → Except Val Val) : St × Except Val Nat :=
  mapFut s i (.mapResultW f)

/-- `Future.prototype.finally`. -/
def finallyFut (s : St) (i : Nat) (f : Val → Val → Except Val Val) : St × Except Val Nat :=
  mapFut s i (.finallyW f)

/-- `Future.from(error, result)`: allocate and settle. -/
def fromFut (fuel : Nat) (s : St) (e r : Val) : St × Option Val × Nat :=
  let sn := allocF s
  let o := exec fuel (.settle sn.2 e r) sn.1
  (o.st, o.exn, sn.2)

/-- `Future.fromError(error)`: validation failure throws. -/
def fromErrorFut (fuel : Nat) (s : St) (e : Val) : St × Option Val × Nat :=
  if !truthy e then (s, some (.errObj "VALIDATION"), 0)
  else fromFut fuel s e (.undef)

/-- `Future.fromResult(result)`. -/
def fromResultFut (fuel : Nat) (s : St) (r : Val) : St × Option Val × Nat :=
  if isFutureV r then (s, none, futId r) else fromFut fuel s .undef r

/-- `Future.all(values)`: allocate the output future and juncture, then run
`initAllJuncture`. -/
def allFut (fuel : Nat) (s : St) (vs : List Val) : St × Option Val × Nat :=
  let sf := allocF s
  let sj := allocJ sf.1 sf.2 vs
  let o := exec fuel (.initAll sj.2 0) sj.1
  (o.st, o.exn, sf.2)

/-- `Future.race(values)`. -/
def raceFut (fuel : Nat) (s : St) (vs : List Val) : St × Option Val × Nat :=
  let sf := allocF s
  let sj := allocJ sf.1 sf.2 vs
  let o := exec fuel (.initRace sj.2 0) sj.1
  (o.st, o.exn, sf.2)

/-! ## Heap access lemmas -/

theorem getF_setF_eq (s : St) (i : Nat) (f : Fut) : getF (setF s i f) i = f := by
  simp [getF, setF]

theorem getF_setF_ne (s : St) (i j : Nat) (f : Fut) (h : j ≠ i) :
    getF (setF s i f) j = getF s j := by
  simp [getF, setF, Function.update_noteq h]

theorem setF_getF_self (s : St) (i : Nat) : setF s i (getF s i) = s := by
  show { s with futs := Function.update s.futs i (s.futs i) } = s
  rw [Function.update_eq_self]

theorem getF_modF_eq (s : St) (i : Nat) (g : Fut → Fut) :
    getF (modF s i g) i = g (getF s i) := by
  simp [modF, getF_setF_eq]

theorem getF_modF_ne (s : St) (i j : Nat) (g : Fut → Fut) (h : j ≠ i) :
    getF (modF s i g) j = getF s j := by
  simp [modF, getF_setF_ne _ _ _ _ h]

theorem getF_allocF_ne (s : St) (j : Nat) (h : j ≠ s.nFuts) :
    getF (allocF s).1 j = getF s j := by
  simp [allocF, getF, Function.update_noteq h]

theorem getF_allocF_new (s : St) : getF (allocF s).1 s.nFuts = freshFut := by
  simp [allocF, getF]

theorem nFuts_setF (s : St) (i : Nat) (f : Fut) : (setF s i f).nFuts = s.nFuts := rfl

theorem nFuts_modF (s : St) (i : Nat) (g : Fut → Fut) : (modF s i g).nFuts = s.nFuts := rfl

theorem nFuts_allocF (s : St) : (allocF s).1.nFuts = s.nFuts + 1 := rfl

theorem getF_scheduleFuture (s : St) (i j : Nat) :
    getF (scheduleFuture s i) j = getF s j := by
  simp only [scheduleFuture, schedulerPush, scheduleTickS]
  split <;> rfl

theorem nFuts_scheduleFuture (s : St) (i : Nat) :
    (scheduleFuture s i).nFuts = s.nFuts := by
  simp only [scheduleFuture, schedulerPush, scheduleTickS]
  split <;> rfl

theorem queue_scheduleFuture (s : St) (i : Nat) :
    (scheduleFuture s i).queue = s.queue ++ [i] := by
  simp only [scheduleFuture, schedulerPush, scheduleTickS]
  split <;> rfl

theorem getF_setJ (s : St) (j : Nat) (ju : Junct) (k : Nat) :
    getF (setJ s j ju) k = getF s k := rfl

theorem getJ_setJ_eq (s : St) (j : Nat) (ju : Junct) : getJ (setJ s j ju) j = ju := by
  simp [getJ, setJ]

theorem getJ_setJ_ne (s : St) (j k : Nat) (ju : Junct) (h : k ≠ j) :
    getJ (setJ s j ju) k = getJ s k := by
  simp [getJ, setJ, Function.update_noteq h]

theorem getJ_setF (s : St) (i : Nat) (f : Fut) (j : Nat) :
    getJ (setF s i f) j = getJ s j := rfl

theorem getJ_scheduleFuture (s : St) (i j : Nat) :
    getJ (scheduleFuture s i) j = getJ s j := by
  simp only [scheduleFuture, schedulerPush, scheduleTickS]
  split <;> rfl

/-! ## List helper lemmas (for the juncture value arrays) -/

theorem listGetD_set_eq {α : Type} (l : List α) (i : Nat) (x d : α)
    (h : i < l.length) : (l.set i x).getD i d = x := by
  simp [List.getD, List.getElem?_set_self, h]

theorem listGetD_set_ne {α : Type} (l : List α) (i j : Nat) (x d : α)
    (h : j ≠ i) : (l.set i x).getD j d = l.getD j d := by
  simp [List.getD, List.getElem?_set_ne (Ne.symm h)]

/-! ## Claim C6: the Mapping guard -/

/-- C6: while a task's mapper is running (the `MAPPING` flag is set), the
task is never re-settled and never deinited: a nested `settle` call on it
is dropped (state unchanged, no exception) and a `deinit` call returns
silently; and for a pending non-mapping task with a stored mapper, `settle`
first runs the mapper on the normalized pair in a state where the task's
`MAPPING` flag is set and its mapper slot is cleared, then clears `MAPPING`
and feeds the produced outcome (thrown value as the error, returned value
as the result) back into `settle`. -/
theorem settle_deinit_dropped_while_mapping (n : Nat) (s : St) (i : Nat) (e r : Val)
    (hm : (getF s i).bits.mapping = true) :
    settle (n + 1) s i e r = (s, none) ∧
    deinit (n + 1) s i = (s, none) ∧
    (∀ m : Mapper, ∀ s2 : St, ∀ i2 : Nat, ∀ e2 r2 : Val,
      (getF s2 i2).bits.settled = false →
      (getF s2 i2).bits.mapping = false →
      isSelfRef e2 i2 = false → isSelfRef r2 i2 = false →
      (getF s2 i2).mapper = some m →
      isFutureV (if truthy e2 then e2 else Val.undef) = false →
      isFutureV (if truthy e2 then Val.undef else r2) = false →
      exec (n + 1) (.settle i2 e2 r2) s2 =
        (let e3 := if truthy e2 then e2 else Val.undef
         let r3 := if truthy e2 then Val.undef else r2
         let f := getF s2 i2
         let s3 := setF s2 i2
           { f with mapper := none, bits := { f.bits with mapping := true } }
         let o := exec n (.runMapper m e3 r3) s3
         let s4 := modF o.st i2
           (fun g => { g with bits := { g.bits with mapping := false } })
         match o.exn with
         | some err => exec n (.settle i2 err .undef) s4
         | none => exec n (.settle i2 .undef o.ret) s4)) := by
  refine ⟨?_, ?_, ?_⟩
  · simp [settle, exec, settleBody, hm, Out.done]
  · simp [deinit, exec, deinitBody, hm, Out.done]
  · intro m s2 i2 e2 r2 hset hmap hs1 hs2 hmapper he hr
    simp only [exec, settleBody, hset, hmap, hs1, hs2, hmapper, he, hr,
      Bool.or_self, Bool.false_eq_true, if_false]

/-- Witness for `settle_deinit_dropped_while_mapping` at a concrete
one-future state whose `MAPPING` flag is set. -/
def mappingWitState : St :=
  { St.empty with
    futs := Function.update St.empty.futs 0
      { freshFut with bits := { freshFut.bits with mapping := true } }
    nFuts := 1 }

theorem settle_deinit_dropped_while_mapping_witness :
    (getF mappingWitState 0).bits.mapping = true ∧
    settle 4 mappingWitState 0 .undef (.int 7) = (mappingWitState, none) := by
  refine ⟨by decide, ?_⟩
  exact (settle_deinit_dropped_while_mapping 3 mappingWitState 0 .undef (.int 7)
    (by decide)).1

/-! ## Claim C2: consumption by map and toPromise -/

/-- The receiver's record after a successful `map`: `CONSUMED` set,
`PENDING_REJECTION` cleared, successor installed. -/
def consumedWithSucc (f : Fut) (nid : Nat) : Fut :=
  { f with bits := { f.bits with consumed := true, pendingRejection := false }
           successor := some nid }

/-- The fresh record holding the mapper and the back link after `map`. -/
def mappedFresh (m : Mapper) (i : Nat) : Fut :=
  { freshFut with mapper := some m, predecessor := some i }

theorem getF_setupPair_pred (s : St) (pred succ : Nat) (hne : succ ≠ pred) :
    getF (setupPair s pred succ) pred = { getF s pred with successor := some succ } := by
  simp only [setupPair]
  split
  · rw [getF_scheduleFuture, getF_modF_ne _ _ _ _ (Ne.symm hne), getF_modF_eq]
  · rw [getF_modF_ne _ _ _ _ (Ne.symm hne), getF_modF_eq]

theorem getF_setupPair_succ (s : St) (pred succ : Nat) (hne : succ ≠ pred) :
    getF (setupPair s pred succ) succ =
      { getF s succ with predecessor := some pred } := by
  simp only [setupPair]
  split
  · rw [getF_scheduleFuture, getF_modF_eq, getF_modF_ne _ _ _ _ hne]
  · rw [getF_modF_eq, getF_modF_ne _ _ _ _ hne]

theorem getF_setupPair_other (s : St) (pred succ j : Nat) (h1 : j ≠ pred)
    (h2 : j ≠ succ) : getF (setupPair s pred succ) j = getF s j := by
  simp only [setupPair]
  split
  · rw [getF_scheduleFuture, getF_modF_ne _ _ _ _ h2, getF_modF_ne _ _ _ _ h1]
  · rw [getF_modF_ne _ _ _ _ h2, getF_modF_ne _ _ _ _ h1]

theorem nFuts_setupPair (s : St) (pred succ : Nat) :
    (setupPair s pred succ).nFuts = s.nFuts := by
  simp only [setupPair]
  split
  · rw [nFuts_scheduleFuture]; rfl
  · rfl

/-- Behavior of a successful `Future.prototype.map` call, stated through
the observable projections: the call returns the id of the freshly
allocated future, marks the receiver `CONSUMED` with `PENDING_REJECTION`
cleared and the new future installed as successor, and the new future is a
pending task holding the mapper and the predecessor back link. -/
theorem allocF_snd (s : St) : (allocF s).2 = s.nFuts := rfl

theorem mapFut_spec (s : St) (i : Nat) (m : Mapper)
    (hc : (getF s i).bits.consumed = false) (hi : i < s.nFuts) :
    (mapFut s i m).2 = .ok s.nFuts ∧
    getF (mapFut s i m).1 i = consumedWithSucc (getF s i) s.nFuts ∧
    getF (mapFut s i m).1 s.nFuts = mappedFresh m i ∧
    (mapFut s i m).1.nFuts = s.nFuts + 1 := by
  have hne : s.nFuts ≠ i := Nat.ne_of_gt hi
  simp only [mapFut, hc, Bool.false_eq_true, if_false, allocF_snd, nFuts_setF]
  refine ⟨by first | rfl | trivial, ?_, ?_, ?_⟩
  · rw [getF_setupPair_pred _ _ _ hne, getF_setF_ne _ _ _ _ hne.symm,
      getF_allocF_ne _ _ (by rw [nFuts_setF]; exact hne.symm), getF_setF_eq]
    rfl
  · rw [getF_setupPair_succ _ _ _ hne, getF_setF_eq]
    rfl
  · rw [nFuts_setupPair, nFuts_setF, nFuts_allocF, nFuts_setF]

/-- One-future state used by the C2 and C10 concrete theorems. -/
def oneFreshState : St := (allocF St.empty).1

/-- C2 counterexample: `toPromise` does not mark the receiver `Consumed`.
On a fresh pending task, `toPromise` succeeds, the `CONSUMED` flag is still
clear afterwards, and a subsequent `map` call succeeds instead of raising —
refuting the claim that `map` and `toPromise` each mark the receiver task
Consumed. -/
theorem toPromise_does_not_consume :
    (getF (toPromiseFut oneFreshState 0).1 0).bits.consumed = false ∧
    (mapFut (toPromiseFut oneFreshState 0).1 0 (.fn (fun e _ => .error e))).2 = .ok 1 := by
  exact ⟨rfl, rfl⟩

/-- C2 (amended): `map` marks the receiver `Consumed` and installs the
freshly created task as its unique successor; calling `map` or `toPromise`
on an already-`Consumed` task raises the consumable error synchronously
with the state completely unchanged (in particular no successor is
created).  `toPromise` itself does not set the `Consumed` flag unless it
delegates to `map` (pending receiver with an occupied finalizer slot). -/
theorem map_consumes_and_consumed_rejects :
    (∀ (s : St) (i : Nat) (m : Mapper),
      (getF s i).bits.consumed = false → i < s.nFuts →
      (getF (mapFut s i m).1 i).bits.consumed = true ∧
      (getF (mapFut s i m).1 i).successor = some s.nFuts ∧
      (getF (mapFut s i m).1 s.nFuts).predecessor = some i ∧
      (getF (mapFut s i m).1 s.nFuts).bits = freshFut.bits ∧
      (mapFut s i m).2 = .ok s.nFuts) ∧
    (∀ (s : St) (i : Nat) (m : Mapper), (getF s i).bits.consumed = true →
      mapFut s i m = (s, .error (.errObj CONSUMABLE_ERROR))) ∧
    (∀ (s : St) (i : Nat), (getF s i).bits.consumed = true →
      toPromiseFut s i = (s, .error (.errObj CONSUMABLE_ERROR))) := by
  refine ⟨?_, ?_, ?_⟩
  · intro s i m hc hi
    have h := mapFut_spec s i m hc hi
    refine ⟨?_, ?_, ?_, ?_, h.1⟩
    · rw [h.2.1]; rfl
    · rw [h.2.1]; rfl
    · rw [h.2.2.1]; rfl
    · rw [h.2.2.1]; rfl
  · intro s i m hc
    simp [mapFut, hc]
  · intro s i hc
    simp [toPromiseFut, hc]

/-- Witness for `map_consumes_and_consumed_rejects`: on the one-future
state, `map` consumes the receiver and links `fut 1`, and a second `map` or
a `toPromise` on the now-consumed receiver raises the consumable error. -/
theorem map_consumes_witness :
    ((getF oneFreshState 0).bits.consumed = false ∧ 0 < oneFreshState.nFuts ∧
      (getF (mapFut oneFreshState 0 .alwaysThrow).1 0).bits.consumed = true ∧
      (getF (mapFut oneFreshState 0 .alwaysThrow).1 0).successor =
        some oneFreshState.nFuts ∧
      (getF (mapFut oneFreshState 0 .alwaysThrow).1 oneFreshState.nFuts).predecessor =
        some 0 ∧
      (getF (mapFut oneFreshState 0 .alwaysThrow).1 oneFreshState.nFuts).bits =
        freshFut.bits ∧
      (mapFut oneFreshState 0 .alwaysThrow).2 = .ok oneFreshState.nFuts) ∧
    ((getF (mapFut oneFreshState 0 .alwaysThrow).1 0).bits.consumed = true ∧
      mapFut (mapFut oneFreshState 0 .alwaysThrow).1 0 .alwaysThrow =
        ((mapFut oneFreshState 0 .alwaysThrow).1, .error (.errObj CONSUMABLE_ERROR)) ∧
      toPromiseFut (mapFut oneFreshState 0 .alwaysThrow).1 0 =
        ((mapFut oneFreshState 0 .alwaysThrow).1, .error (.errObj CONSUMABLE_ERROR))) := by
  constructor
  · refine ⟨rfl, by decide, ?_⟩
    have h := (map_consumes_and_consumed_rejects.1) oneFreshState 0 .alwaysThrow rfl
      (by decide)
    exact ⟨h.1, h.2.1, h.2.2.1, h.2.2.2.1, h.2.2.2.2⟩
  · refine ⟨rfl, ?_, ?_⟩
    · exact (map_consumes_and_consumed_rejects.2.1) _ 0 .alwaysThrow rfl
    · exact (map_consumes_and_consumed_rejects.2.2) _ 0 rfl

/-! ## Claim C10: weak branches -/

theorem isSelfRef_undef (j : Nat) : isSelfRef .undef j = false := rfl

theorem isFutureV_undef : isFutureV .undef = false := rfl

theorem truthy_undef : truthy .undef = false := rfl

theorem freshFut_settled : freshFut.bits.settled = false := rfl

theorem freshFut_mapping : freshFut.bits.mapping = false := rfl

theorem freshFut_mapper : freshFut.mapper = none := rfl

theorem freshFut_error : freshFut.bits.error = false := rfl

theorem freshFut_success : freshFut.bits.success = false := rfl

theorem freshFut_pending : freshFut.bits.pending = true := rfl

theorem freshFut_pr : freshFut.bits.pendingRejection = false := rfl

theorem freshFut_finalizer : freshFut.finalizer = none := rfl

theorem freshFut_weaks : freshFut.weaks = [] := rfl

theorem freshFut_value : freshFut.value = Val.undef := rfl

theorem freshFut_succ : freshFut.successor = none := rfl

theorem isSelfRef_false_of_not_future (v : Val) (j : Nat)
    (h : isFutureV v = false) : isSelfRef v j = false := by
  cases v <;> simp_all [isSelfRef, isFutureV]

/-- `weak()` never throws (it is a total function with no exception
channel) and always allocates a fresh pending branch: regardless of the
receiver's flags — `Consumed`, settled, anything — it returns the new
branch's id, appends it to the receiver's weak FIFO without touching the
receiver's flags or value, and schedules the receiver for a notification
flush.  Combined with `weak_delivery_spec` below this settles C10. -/
theorem weakFut_spec (s : St) (i : Nat) (hi : i < s.nFuts) :
    (weakFut s i).2 = s.nFuts ∧
    getF (weakFut s i).1 s.nFuts = freshFut ∧
    getF (weakFut s i).1 i =
      { getF s i with weaks := (getF s i).weaks ++ [s.nFuts] } ∧
    (weakFut s i).1.queue = s.queue ++ [i] := by
  have hne : s.nFuts ≠ i := Nat.ne_of_gt hi
  simp only [weakFut, allocF_snd]
  refine ⟨by first | rfl | trivial, ?_, ?_, ?_⟩
  · rw [getF_scheduleFuture, getF_modF_ne _ _ _ _ hne, getF_allocF_new]
  · rw [getF_scheduleFuture, getF_modF_eq, getF_allocF_ne _ _ (Nat.ne_of_lt hi)]
  · rw [queue_scheduleFuture]; rfl

/-- The record written by the terminal clause of `settle` (store the value,
flip the state flags, raise `PENDING_REJECTION` on an error). -/
def settledRecord (f : Fut) (e2 r2 : Val) : Fut :=
  { f with value := orVal e2 r2
           bits := { f.bits.replaceState (truthy e2) with
                     pendingRejection := truthy e2 || f.bits.pendingRejection } }

/-- One-step description of `settle` when it reaches its terminal clause:
the receiver is pending, not mapping, has no stored mapper, the arguments
are not the receiver itself, and the normalized pair contains no task. -/
theorem settle_terminal (n : Nat) (s : St) (i : Nat) (e r : Val)
    (hst : (getF s i).bits.settled = false)
    (hmp : (getF s i).bits.mapping = false)
    (hse : isSelfRef e i = false) (hsr : isSelfRef r i = false)
    (hmap : (getF s i).mapper = none)
    (hfe : isFutureV (if truthy e then e else Val.undef) = false)
    (hfr : isFutureV (if truthy e then Val.undef else r) = false) :
    exec (n + 1) (.settle i e r) s =
      Out.done (scheduleFuture (setF s i
        (settledRecord (getF s i) (if truthy e then e else Val.undef)
          (if truthy e then Val.undef else r))) i) := by
  simp only [exec, settleBody, hst, hmp, hse, hsr, hmap, hfe, hfr, Bool.or_self,
    Bool.false_eq_true, if_false, settledRecord]

/-- A settled parent with pending weak branch `b` delivers a copy of its
outcome to `b` on the next `finishPending` flush: `b` leaves Pending and
stores the parent's value, entering Error exactly when the parent is in
Error (a weak branch of a rejected parent records the rejection as its own
`PENDING_REJECTION`); the flush itself completes without throwing.  The
parent's `Consumed` flag plays no role: no hypothesis constrains it. -/
theorem weak_delivery_spec (n : Nat) (s : St) (i b : Nat) (hbi : b ≠ i)
    (hset : (getF s i).bits.settled = true)
    (hsucc : (getF s i).successor = none)
    (hweaks : (getF s i).weaks = [b])
    (hfin : (getF s i).finalizer = none)
    (hpr : (getF s i).bits.pendingRejection = false)
    (hbfresh : getF s b = freshFut)
    (hval : isFutureV ((getF s i).value) = false)
    (hverr : (getF s i).bits.error = true → truthy ((getF s i).value) = true) :
    (exec (n + 3) (.finishPending i) s).exn = none ∧
    (getF (exec (n + 3) (.finishPending i) s).st b).bits.pending = false ∧
    (getF (exec (n + 3) (.finishPending i) s).st b).bits.error =
      (getF s i).bits.error ∧
    (getF (exec (n + 3) (.finishPending i) s).st b).bits.success =
      !(getF s i).bits.error ∧
    (getF (exec (n + 3) (.finishPending i) s).st b).value = (getF s i).value := by
  have hib : i ≠ b := Ne.symm hbi
  have hself : isSelfRef ((getF s i).value) b = false :=
    isSelfRef_false_of_not_future _ _ hval
  by_cases herr : (getF s i).bits.error = true
  · have hv : truthy ((getF s i).value) = true := hverr herr
    simp [exec, finishPendingBody, weakLoopBody, finalizeBody, rejectionCheck,
      settleBody, Out.done, Out.raise, getF_setF_eq, getF_setF_ne, getF_scheduleFuture,
      hset, hsucc, hweaks, hfin, hpr, hbfresh, hbi, hib, freshFut_settled,
      freshFut_mapping, freshFut_mapper, freshFut_error, freshFut_success,
      freshFut_pending, freshFut_pr, freshFut_finalizer, freshFut_weaks,
      freshFut_value, freshFut_succ, hself, isSelfRef_undef, isFutureV_undef,
      truthy_undef, hval, hv, herr, Bits.settled, Bits.replaceState, orVal]
  · have herrf : (getF s i).bits.error = false := by simpa using herr
    have hsuc : (getF s i).bits.success = true := by
      have h2 := hset
      simp [Bits.settled, herrf] at h2
      exact h2
    simp [exec, finishPendingBody, weakLoopBody, finalizeBody, rejectionCheck,
      settleBody, Out.done, Out.raise, getF_setF_eq, getF_setF_ne, getF_scheduleFuture,
      hset, hsucc, hweaks, hfin, hpr, hbfresh, hbi, hib, hsuc, freshFut_settled,
      freshFut_mapping, freshFut_mapper, freshFut_error, freshFut_success,
      freshFut_pending, freshFut_pr, freshFut_finalizer, freshFut_weaks,
      freshFut_value, freshFut_succ, hself, isSelfRef_undef, isFutureV_undef,
      truthy_undef, hval, herrf, Bits.settled, Bits.replaceState, orVal]

/-- C10: `weak()` never throws (it is total, with no exception channel) and
always returns a fresh Pending branch appended to the receiver's weak FIFO,
regardless of the receiver's flags — the statement places no constraint on
the receiver's bits, so it covers Consumed and settled receivers alike —
and schedules the receiver; and a settled parent delivers a copy of its
outcome (same value, Error exactly when the parent erred) to a pending weak
branch at the next notification flush, without throwing.  The `Consumed`
flag restricts only `map` and `toPromise` (their guard is
`map_consumes_and_consumed_rejects`); `weak` never inspects it. -/
theorem weak_always_branches_and_delivers :
    (∀ (s : St) (i : Nat), i < s.nFuts →
      (weakFut s i).2 = s.nFuts ∧
      getF (weakFut s i).1 s.nFuts = freshFut ∧
      getF (weakFut s i).1 i =
        { getF s i with weaks := (getF s i).weaks ++ [s.nFuts] } ∧
      (weakFut s i).1.queue = s.queue ++ [i]) ∧
    (∀ (n : Nat) (s : St) (i b : Nat), b ≠ i →
      (getF s i).bits.settled = true →
      (getF s i).successor = none →
      (getF s i).weaks = [b] →
      (getF s i).finalizer = none →
      (getF s i).bits.pendingRejection = false →
      getF s b = freshFut →
      isFutureV ((getF s i).value) = false →
      ((getF s i).bits.error = true → truthy ((getF s i).value) = true) →
      (exec (n + 3) (.finishPending i) s).exn = none ∧
      (getF (exec (n + 3) (.finishPending i) s).st b).bits.pending = false ∧
      (getF (exec (n + 3) (.finishPending i) s).st b).bits.error =
        (getF s i).bits.error ∧
      (getF (exec (n + 3) (.finishPending i) s).st b).bits.success =
        !(getF s i).bits.error ∧
      (getF (exec (n + 3) (.finishPending i) s).st b).value = (getF s i).value) := by
  exact ⟨weakFut_spec, weak_delivery_spec⟩

/-- Two-future state for the C10 witness: a Consumed, settled-success
parent holding `9` with one pending weak branch. -/
def weakWitState : St :=
  { St.empty with
    futs := Function.update (Function.update St.empty.futs 0
      { freshFut with
        bits := { pending := false, error := false, success := true,
                  pendingRejection := false, consumed := true, mapping := false }
        value := .int 9
        weaks := [1] }) 1 freshFut
    nFuts := 2 }

theorem weak_always_branches_and_delivers_witness :
    ((0 : Nat) < weakWitState.nFuts ∧
      (weakFut weakWitState 0).2 = weakWitState.nFuts ∧
      getF (weakFut weakWitState 0).1 weakWitState.nFuts = freshFut ∧
      getF (weakFut weakWitState 0).1 0 =
        { getF weakWitState 0 with
          weaks := (getF weakWitState 0).weaks ++ [weakWitState.nFuts] } ∧
      (weakFut weakWitState 0).1.queue = weakWitState.queue ++ [0]) ∧
    ((1 : Nat) ≠ 0 ∧ (getF weakWitState 0).bits.settled = true ∧
      (exec 3 (.finishPending 0) weakWitState).exn = none ∧
      (getF (exec 3 (.finishPending 0) weakWitState).st 1).bits.pending = false ∧
      (getF (exec 3 (.finishPending 0) weakWitState).st 1).bits.error =
        (getF weakWitState 0).bits.error ∧
      (getF (exec 3 (.finishPending 0) weakWitState).st 1).bits.success =
        !(getF weakWitState 0).bits.error ∧
      (getF (exec 3 (.finishPending 0) weakWitState).st 1).value =
        (getF weakWitState 0).value) := by
  constructor
  · refine ⟨by decide, ?_⟩
    exact weak_always_branches_and_delivers.1 weakWitState 0 (by decide)
  · refine ⟨by decide, by decide, ?_⟩
    exact weak_always_branches_and_delivers.2 0 weakWitState 0 1 (by decide)
      (by decide) rfl rfl rfl (by decide) rfl rfl (fun h => absurd h (by decide))

/-! ## Claim C5: deinit idempotence -/

/-- State for the C5 counterexample: `fut 2` is `fut 0` mapped with a user
function that returns the fresh pending task `fut 1` — the situation the
source comments on with "The mapper, if any, may replace the predecessor
during `settle`". -/
def c5State : St :=
  (mapFut (allocF (allocF St.empty).1).1 0 (.fn (fun _ _ => .ok (.fut 1)))).1

/-- C5 counterexample: `deinit` is not idempotent for every task.  On
`c5State`, the first `deinit` of task 2 returns silently but leaves task 2
Pending (its mapper returned a fresh task, which `settle` attached as a new
predecessor); the second `deinit` call is not a no-op: it settles task 2
with the deinit error — an observable state change and a second
settlement. -/
theorem deinit_not_idempotent :
    (deinit 20 c5State 2).2 = none ∧
    (getF (deinit 20 c5State 2).1 2).bits.pending = true ∧
    (getF (deinit 20 c5State 2).1 2).bits.error = false ∧
    (deinit 20 (deinit 20 c5State 2).1 2).2 = none ∧
    (getF (deinit 20 (deinit 20 c5State 2).1 2).1 2).bits.pending = false ∧
    (getF (deinit 20 (deinit 20 c5State 2).1 2).1 2).bits.error = true ∧
    isDeinitError (getF (deinit 20 (deinit 20 c5State 2).1 2).1 2).value = true := by
  exact ⟨rfl, rfl, rfl, rfl, rfl, rfl, rfl⟩

/-- C5 (amended): `deinit` is a strict no-op — identical state, no
exception, no second settlement, no repeated finalizer run — on every task
that a completed `deinit` has left settled: settled, detached from its
predecessor, finalizer slot empty, `PENDING_REJECTION` clear, not
mid-mapper.  Every `deinit` that settles its task leaves it in this shape,
so repeated `deinit` is idempotent except in the corner case of
`deinit_not_idempotent`, where the task's mapper returns a fresh task
during the cancelation settlement and the task stays pending. -/
theorem setF_setF (s : St) (i : Nat) (f g : Fut) :
    setF (setF s i f) i g = setF s i g := by
  simp [setF, Function.update_idem]

set_option maxHeartbeats 1600000 in
theorem deinit_noop_on_deinited (n : Nat) (s : St) (i : Nat)
    (hset : (getF s i).bits.settled = true)
    (hmp : (getF s i).bits.mapping = false)
    (hpred : (getF s i).predecessor = none)
    (hfin : (getF s i).finalizer = none)
    (hpr : (getF s i).bits.pendingRejection = false) :
    deinit (n + 2) s i = (s, none) := by
  rcases hgf : getF s i with ⟨⟨p, er, su, pr, c, mp⟩, v, pd, sc, wk, mpr, fz⟩
  rw [hgf] at hset hmp hpred hfin hpr
  simp only [Bits.settled] at hset hmp hpred hfin hpr
  subst hmp hpred hfin hpr
  simp only [deinit, exec, deinitBody, hgf, hset, Bool.false_eq_true, if_false,
    if_true, Out.done, modF, getF_setF_eq, setF_setF, finalizeBody, Bits.settled]
  rw [show ((⟨⟨p, er, su, false, c, false⟩, v, none, sc, wk, mpr, none⟩ : Fut) : Fut)
    = getF s i from hgf.symm, setF_getF_self]
  simp [hgf, Out.done]

/-- Witness for `deinit_noop_on_deinited`: after deiniting a fresh task,
a second `deinit` returns the state unchanged. -/
theorem deinit_noop_on_deinited_witness :
    ((getF (deinit 20 oneFreshState 0).1 0).bits.settled = true ∧
      (getF (deinit 20 oneFreshState 0).1 0).bits.mapping = false ∧
      (getF (deinit 20 oneFreshState 0).1 0).predecessor = none ∧
      (getF (deinit 20 oneFreshState 0).1 0).finalizer = none ∧
      (getF (deinit 20 oneFreshState 0).1 0).bits.pendingRejection = false) ∧
    deinit 9 (deinit 20 oneFreshState 0).1 0 = ((deinit 20 oneFreshState 0).1, none) := by
  refine ⟨⟨by decide, by decide, ?_, ?_, by decide⟩, ?_⟩
  · rfl
  · rfl
  · exact deinit_noop_on_deinited 7 (deinit 20 oneFreshState 0).1 0 (by decide)
      (by decide) rfl rfl (by decide)

/-! ## Claim C3: finally and task-returning finalizers -/

/-- State for the C3 evaluation: task 0 = `fromError("fail")`, task 1 =
`fromResult("ok")`, task 2 = task 0 `.finally` of a finalizer returning
task 1. -/
def c3State : St :=
  (finallyFut (fromFut 20 (fromFut 20 St.empty (.str "fail") .undef).1
    .undef (.str "ok")).1 0 (fun _ _ => .ok (.fut 1))).1

/-- The C3 state after one full scheduler drain. -/
def c3Drained : St := (hostFire 99 c3State).1

/-- C3: evaluating the embedded source at the failing input.  Task 0
settles with error `"fail"`; its `finally` finalizer returns the succeeding
task 1; after the scheduler drain the finally-task (task 2) has settled
with *success* `undefined` — the original error is lost, because
`mapFinally` re-yields only the captured `result` (which `settle` forced to
`undefined` when the error was set) through
`finalization.mapResult(resetResult)`.  The claim (and the library's own
readme, which promises that a future returned by the finalizer delays the
outcome without changing it) requires error `"fail"` here. -/
theorem finally_drops_error_outcome :
    (getF c3State 0).bits.error = true ∧
    (getF c3State 0).value = .str "fail" ∧
    (hostFire 99 c3State).2 = none ∧
    (getF c3Drained 2).bits.success = true ∧
    (getF c3Drained 2).bits.error = false ∧
    (getF c3Drained 2).value = .undef := by
  exact ⟨rfl, rfl, rfl, rfl, rfl, rfl⟩

/-! ## Claim C9: scheduler tick exceptions -/

/-- C9: exceptions during `Scheduler.prototype.tick` abort the drain but
leave the scheduler sound.  (1) If `finishPending` of the head of the FIFO
throws `e`, `tick` propagates exactly `e` to its caller; (2) in that case,
if items remain in the FIFO afterwards, the resulting state has the host
callback re-armed (`isScheduled_` set); and (3) in full generality — any
fuel, any state, exception or not — `tick` never returns a state whose
FIFO is non-empty but whose host callback is unarmed. -/
theorem tick_exception_propagates_and_rearms (n : Nat) (s : St) (i : Nat)
    (rest : List Nat) (e : Val) (hq : s.queue = i :: rest)
    (he : (exec (n + 1) (.finishPending i) { s with queue := rest }).exn = some e) :
    (tick (n + 2) s).2 = some e ∧
    ((exec (n + 1) (.finishPending i) { s with queue := rest }).st.queue ≠ [] →
      (tick (n + 2) s).1.scheduled = true) ∧
    (∀ (fuel : Nat) (s2 : St), (tick fuel s2).1.queue ≠ [] →
      (tick fuel s2).1.scheduled = true) := by
  have hloop : exec (n + 2) .tickLoop s =
      Out.raise (exec (n + 1) (.finishPending i) { s with queue := rest }).st e := by
    rw [show exec (n + 2) .tickLoop s = tickLoopBody (exec (n + 1)) s from rfl]
    simp only [tickLoopBody, hq, he]
  refine ⟨?_, ?_, ?_⟩
  · simp only [tick, hloop, Out.raise]
  · intro hne
    simp only [tick, hloop, Out.raise]
    simp only [List.isEmpty_iff, hne, if_false, scheduleTickS]
    split <;> simp_all
  · intro fuel s2 hne
    have : (tick fuel s2).1 =
        (if (exec fuel .tickLoop s2).st.queue.isEmpty then (exec fuel .tickLoop s2).st
         else scheduleTickS (exec fuel .tickLoop s2).st) := rfl
    rw [this] at hne ⊢
    by_cases hq2 : (exec fuel .tickLoop s2).st.queue.isEmpty
    · rw [if_pos hq2] at hne
      exact absurd (List.isEmpty_iff.mp hq2) hne
    · rw [if_neg hq2]
      simp only [scheduleTickS]
      split <;> simp_all

/-- State for the C9 witness: task 0 is settled in Error with its
`PENDING_REJECTION` flag still set (an unhandled rejection), task 1 is
fresh; both are queued for the flush. -/
def c9State : St :=
  { St.empty with
    futs := Function.update (Function.update St.empty.futs 0
      { freshFut with
        bits := { pending := false, error := true, success := false,
                  pendingRejection := true, consumed := false, mapping := false }
        value := .str "boom" }) 1 freshFut
    nFuts := 2
    queue := [0, 1]
    scheduled := false }

theorem tick_exception_witness :
    (c9State.queue = 0 :: [1] ∧
      (exec 3 (.finishPending 0) { c9State with queue := [1] }).exn =
        some (.str "boom")) ∧
    (tick 4 c9State).2 = some (.str "boom") ∧
    (tick 4 c9State).1.scheduled = true := by
  refine ⟨⟨rfl, rfl⟩, ?_, ?_⟩
  · exact (tick_exception_propagates_and_rearms 2 c9State 0 [1] (.str "boom")
      rfl rfl).1
  · exact (tick_exception_propagates_and_rearms 2 c9State 0 [1] (.str "boom")
      rfl rfl).2.1 (by decide)

/-! ## Claim C4: synchronous upstream cancelation -/

/-- Mapper results that are not tasks (no flattening): the condition under
which `settle`'s mapper branch terminates in one round. -/
def nonFutRes : Except Val Val → Prop
  | .ok v => isFutureV v = false
  | .error v => isFutureV v = false

/-- Mappers that never produce a task, in either the return or the throw
position.  Covers the mapper-free case and user mappers with task-free
outcomes. -/
def mapperSafe : Option Mapper → Prop
  | none => True
  | some (.fn f) => ∀ e r, nonFutRes (f e r)
  | some _ => False

theorem extLog_setF (s : St) (i : Nat) (f : Fut) : (setF s i f).extLog = s.extLog := rfl

theorem extLog_modF (s : St) (i : Nat) (g : Fut → Fut) :
    (modF s i g).extLog = s.extLog := rfl

theorem extLog_scheduleFuture (s : St) (i : Nat) :
    (scheduleFuture s i).extLog = s.extLog := by
  simp only [scheduleFuture, schedulerPush, scheduleTickS]
  split <;> rfl

/-- Effect of `settle` on a pending, non-mapping task whose stored mapper
(if any) produces no task: the task's record alone is rewritten — its
finalizer and predecessor slots intact, `MAPPING` clear, the task settled —
and the task is scheduled; no exception escapes. -/
theorem settle_chainhead (F : Nat) (s : St) (i : Nat) (e : Val)
    (hpend : (getF s i).bits.settled = false)
    (hmap : (getF s i).bits.mapping = false)
    (hsafe : mapperSafe ((getF s i).mapper))
    (he : truthy e = true) (hef : isFutureV e = false)
    (hes : isSelfRef e i = false) :
    ∃ fut' : Fut, exec (F + 2) (.settle i e .undef) s =
      Out.done (scheduleFuture (setF s i fut') i) ∧
      fut'.finalizer = (getF s i).finalizer ∧
      fut'.predecessor = (getF s i).predecessor ∧
      fut'.bits.mapping = false ∧
      fut'.bits.settled = true ∧
      fut'.mapper = none := by
  cases hmm : (getF s i).mapper with
  | none =>
    refine ⟨settledRecord (getF s i) e Val.undef, ?_, rfl, rfl, ?_, ?_, hmm⟩
    · have hterm := settle_terminal (F + 1) s i e Val.undef hpend hmap hes
        (isSelfRef_undef i) hmm (by simp only [he, if_true]; exact hef)
        (by simp only [he, if_true]; exact isFutureV_undef)
      rw [hterm]
      simp only [he, if_true]
    · simp only [settledRecord, Bits.replaceState]
      exact hmap
    · simp only [settledRecord, Bits.replaceState, Bits.settled, he]
      simp
  | some m =>
    cases m with
    | fn fn =>
      have hsafe2 : ∀ a b, nonFutRes (fn a b) := by
        simpa [mapperSafe, hmm] using hsafe
      -- the state after the mapper bookkeeping: mapper slot cleared
      have hbits : ({ (getF s i).bits with mapping := false } : Bits) =
          (getF s i).bits := by rw [← hmap]
      have hstep : exec (F + 2) (.settle i e .undef) s =
          (let o := exec (F + 1) (.runMapper (.fn fn) e .undef) (setF s i { getF s i with mapper := none, bits := { (getF s i).bits with mapping := true } })
           let s4 := modF o.st i (fun g => { g with bits := { g.bits with mapping := false } })
           match o.exn with
           | some err => exec (F + 1) (.settle i err .undef) s4
           | none => exec (F + 1) (.settle i .undef o.ret) s4) := by
        simp only [exec, settleBody, hpend, hmap, hes, isSelfRef_undef, Bool.or_self,
          Bool.false_eq_true, if_false, he, if_true, hef, isFutureV_undef, hmm]
      have hsB :
          modF (setF s i { getF s i with mapper := none, bits := { (getF s i).bits with mapping := true } }) i (fun g => { g with bits := { g.bits with mapping := false } }) =
          setF s i { getF s i with mapper := none } := by
        rw [modF, getF_setF_eq, setF_setF]
        congr 1
        simp only []
        rw [hbits]
      cases hres : fn e Val.undef with
      | ok v =>
        have hvf : isFutureV v = false := by
          have := hsafe2 e Val.undef
          rw [hres] at this
          exact this
        refine ⟨settledRecord { getF s i with mapper := none } Val.undef v,
          ?_, rfl, rfl, ?_, ?_, rfl⟩
        · rw [hstep]
          have hrm : exec (F + 1) (.runMapper (.fn fn) e .undef) (setF s i { getF s i with mapper := none, bits := { (getF s i).bits with mapping := true } }) = Out.val (setF s i { getF s i with mapper := none, bits := { (getF s i).bits with mapping := true } }) v := by
            simp only [exec, runMapperBody, hres]
          simp only [hrm, Out.val]
          rw [hsB]
          have hterm := settle_terminal F (setF s i { getF s i with mapper := none })
            i Val.undef v (by rw [getF_setF_eq]; exact hpend)
            (by rw [getF_setF_eq]; exact hmap) (isSelfRef_undef i)
            (isSelfRef_false_of_not_future v i hvf) (by rw [getF_setF_eq])
            (by simp only [truthy_undef, Bool.false_eq_true, if_false]
                exact isFutureV_undef)
            (by simp only [truthy_undef, Bool.false_eq_true, if_false]; exact hvf)
          rw [hterm, getF_setF_eq, setF_setF]
          simp only [truthy_undef, Bool.false_eq_true, if_false]
        · simp only [settledRecord, Bits.replaceState]
          exact hmap
        · simp only [settledRecord, Bits.replaceState, Bits.settled, truthy_undef]
          simp
      | error ev =>
        have hvf : isFutureV ev = false := by
          have := hsafe2 e Val.undef
          rw [hres] at this
          exact this
        refine ⟨settledRecord { getF s i with mapper := none }
          (if truthy ev then ev else Val.undef)
          (if truthy ev then Val.undef else Val.undef), ?_, rfl, rfl, ?_, ?_, rfl⟩
        · rw [hstep]
          have hrm : exec (F + 1) (.runMapper (.fn fn) e .undef) (setF s i { getF s i with mapper := none, bits := { (getF s i).bits with mapping := true } }) = Out.raise (setF s i { getF s i with mapper := none, bits := { (getF s i).bits with mapping := true } }) ev := by
            simp only [exec, runMapperBody, hres]
          simp only [hrm, Out.raise]
          rw [hsB]
          have hterm := settle_terminal F (setF s i { getF s i with mapper := none })
            i ev Val.undef (by rw [getF_setF_eq]; exact hpend)
            (by rw [getF_setF_eq]; exact hmap)
            (isSelfRef_false_of_not_future ev i hvf) (isSelfRef_undef i)
            (by rw [getF_setF_eq])
            (by split
                · exact hvf
                · exact isFutureV_undef)
            (by split <;> exact isFutureV_undef)
          rw [hterm, getF_setF_eq, setF_setF]
        · simp only [settledRecord, Bits.replaceState]
          exact hmap
        · simp only [settledRecord, Bits.replaceState, Bits.settled]
          split <;> simp
    | alwaysThrow => exact absurd hsafe (by simp [mapperSafe, hmm])
    | mapErrorW f => exact absurd hsafe (by simp [mapperSafe, hmm])
    | mapResultW f => exact absurd hsafe (by simp [mapperSafe, hmm])
    | finallyW f => exact absurd hsafe (by simp [mapperSafe, hmm])
    | errorSettle j => exact absurd hsafe (by simp [mapperSafe, hmm])
    | valueSettle j => exact absurd hsafe (by simp [mapperSafe, hmm])
    | settleAllAtIndex j k => exact absurd hsafe (by simp [mapperSafe, hmm])
    | settleRaceWith j => exact absurd hsafe (by simp [mapperSafe, hmm])
    | settlePromise j k => exact absurd hsafe (by simp [mapperSafe, hmm])

theorem getF_setLog (s : St) (L : List Nat) (j : Nat) :
    getF { s with extLog := L } j = getF s j := rfl

/-- One `deinit` step on a chain head: the head is settled with the deinit
error, its `PENDING_REJECTION` flag cleared, its finalizer popped and run —
the tag appended to the log and the finalizer's throw captured — before the
upstream `deinit` and the (absent) downstream replacement run on the logged
state. -/
theorem deinit_head_step (G2 : Nat) (s : St) (i tag : Nat) (fthrow : Option Val)
    (prev : Option Nat)
    (hmap : (getF s i).bits.mapping = false)
    (hpend : (getF s i).bits.settled = false)
    (hfin : (getF s i).finalizer = some (.ext tag fthrow))
    (hpred : (getF s i).predecessor = prev)
    (hsafe : mapperSafe ((getF s i).mapper)) :
    ∃ s3 : St,
      s3.extLog = s.extLog ++ [tag] ∧
      (∀ j, j ≠ i → getF s3 j = getF s j) ∧
      (getF s3 i).predecessor = none ∧
      exec (G2 + 3) (.deinit i) s =
        (let oC := match prev with
                   | some p => exec (G2 + 2) (.deinit p) s3
                   | none => Out.done s3
         let next := (getF oC.st i).predecessor
         let s4 := modF oC.st i (fun g => { g with predecessor := none })
         let oD := match next with
                   | some p2 => exec (G2 + 2) (.deinit p2) s4
                   | none => Out.done s4
         { st := oD.st, exn := oD.exn <|> oC.exn <|> fthrow <|> none, ret := .undef }) := by
  have hs1 : getF (setF s i { getF s i with predecessor := none }) i =
      { getF s i with predecessor := none } := getF_setF_eq _ _ _
  obtain ⟨fut', hA, hAfin, hApred, hAmap, hAset, hAmapper⟩ :=
    settle_chainhead G2 (setF s i { getF s i with predecessor := none }) i
      (.errObj DEINIT_ERROR)
      (by rw [hs1]; exact hpend) (by rw [hs1]; exact hmap)
      (by rw [hs1]; exact hsafe) rfl rfl rfl
  rw [setF_setF] at hA
  have hfin' : fut'.finalizer = some (.ext tag fthrow) := by
    rw [hAfin, hs1]; exact hfin
  have hpred' : fut'.predecessor = none := by
    rw [hApred, hs1]
  have hgf2 : getF (modF (scheduleFuture (setF s i fut') i) i (fun g => { g with bits := { g.bits with pendingRejection := false } })) i =
      { fut' with bits := { fut'.bits with pendingRejection := false } } := by
    rw [getF_modF_eq, getF_scheduleFuture, getF_setF_eq]
  have hB : exec (G2 + 2) (.finalizeFut i)
      (modF (scheduleFuture (setF s i fut') i) i (fun g => { g with bits := { g.bits with pendingRejection := false } })) =
      { st := { setF (modF (scheduleFuture (setF s i fut') i) i (fun g => { g with bits := { g.bits with pendingRejection := false } })) i { fut' with bits := { fut'.bits with pendingRejection := false }, finalizer := none } with extLog := s.extLog ++ [tag] }, exn := fthrow, ret := .undef } := by
    rw [show exec (G2 + 2) (.finalizeFut i)
        (modF (scheduleFuture (setF s i fut') i) i (fun g => { g with bits := { g.bits with pendingRejection := false } })) =
        finalizeBody (exec (G2 + 1)) i
        (modF (scheduleFuture (setF s i fut') i) i (fun g => { g with bits := { g.bits with pendingRejection := false } })) from rfl]
    simp only [finalizeBody, hgf2, hfin']
    cases hbe : fut'.bits.error <;>
      simp only [hbe, Bool.false_eq_true, if_false, if_true,
        exec, runFinalizerBody, extLog_setF, extLog_modF, extLog_scheduleFuture]
  refine ⟨{ setF (modF (scheduleFuture (setF s i fut') i) i (fun g => { g with bits := { g.bits with pendingRejection := false } })) i { fut' with bits := { fut'.bits with pendingRejection := false }, finalizer := none } with extLog := s.extLog ++ [tag] }, rfl, ?_, ?_, ?_⟩
  · intro j hj
    rw [getF_setLog, getF_setF_ne _ _ _ _ hj, getF_modF_ne _ _ _ _ hj,
      getF_scheduleFuture, getF_setF_ne _ _ _ _ hj]
  · rw [getF_setLog, getF_setF_eq]
    exact hpred'
  · rw [show exec (G2 + 3) (.deinit i) s = deinitBody (exec (G2 + 2)) i s from rfl]
    simp only [deinitBody, hmap, Bool.false_eq_true, if_false, hpend, hpred, hA,
      Out.done, hB]

/-- One task of a map-linked chain, named by its heap id, carrying an
external finalizer with ghost tag `tag` that throws `fthrow` (if any). -/
structure ChainNode where
  id : Nat
  tag : Nat
  fthrow : Option Val

/-- A pending map-linked chain, most-downstream task first: each task is
pending, not mid-mapper, holds an external finalizer, points at the next
list element as its predecessor, and any stored mapper produces no task. -/
def chainOK (s : St) : List ChainNode → Prop
  | [] => True
  | node :: rest =>
      (getF s node.id).bits.mapping = false ∧
      (getF s node.id).bits.settled = false ∧
      (getF s node.id).finalizer = some (.ext node.tag node.fthrow) ∧
      (getF s node.id).predecessor = (rest.head?).map ChainNode.id ∧
      mapperSafe ((getF s node.id).mapper) ∧
      node.id ∉ rest.map ChainNode.id ∧
      chainOK s rest

theorem chainOK_frame (nodes : List ChainNode) (s s2 : St)
    (h : ∀ j, j ∈ nodes.map ChainNode.id → getF s2 j = getF s j) :
    chainOK s nodes → chainOK s2 nodes := by
  induction nodes with
  | nil => intro; trivial
  | cons node rest ih =>
    intro hc
    obtain ⟨h1, h2, h3, h4, h5, h6, h7⟩ := hc
    have hid : getF s2 node.id = getF s node.id := h node.id (by simp)
    exact ⟨by rw [hid]; exact h1, by rw [hid]; exact h2, by rw [hid]; exact h3,
      by rw [hid]; exact h4, by rw [hid]; exact h5, h6,
      ih (fun j hj => h j (by simp only [List.map_cons, List.mem_cons]; exact Or.inr hj)) h7⟩

theorem deinit_chain_aux (rest : List ChainNode) :
    ∀ (node : ChainNode) (s : St) (F : Nat),
    chainOK s (node :: rest) → rest.length + 4 ≤ F →
    (∀ x, x ∈ s.extLog → x ∈ (exec F (.deinit node.id) s).st.extLog) ∧
    (∀ nd, nd ∈ (node :: rest) → nd.tag ∈ (exec F (.deinit node.id) s).st.extLog) ∧
    (∀ j, j ∉ (node :: rest).map ChainNode.id →
      getF (exec F (.deinit node.id) s).st j = getF s j) := by
  induction rest with
  | nil =>
    intro node s F hc hF
    obtain ⟨h1, h2, h3, h4, h5, h6, h7⟩ := hc
    obtain ⟨G2, rfl⟩ : ∃ G2, F = G2 + 3 := ⟨F - 3, by omega⟩
    obtain ⟨s3, hlog, hframe, hpr3, hrun⟩ :=
      deinit_head_step G2 s node.id node.tag node.fthrow none h1 h2 h3 h4 h5
    rw [hrun]
    simp only [Out.done, hpr3]
    refine ⟨?_, ?_, ?_⟩
    · intro x hx
      simp only [extLog_modF, hlog, List.mem_append]
      exact Or.inl hx
    · intro nd hnd
      simp only [List.mem_singleton] at hnd
      subst hnd
      simp [extLog_modF, hlog]
    · intro j hj
      simp only [List.map_cons, List.map_nil, List.mem_singleton] at hj
      rw [getF_modF_ne _ _ _ _ hj, hframe j hj]
  | cons r rs ih =>
    intro node s F hc hF
    obtain ⟨h1, h2, h3, h4, h5, h6, h7⟩ := hc
    obtain ⟨G2, rfl⟩ : ∃ G2, F = G2 + 3 := ⟨F - 3, by omega⟩
    obtain ⟨s3, hlog, hframe, hpr3, hrun⟩ :=
      deinit_head_step G2 s node.id node.tag node.fthrow (some r.id) h1 h2 h3 h4 h5
    have hc3 : chainOK s3 (r :: rs) := by
      refine chainOK_frame (r :: rs) s s3 ?_ h7
      intro j hj
      refine hframe j ?_
      intro hji
      exact h6 (hji ▸ hj)
    have hfuel : rs.length + 4 ≤ G2 + 2 := by
      simp only [List.length_cons] at hF
      omega
    obtain ⟨ihlog, ihtags, ihframe⟩ := ih r s3 (G2 + 2) hc3 hfuel
    have hnodeid : node.id ∉ (r :: rs).map ChainNode.id := h6
    have hocst : getF (exec (G2 + 2) (.deinit r.id) s3).st node.id = getF s3 node.id :=
      ihframe node.id hnodeid
    rw [hrun]
    simp only [Out.done, hocst, hpr3]
    refine ⟨?_, ?_, ?_⟩
    · intro x hx
      simp only [extLog_modF]
      refine ihlog x ?_
      rw [hlog]
      exact List.mem_append.mpr (Or.inl hx)
    · intro nd hnd
      simp only [extLog_modF]
      rcases List.mem_cons.mp hnd with hh | ht
      · subst hh
        refine ihlog nd.tag ?_
        rw [hlog]
        exact List.mem_append.mpr (Or.inr (List.mem_singleton.mpr rfl))
      · exact ihtags nd ht
    · intro j hj
      simp only [List.map_cons, List.mem_cons, not_or] at hj
      obtain ⟨hji, hjr1, hjr2⟩ := hj
      have hjr : j ∉ (r :: rs).map ChainNode.id := by
        simp only [List.map_cons, List.mem_cons, not_or]
        exact ⟨hjr1, hjr2⟩
      rw [getF_modF_ne _ _ _ _ hji, ihframe j hjr, hframe j hji]

/-- C4: upstream cancelation is synchronous.  For every map-linked chain of
pending tasks (most-downstream task first, each task holding an external
finalizer, mappers producing no replacement task), by the time `deinit()`
on the most-downstream task returns, the finalizer of every task on the
chain has run — every ghost tag has been appended to the external log —
even when any of the intermediate finalizers throw. -/
theorem deinit_runs_all_upstream_finalizers (node : ChainNode)
    (rest : List ChainNode) (s : St) (F : Nat)
    (hc : chainOK s (node :: rest)) (hF : rest.length + 4 ≤ F) :
    ∀ nd ∈ (node :: rest), nd.tag ∈ (exec F (.deinit node.id) s).st.extLog :=
  (deinit_chain_aux rest node s F hc hF).2.1

/-- A two-task chain: pending parent task 0 consumed by `map` into task 1,
parent finalizer tagged 10, child finalizer tagged 20 and throwing. -/
def c4State : St :=
  modF (modF (mapFut (allocF St.empty).1 0
      (.fn (fun _ _ => Except.error (.errObj "cancelled")))).1
    0 (fun f => { f with finalizer := some (.ext 10 none) }))
    1 (fun f => { f with finalizer := some (.ext 20 (some (.str "boom"))) })

theorem deinit_runs_all_upstream_finalizers_witness :
    20 ∈ (exec 6 (.deinit 1) c4State).st.extLog ∧
    10 ∈ (exec 6 (.deinit 1) c4State).st.extLog := by
  have h := deinit_runs_all_upstream_finalizers ⟨1, 20, some (.str "boom")⟩
    [⟨0, 10, none⟩] c4State 6
    ⟨rfl, rfl, rfl, rfl, fun e r => rfl, by decide, rfl, rfl, rfl, rfl,
      trivial, by decide, trivial⟩ (by decide)
  exact ⟨h ⟨1, 20, some (.str "boom")⟩ (List.mem_cons_self _ _),
    h ⟨0, 10, none⟩ (List.mem_cons_of_mem _ (List.mem_cons_self _ _))⟩

/-! ## Claim C7: the `all` combinator -/

theorem setJ_setJ (s : St) (j : Nat) (ju1 ju2 : Junct) :
    setJ (setJ s j ju1) j ju2 = setJ s j ju2 := by
  simp [setJ, Function.update_idem]

theorem foldl_set_not_mem (evs : List (Nat × Val)) :
    ∀ (vs : List Val) (idx : Nat) (d : Val),
    idx ∉ evs.map Prod.fst →
    (evs.foldl (fun a ev => a.set ev.1 ev.2) vs).getD idx d = vs.getD idx d := by
  induction evs with
  | nil => intro vs idx d _; rfl
  | cons ev rest ih =>
    intro vs idx d hnm
    simp only [List.map_cons, List.mem_cons, not_or] at hnm
    rw [List.foldl_cons, ih (vs.set ev.1 ev.2) idx d hnm.2,
      listGetD_set_ne _ _ _ _ _ hnm.1]

theorem foldl_set_mem (evs : List (Nat × Val)) :
    ∀ (vs : List Val) (idx : Nat) (v : Val),
    (evs.map Prod.fst).Nodup → (∀ ev ∈ evs, ev.1 < vs.length) →
    (idx, v) ∈ evs →
    (evs.foldl (fun a ev => a.set ev.1 ev.2) vs).getD idx .undef = v := by
  induction evs with
  | nil => intro vs idx v _ _ hm; cases hm
  | cons ev rest ih =>
    intro vs idx v hnd hlt hm
    obtain ⟨a, b⟩ := ev
    simp only [List.map_cons, List.nodup_cons] at hnd
    rcases List.mem_cons.mp hm with hh | ht
    · obtain ⟨rfl, rfl⟩ := Prod.mk.injEq .. ▸ hh
      rw [List.foldl_cons, foldl_set_not_mem rest _ _ _ (by simpa using hnd.1),
        listGetD_set_eq _ _ _ _ (hlt (idx, v) (List.mem_cons_self _ _))]
    · rw [List.foldl_cons]
      refine ih _ idx v hnd.2 ?_ ht
      intro e he
      rw [List.length_set]
      exact hlt e (List.mem_cons_of_mem _ he)

/-- `settleAllJuncture(all, undefined)` on a live juncture settles the
output future with the stored value array, in success, clearing the
juncture. -/
theorem settleAllJ_success (F3 : Nat) (s : St) (j fid : Nat) (p : Int) (vs : List Val)
    (hj : getJ s j = { future := some fid, values := some vs, pending := p })
    (hst : (getF s fid).bits.settled = false)
    (hmp : (getF s fid).bits.mapping = false)
    (hmap : (getF s fid).mapper = none) :
    (exec (F3 + 2) (.settleAllJcall j .undef) s).st =
      scheduleFuture (setF (setJ s j { future := none, values := none, pending := p })
        fid (settledRecord (getF s fid) Val.undef (Val.arr vs))) fid ∧
    (exec (F3 + 2) (.settleAllJcall j .undef) s).exn = none := by
  have hterm := settle_terminal F3 (setJ s j { future := none, values := none, pending := p })
    fid Val.undef (Val.arr vs)
    (by rw [getF_setJ]; exact hst) (by rw [getF_setJ]; exact hmp)
    (isSelfRef_undef fid) rfl (by rw [getF_setJ]; exact hmap) rfl rfl
  rw [show exec (F3 + 2) (.settleAllJcall j .undef) s =
      settleAllJBody (exec (F3 + 1)) j .undef s from rfl]
  simp only [settleAllJBody, hj, truthy_undef, Bool.false_eq_true, if_false, hterm,
    Out.dropRet, Out.done]
  trivial

/-- One pending-phase delivery that is not the last: the juncture's
`pending` count drops by one and the stored value is written at the
delivered index; nothing else changes. -/
theorem settleAllIdx_step (F3 : Nat) (s : St) (j fid idx : Nat) (r : Val)
    (vs : List Val) (p : Int)
    (hj : getJ s j = { future := some fid, values := some vs, pending := p }) :
    exec (F3 + 3) (.settleAllIdx j idx Val.undef r) s =
      (if (p - 1) == 0
       then Out.dropRet (exec (F3 + 2) (.settleAllJcall j .undef)
         (setJ s j { future := some fid, values := some (vs.set idx r), pending := p - 1 }))
       else Out.done (setJ s j { future := some fid, values := some (vs.set idx r), pending := p - 1 })) := by
  rw [show exec (F3 + 3) (.settleAllIdx j idx Val.undef r) s =
      settleAllIdxBody (exec (F3 + 2)) j idx Val.undef r s from rfl]
  simp only [settleAllIdxBody, hj, truthy_undef, Bool.false_eq_true, if_false,
    setJ_setJ]

/-- Pending-phase inductive core for the `all` combinator: delivering a
success at each outstanding index, in an arbitrary order, settles the
output future in success with the value array updated pointwise. -/
theorem all_deliveries_aux (evs : List (Nat × Val)) :
    ∀ (s : St) (vs : List Val) (F3 j fid : Nat),
    getJ s j = { future := some fid, values := some vs, pending := (evs.length : Int) } →
    (getF s fid).bits.settled = false →
    (getF s fid).bits.mapping = false →
    (getF s fid).mapper = none →
    evs ≠ [] →
    (getF (evs.foldl (fun st ev => (exec (F3 + 3) (.settleAllIdx j ev.1 Val.undef ev.2) st).st) s) fid).bits.success = true ∧
    (getF (evs.foldl (fun st ev => (exec (F3 + 3) (.settleAllIdx j ev.1 Val.undef ev.2) st).st) s) fid).bits.error = false ∧
    (getF (evs.foldl (fun st ev => (exec (F3 + 3) (.settleAllIdx j ev.1 Val.undef ev.2) st).st) s) fid).value = Val.arr (evs.foldl (fun a ev => a.set ev.1 ev.2) vs) := by
  induction evs with
  | nil => intro s vs F3 j fid _ _ _ _ hne; exact absurd rfl hne
  | cons ev rest ih =>
    intro s vs F3 j fid hj hst hmp hmap _
    have hstep := settleAllIdx_step F3 s j fid ev.1 ev.2 vs ((ev :: rest).length : Int) hj
    have hlen : ((ev :: rest).length : Int) - 1 = (rest.length : Int) := by
      push_cast [List.length_cons]
      ring
    rw [hlen] at hstep
    cases rest with
    | nil =>
      have hz : ((([] : List (Nat × Val)).length : Int) == 0) = true := by decide
      rw [if_pos hz] at hstep
      obtain ⟨hfin, -⟩ := settleAllJ_success F3
        (setJ s j { future := some fid, values := some (vs.set ev.1 ev.2), pending := (([] : List (Nat × Val)).length : Int) })
        j fid _ (vs.set ev.1 ev.2) (getJ_setJ_eq _ _ _)
        (by rw [getF_setJ]; exact hst) (by rw [getF_setJ]; exact hmp)
        (by rw [getF_setJ]; exact hmap)
      simp only [List.foldl_cons, List.foldl_nil, hstep, Out.dropRet, hfin,
        getF_scheduleFuture, getF_setF_eq, getF_setJ, settledRecord,
        Bits.replaceState, orVal, truthy_undef, Bool.false_eq_true, if_false,
        Bool.false_or, Bool.not_false]
      refine ⟨by first | rfl | trivial, by first | rfl | trivial, by first | rfl | trivial⟩
    | cons r rs =>
      have hz : ((((r :: rs).length : Int)) == 0) = false := by
        simp only [List.length_cons, beq_eq_false_iff_ne, ne_eq]
        intro hct
        omega
      rw [if_neg (by rw [hz]; exact Bool.false_ne_true)] at hstep
      have := ih (setJ s j { future := some fid, values := some (vs.set ev.1 ev.2), pending := ((r :: rs).length : Int) })
        (vs.set ev.1 ev.2) F3 j fid (getJ_setJ_eq _ _ _)
        (by rw [getF_setJ]; exact hst) (by rw [getF_setJ]; exact hmp)
        (by rw [getF_setJ]; exact hmap) (by intro h; cases h)
      simp only [List.foldl_cons, hstep, Out.done] at this ⊢
      exact this

/-- The exit arm of the `initAllJuncture` loop with no pending inputs:
the juncture settles the output at once with the collected array. -/
theorem initAll_exit (i : Nat) (s : St) (vs : List Val) (F3 j fid : Nat)
    (hj : getJ s j = { future := some fid, values := some vs, pending := 0 })
    (hi : ¬ i < vs.length)
    (hst : (getF s fid).bits.settled = false)
    (hmp : (getF s fid).bits.mapping = false)
    (hmap : (getF s fid).mapper = none) :
    (getF (exec (F3 + 3) (.initAll j i) s).st fid).bits.success = true ∧
    (getF (exec (F3 + 3) (.initAll j i) s).st fid).bits.error = false ∧
    (getF (exec (F3 + 3) (.initAll j i) s).st fid).value = Val.arr vs := by
  obtain ⟨hfin, -⟩ := settleAllJ_success F3 s j fid 0 vs hj hst hmp hmap
  have hnz : ((0 : Int) != 0) = false := by decide
  rw [show exec (F3 + 3) (.initAll j i) s = initAllBody (exec (F3 + 2)) j i s from rfl]
  simp only [initAllBody, hj, Option.getD, if_neg hi, hnz, Bool.false_eq_true,
    if_false, Out.dropRet, hfin, getF_scheduleFuture, getF_setF_eq, getF_setJ,
    settledRecord, Bits.replaceState, orVal, truthy_undef, Bool.false_or,
    Bool.not_false]
  refine ⟨by first | rfl | trivial, by first | rfl | trivial, by first | rfl | trivial⟩

/-- Init-phase inductive core for the `all` combinator over plain (non-task)
inputs: the loop walks the array unchanged and settles the output with the
input array itself. -/
theorem initAll_plain_aux (k : Nat) :
    ∀ (i : Nat) (s : St) (vs : List Val) (F j fid : Nat),
    vs.length ≤ i + k → k + 3 ≤ F →
    getJ s j = { future := some fid, values := some vs, pending := 0 } →
    (∀ idx, i ≤ idx → idx < vs.length → isFutureV (vs.getD idx .undef) = false) →
    (getF s fid).bits.settled = false →
    (getF s fid).bits.mapping = false →
    (getF s fid).mapper = none →
    (getF (exec F (.initAll j i) s).st fid).bits.success = true ∧
    (getF (exec F (.initAll j i) s).st fid).bits.error = false ∧
    (getF (exec F (.initAll j i) s).st fid).value = Val.arr vs := by
  induction k with
  | zero =>
    intro i s vs F j fid hlen hF hj hplain hst hmp hmap
    obtain ⟨F3, rfl⟩ : ∃ F3, F = F3 + 3 := ⟨F - 3, by omega⟩
    exact initAll_exit i s vs F3 j fid hj (by omega) hst hmp hmap
  | succ k ihk =>
    intro i s vs F j fid hlen hF hj hplain hst hmp hmap
    by_cases hi : i < vs.length
    · obtain ⟨F1, rfl⟩ : ∃ F1, F = F1 + 1 := ⟨F - 1, by omega⟩
      have hv : isFutureV (vs.getD i .undef) = false := hplain i (Nat.le_refl i) hi
      have hbranch : exec (F1 + 1) (.initAll j i) s = exec F1 (.initAll j (i + 1)) s := by
        rw [show exec (F1 + 1) (.initAll j i) s = initAllBody (exec F1) j i s from rfl]
        simp only [initAllBody, hj, Option.getD, if_pos hi, hv, Bool.not_false,
          if_true]
      rw [hbranch]
      exact ihk (i + 1) s vs F1 j fid (by omega) (by omega) hj
        (fun idx h1 h2 => hplain idx (by omega) h2) hst hmp hmap
    · obtain ⟨F3, rfl⟩ : ∃ F3, F = F3 + 3 := ⟨F - 3, by omega⟩
      exact initAll_exit i s vs F3 j fid hj hi hst hmp hmap

/-- C7: the `all` combinator keeps input order.  Init phase: over an input
array of plain (non-task) values the output settles at once, in success,
with the input array itself.  Pending phase: delivering a success outcome
at every outstanding index, in an arbitrary delivery order, settles the
output in success with the value array updated pointwise — the value at
each index is the one delivered for that index, and every other index keeps
its init-phase entry, so the result follows input positions, not settlement
order. -/
theorem all_output_ordered :
    (∀ (s : St) (vs : List Val) (F j fid : Nat),
      vs.length + 3 ≤ F →
      getJ s j = { future := some fid, values := some vs, pending := 0 } →
      (∀ idx, idx < vs.length → isFutureV (vs.getD idx .undef) = false) →
      (getF s fid).bits.settled = false →
      (getF s fid).bits.mapping = false →
      (getF s fid).mapper = none →
      (getF (exec F (.initAll j 0) s).st fid).bits.success = true ∧
      (getF (exec F (.initAll j 0) s).st fid).value = Val.arr vs) ∧
    (∀ (evs : List (Nat × Val)) (s : St) (vs : List Val) (F3 j fid : Nat),
      getJ s j = { future := some fid, values := some vs, pending := (evs.length : Int) } →
      (getF s fid).bits.settled = false →
      (getF s fid).bits.mapping = false →
      (getF s fid).mapper = none →
      evs ≠ [] →
      (evs.map Prod.fst).Nodup →
      (∀ ev ∈ evs, ev.1 < vs.length) →
      (getF (evs.foldl (fun st ev => (exec (F3 + 3) (.settleAllIdx j ev.1 Val.undef ev.2) st).st) s) fid).bits.success = true ∧
      (getF (evs.foldl (fun st ev => (exec (F3 + 3) (.settleAllIdx j ev.1 Val.undef ev.2) st).st) s) fid).value = Val.arr (evs.foldl (fun a ev => a.set ev.1 ev.2) vs) ∧
      (∀ idx v, (idx, v) ∈ evs → (evs.foldl (fun a ev => a.set ev.1 ev.2) vs).getD idx .undef = v) ∧
      (∀ idx, idx < vs.length → idx ∉ evs.map Prod.fst → (evs.foldl (fun a ev => a.set ev.1 ev.2) vs).getD idx .undef = vs.getD idx .undef)) := by
  constructor
  · intro s vs F j fid hF hj hplain hst hmp hmap
    have h := initAll_plain_aux vs.length 0 s vs F j fid (by omega) hF hj
      (fun idx _ h2 => hplain idx h2) hst hmp hmap
    exact ⟨h.1, h.2.2⟩
  · intro evs s vs F3 j fid hj hst hmp hmap hne hnd hlt
    have h := all_deliveries_aux evs s vs F3 j fid hj hst hmp hmap hne
    exact ⟨h.1, h.2.2,
      fun idx v hm => foldl_set_mem evs vs idx v hnd hlt hm,
      fun idx _ hnm => foldl_set_not_mem evs vs idx .undef hnm⟩

/-- A two-entry `all` juncture over plain values, just allocated. -/
def c7InitState : St := (allocJ (allocF St.empty).1 0 [.int 1, .str "a"]).1

/-- A two-entry `all` juncture waiting on both indices. -/
def c7PendState : St :=
  setJ (allocF St.empty).1 0
    { future := some 0, values := some [.undef, .undef], pending := 2 }

theorem all_output_ordered_witness :
    (getF (exec 9 (.initAll 0 0) c7InitState).st 0).bits.success = true ∧
    (getF (exec 9 (.initAll 0 0) c7InitState).st 0).value = Val.arr [.int 1, .str "a"] ∧
    (getF ([((1 : Nat), Val.int 5), ((0 : Nat), Val.int 3)].foldl (fun st ev => (exec (6 + 3) (.settleAllIdx 0 ev.1 Val.undef ev.2) st).st) c7PendState) 0).bits.success = true ∧
    (getF ([((1 : Nat), Val.int 5), ((0 : Nat), Val.int 3)].foldl (fun st ev => (exec (6 + 3) (.settleAllIdx 0 ev.1 Val.undef ev.2) st).st) c7PendState) 0).value = Val.arr [.int 3, .int 5] := by
  have h := all_output_ordered
  have hA := h.1 c7InitState [.int 1, .str "a"] 9 0 0 (by decide) rfl
    (by intro idx hlt
        have h2 : idx < 2 := by simpa using hlt
        interval_cases idx <;> rfl) rfl rfl rfl
  have hB := h.2 [((1 : Nat), Val.int 5), ((0 : Nat), Val.int 3)] c7PendState
    [.undef, .undef] 6 0 0 rfl rfl rfl rfl (List.cons_ne_nil _ _) (by decide)
    (by intro ev hev
        rcases List.mem_cons.mp hev with rfl | hev2
        · decide
        · rcases List.mem_cons.mp hev2 with rfl | h3
          · decide
          · cases h3)
  exact ⟨hA.1, hA.2, hB.1, hB.2.1⟩

/-! ## Claim C8: the `race` combinator -/

/-- `finalize` on a task whose finalizer slot is empty or holds the race
callback of an already-decided juncture: the slot is popped, the juncture
stays decided, nothing is thrown and no other record moves. -/
theorem finalize_inert (F1 : Nat) (s : St) (j t : Nat)
    (hfin : (getF s t).finalizer = none ∨
      (getF s t).finalizer = some (.settleRaceF j))
    (hju : (getJ s j).future = none) :
    (exec (F1 + 3) (.finalizeFut t) s).exn = none ∧
    (∀ m, m ≠ t → getF (exec (F1 + 3) (.finalizeFut t) s).st m = getF s m) ∧
    getF (exec (F1 + 3) (.finalizeFut t) s).st t = { getF s t with finalizer := none } ∧
    (getJ (exec (F1 + 3) (.finalizeFut t) s).st j).future = none := by
  rw [show exec (F1 + 3) (.finalizeFut t) s = finalizeBody (exec (F1 + 2)) t s from rfl]
  rcases hfin with hfin | hfin
  · simp only [finalizeBody, hfin, Out.done]
    exact ⟨by first | rfl | trivial, fun m hm => getF_setF_ne _ _ _ _ hm,
      getF_setF_eq _ _ _, by rw [getJ_setF]; exact hju⟩
  · simp only [finalizeBody, hfin]
    have hrace : ∀ (e r : Val),
        exec (F1 + 2) (.runFinalizer (.settleRaceF j) e r)
          (setF s t { getF s t with finalizer := none }) =
        Out.dropRet (Out.done (setJ (setF s t { getF s t with finalizer := none }) j
          { getJ s j with future := none, values := none })) := by
      intro e r
      have hin : exec (F1 + 1) (.settleRaceJcall j e r)
          (setF s t { getF s t with finalizer := none }) =
          Out.done (setJ (setF s t { getF s t with finalizer := none }) j
            { getJ s j with future := none, values := none }) := by
        rw [show exec (F1 + 1) (.settleRaceJcall j e r)
            (setF s t { getF s t with finalizer := none }) =
            settleRaceJBody (exec F1) j e r
            (setF s t { getF s t with finalizer := none }) from rfl]
        simp only [settleRaceJBody, getJ_setF, hju, Out.done]
      rw [show exec (F1 + 2) (.runFinalizer (.settleRaceF j) e r)
          (setF s t { getF s t with finalizer := none }) =
          runFinalizerBody (exec (F1 + 1)) (.settleRaceF j) e r
          (setF s t { getF s t with finalizer := none }) from rfl]
      simp only [runFinalizerBody, hin]
    cases hbe : (getF s t).bits.error <;>
      simp only [hbe, Bool.false_eq_true, if_false, if_true, hrace, Out.dropRet,
        Out.done] <;>
      exact ⟨by first | rfl | trivial,
        fun m hm => by rw [show getF (setJ (setF s t { getF s t with finalizer := none }) j { getJ s j with future := none, values := none }) m = getF (setF s t { getF s t with finalizer := none }) m from rfl, getF_setF_ne _ _ _ _ hm],
        by rw [show getF (setJ (setF s t { getF s t with finalizer := none }) j { getJ s j with future := none, values := none }) t = getF (setF s t { getF s t with finalizer := none }) t from rfl, getF_setF_eq],
        by rw [getJ_setJ_eq]⟩

theorem getJ_modF (s : St) (i : Nat) (g : Fut → Fut) (j : Nat) :
    getJ (modF s i g) j = getJ s j := rfl

/-- `deinit` on a race input after the juncture is decided: the input is
quietly settled (if pending) and its race callback fires against the
decided juncture, so nothing is thrown, no other record moves, and the
juncture stays decided. -/
theorem loser_deinit (F5 : Nat) (s : St) (j t : Nat)
    (hmp : (getF s t).bits.mapping = false)
    (hmap : (getF s t).mapper = none)
    (hpred : (getF s t).predecessor = none)
    (hfin : (getF s t).finalizer = none ∨
      (getF s t).finalizer = some (.settleRaceF j))
    (hju : (getJ s j).future = none) :
    (exec (F5 + 5) (.deinit t) s).exn = none ∧
    (∀ m, m ≠ t → getF (exec (F5 + 5) (.deinit t) s).st m = getF s m) ∧
    (getJ (exec (F5 + 5) (.deinit t) s).st j).future = none ∧
    (getF (exec (F5 + 5) (.deinit t) s).st t).bits.mapping = false ∧
    (getF (exec (F5 + 5) (.deinit t) s).st t).mapper = none ∧
    (getF (exec (F5 + 5) (.deinit t) s).st t).predecessor = none ∧
    (getF (exec (F5 + 5) (.deinit t) s).st t).finalizer = none ∧
    ((getF s t).bits.settled = true →
      (getF (exec (F5 + 5) (.deinit t) s).st t).value = (getF s t).value ∧
      (getF (exec (F5 + 5) (.deinit t) s).st t).successor = (getF s t).successor ∧
      (getF (exec (F5 + 5) (.deinit t) s).st t).weaks = (getF s t).weaks ∧
      (getF (exec (F5 + 5) (.deinit t) s).st t).bits.error = (getF s t).bits.error ∧
      (getF (exec (F5 + 5) (.deinit t) s).st t).bits.success = (getF s t).bits.success ∧
      (getF (exec (F5 + 5) (.deinit t) s).st t).bits.pendingRejection = false) := by
  rw [show exec (F5 + 5) (.deinit t) s = deinitBody (exec (F5 + 4)) t s from rfl]
  cases hset : (getF s t).bits.settled with
  | true =>
    obtain ⟨hBexn, hBframe, hBt, hBju⟩ := finalize_inert (F5 + 1)
      (modF (setF s t { getF s t with predecessor := none }) t
        (fun g => { g with bits := { g.bits with pendingRejection := false } })) j t
      (by rw [getF_modF_eq, getF_setF_eq]; exact hfin)
      (by rw [getJ_modF, getJ_setF]; exact hju)
    have hnext : (getF (exec (F5 + 4) (.finalizeFut t)
        (modF (setF s t { getF s t with predecessor := none }) t
          (fun g => { g with bits := { g.bits with pendingRejection := false } }))).st t).predecessor = none := by
      rw [hBt, show ({ getF (modF (setF s t { getF s t with predecessor := none }) t (fun g => { g with bits := { g.bits with pendingRejection := false } })) t with finalizer := none } : Fut).predecessor = (getF (modF (setF s t { getF s t with predecessor := none }) t (fun g => { g with bits := { g.bits with pendingRejection := false } })) t).predecessor from rfl,
        getF_modF_eq, getF_setF_eq]
    simp only [deinitBody, hmp, Bool.false_eq_true, if_false, hpred, hset,
      eq_self_iff_true, if_true, Out.done, hnext]
    refine ⟨?_, ?_, ?_, ?_, ?_, ?_, ?_, ?_⟩
    · simp only [hBexn, Option.orElse_none, Option.none_orElse]
    · intro m hm
      rw [getF_modF_ne _ _ _ _ hm, hBframe m hm, getF_modF_ne _ _ _ _ hm,
        getF_setF_ne _ _ _ _ hm]
    · rw [getJ_modF]
      exact hBju
    · rw [getF_modF_eq, hBt, getF_modF_eq, getF_setF_eq]
      exact hmp
    · rw [getF_modF_eq, hBt, getF_modF_eq, getF_setF_eq]
      exact hmap
    · rw [getF_modF_eq]
    · rw [getF_modF_eq, hBt]
    · intro hst
      refine ⟨?_, ?_, ?_, ?_, ?_, ?_⟩ <;>
        rw [getF_modF_eq, hBt, getF_modF_eq, getF_setF_eq]
  | false =>
    obtain ⟨fut', hA, hAfin, hApred', hAmapb, hAset, hAmapper⟩ :=
      settle_chainhead (F5 + 2) (setF s t { getF s t with predecessor := none }) t
        (.errObj DEINIT_ERROR)
        (by rw [getF_setF_eq]; exact hset) (by rw [getF_setF_eq]; exact hmp)
        (by rw [getF_setF_eq, hmap]; trivial) rfl rfl rfl
    rw [setF_setF] at hA
    obtain ⟨hBexn, hBframe, hBt, hBju⟩ := finalize_inert (F5 + 1)
      (modF (scheduleFuture (setF s t fut') t) t
        (fun g => { g with bits := { g.bits with pendingRejection := false } })) j t
      (by rw [getF_modF_eq, getF_scheduleFuture, getF_setF_eq]
          rw [show ({ fut' with bits := { fut'.bits with pendingRejection := false } } : Fut).finalizer = fut'.finalizer from rfl, hAfin, getF_setF_eq]
          exact hfin)
      (by rw [getJ_modF, getJ_scheduleFuture, getJ_setF]; exact hju)
    have hnext : (getF (exec (F5 + 4) (.finalizeFut t)
        (modF (scheduleFuture (setF s t fut') t) t
          (fun g => { g with bits := { g.bits with pendingRejection := false } }))).st t).predecessor = none := by
      rw [hBt, show ({ getF (modF (scheduleFuture (setF s t fut') t) t (fun g => { g with bits := { g.bits with pendingRejection := false } })) t with finalizer := none } : Fut).predecessor = (getF (modF (scheduleFuture (setF s t fut') t) t (fun g => { g with bits := { g.bits with pendingRejection := false } })) t).predecessor from rfl,
        getF_modF_eq, getF_scheduleFuture, getF_setF_eq,
        show ({ fut' with bits := { fut'.bits with pendingRejection := false } } : Fut).predecessor = fut'.predecessor from rfl,
        hApred', getF_setF_eq]
    simp only [deinitBody, hmp, Bool.false_eq_true, if_false, hpred, hset, hA,
      Out.done, hnext]
    refine ⟨?_, ?_, ?_, ?_, ?_, ?_, ?_, ?_⟩
    · simp only [hBexn, Option.orElse_none, Option.none_orElse]
    · intro m hm
      rw [getF_modF_ne _ _ _ _ hm, hBframe m hm, getF_modF_ne _ _ _ _ hm,
        getF_scheduleFuture, getF_setF_ne _ _ _ _ hm]
    · rw [getJ_modF]
      exact hBju
    · rw [getF_modF_eq, hBt, getF_modF_eq, getF_scheduleFuture, getF_setF_eq]
      exact hAmapb
    · rw [getF_modF_eq, hBt, getF_modF_eq, getF_scheduleFuture, getF_setF_eq]
      exact hAmapper
    · rw [getF_modF_eq]
    · rw [getF_modF_eq, hBt]
    · intro hst
      exact hst.elim

/-- What `forceDeinitFutures` needs of each entry once the race juncture is
decided: a task entry is not the output and is quietly deinitable. -/
def raceLoserHyp (s : St) (j fid : Nat) (v : Val) : Prop :=
  isFutureV v = true →
    futId v ≠ fid ∧ (getF s (futId v)).bits.mapping = false ∧
    (getF s (futId v)).mapper = none ∧ (getF s (futId v)).predecessor = none ∧
    ((getF s (futId v)).finalizer = none ∨
      (getF s (futId v)).finalizer = some (.settleRaceF j))

/-- `forceDeinitFutures` over deinitable entries of a decided race:
rethrows exactly the remembered exception, moves no record outside the
entry list, and leaves every already-settled entry with its outcome intact,
its rejection flag cleared and its finalizer popped. -/
theorem forceDeinit_inert (vs : List Val) :
    ∀ (s : St) (acc : Option Val) (F j fid : Nat),
    (∀ v ∈ vs, raceLoserHyp s j fid v) →
    (getJ s j).future = none →
    vs.length + 6 ≤ F →
    (exec F (.forceDeinit vs acc) s).exn = acc ∧
    (∀ m, (∀ v ∈ vs, isFutureV v = true → futId v ≠ m) →
      getF (exec F (.forceDeinit vs acc) s).st m = getF s m) ∧
    (∀ t, (getF s t).bits.settled = true → Val.fut t ∈ vs →
      (getF (exec F (.forceDeinit vs acc) s).st t).value = (getF s t).value ∧
      (getF (exec F (.forceDeinit vs acc) s).st t).successor = (getF s t).successor ∧
      (getF (exec F (.forceDeinit vs acc) s).st t).weaks = (getF s t).weaks ∧
      (getF (exec F (.forceDeinit vs acc) s).st t).bits.error = (getF s t).bits.error ∧
      (getF (exec F (.forceDeinit vs acc) s).st t).bits.success = (getF s t).bits.success ∧
      (getF (exec F (.forceDeinit vs acc) s).st t).bits.pendingRejection = false ∧
      (getF (exec F (.forceDeinit vs acc) s).st t).finalizer = none) := by
  induction vs with
  | nil =>
    intro s acc F j fid _ _ hF
    obtain ⟨F1, rfl⟩ : ∃ F1, F = F1 + 1 := ⟨F - 1, by omega⟩
    rw [show exec (F1 + 1) (.forceDeinit [] acc) s =
      forceDeinitBody (exec F1) [] acc s from rfl]
    exact ⟨rfl, fun m _ => rfl, fun t _ htm => absurd htm (List.not_mem_nil _)⟩
  | cons v rest ih =>
    intro s acc F j fid hlos hju hF
    obtain ⟨F1, rfl⟩ : ∃ F1, F = F1 + 1 := ⟨F - 1, by omega⟩
    rw [show exec (F1 + 1) (.forceDeinit (v :: rest) acc) s =
      forceDeinitBody (exec F1) (v :: rest) acc s from rfl]
    cases hv : isFutureV v with
    | false =>
      simp only [forceDeinitBody, hv, Bool.false_eq_true, if_false]
      obtain ⟨ihe, ihf, ihk⟩ := ih s acc F1 j fid
        (fun w hw => hlos w (List.mem_cons_of_mem _ hw)) hju
        (by simp only [List.length_cons] at hF; omega)
      refine ⟨ihe, ?_, ?_⟩
      · intro m hm
        exact ihf m (fun w hw hwf => hm w (List.mem_cons_of_mem _ hw) hwf)
      · intro t hts htm
        rcases List.mem_cons.mp htm with hEq | htm2
        · rw [← hEq] at hv
          simp [isFutureV] at hv
        · exact ihk t hts htm2
    | true =>
      obtain ⟨hne, hm1, hm2, hm3, hm4⟩ := hlos v (List.mem_cons_self _ _) hv
      obtain ⟨F5, rfl⟩ : ∃ F5, F1 = F5 + 5 :=
        ⟨F1 - 5, by simp only [List.length_cons] at hF; omega⟩
      obtain ⟨hdexn, hdframe, hdju, hdt1, hdt2, hdt3, hdt4, hdt5⟩ :=
        loser_deinit F5 s j (futId v) hm1 hm2 hm3 hm4 hju
      simp only [forceDeinitBody, hv, eq_self_iff_true, if_true, hdexn]
      obtain ⟨ihe, ihf, ihk⟩ := ih (exec (F5 + 5) (.deinit (futId v)) s).st acc
        (F5 + 5) j fid
        (by intro w hw hwf
            by_cases hsame : futId w = futId v
            · rw [hsame]
              exact ⟨hsame ▸ (hlos w (List.mem_cons_of_mem _ hw) hwf).1,
                hdt1, hdt2, hdt3, Or.inl hdt4⟩
            · obtain ⟨a1, a2, a3, a4, a5⟩ := hlos w (List.mem_cons_of_mem _ hw) hwf
              rw [hdframe (futId w) hsame]
              exact ⟨a1, a2, a3, a4, a5⟩)
        hdju (by simp only [List.length_cons] at hF; omega)
      refine ⟨ihe, ?_, ?_⟩
      · intro m hm
        have hmv : futId v ≠ m := hm v (List.mem_cons_self _ _) hv
        rw [ihf m (fun w hw hwf => hm w (List.mem_cons_of_mem _ hw) hwf),
          hdframe m (Ne.symm hmv)]
      · intro t hts htm
        by_cases hsame : t = futId v
        · rw [hsame] at hts ⊢
          obtain ⟨k1, k2, k3, k4, k5, k6⟩ := hdt5 hts
          by_cases hrest : Val.fut (futId v) ∈ rest
          · have htsD : (getF (exec (F5 + 5) (.deinit (futId v)) s).st (futId v)).bits.settled = true := by
              simp only [Bits.settled] at hts ⊢
              rw [k4, k5]
              exact hts
            obtain ⟨m1, m2, m3, m4, m5, m6, m7⟩ := ihk (futId v) htsD hrest
            exact ⟨m1.trans k1, m2.trans k2, m3.trans k3, m4.trans k4,
              m5.trans k5, m6, m7⟩
          · have hfr : ∀ w ∈ rest, isFutureV w = true → futId w ≠ futId v := by
              intro w hw hwf hEq2
              apply hrest
              have hwch : w = Val.fut (futId w) := by
                cases w <;> simp [isFutureV] at hwf <;> rfl
              rw [hEq2] at hwch
              rw [← hwch]
              exact hw
            have hful := ihf (futId v) hfr
            rw [hful]
            exact ⟨k1, k2, k3, k4, k5, k6, hdt4⟩
        · have hmem2 : Val.fut t ∈ rest := by
            rcases List.mem_cons.mp htm with hEq | h2
            · exact absurd (show t = futId v from congrArg futId hEq) hsame
            · exact h2
          have hgf : getF (exec (F5 + 5) (.deinit (futId v)) s).st t = getF s t :=
            hdframe t hsame
          have htsD : (getF (exec (F5 + 5) (.deinit (futId v)) s).st t).bits.settled = true := by
            rw [hgf]
            exact hts
          obtain ⟨m1, m2, m3, m4, m5, m6, m7⟩ := ihk t htsD hmem2
          rw [hgf] at m1 m2 m3 m4 m5
          exact ⟨m1, m2, m3, m4, m5, m6, m7⟩

/-- `settleRaceJuncture(race, undefined, r)` on a live juncture with a
non-task result: the output settles in success with `r`, every input is
force-deinited harmlessly, and nothing escapes. -/
theorem settleRaceJ_win (F2 : Nat) (s : St) (j fid : Nat) (p : Int)
    (vs : List Val) (r : Val)
    (hj : getJ s j = { future := some fid, values := some vs, pending := p })
    (hr : isFutureV r = false)
    (hst : (getF s fid).bits.settled = false)
    (hmp : (getF s fid).bits.mapping = false)
    (hmap : (getF s fid).mapper = none)
    (hlos : ∀ v ∈ vs, raceLoserHyp s j fid v)
    (hF : vs.length + 6 ≤ F2 + 1) :
    (exec (F2 + 2) (.settleRaceJcall j .undef r) s).exn = none ∧
    (getF (exec (F2 + 2) (.settleRaceJcall j .undef r) s).st fid).bits.success = true ∧
    (getF (exec (F2 + 2) (.settleRaceJcall j .undef r) s).st fid).bits.error = false ∧
    (getF (exec (F2 + 2) (.settleRaceJcall j .undef r) s).st fid).value = r := by
  have hterm := settle_terminal F2
    (setJ s j { future := none, values := none, pending := p }) fid Val.undef r
    (by rw [getF_setJ]; exact hst) (by rw [getF_setJ]; exact hmp)
    (isSelfRef_undef fid) (isSelfRef_false_of_not_future r fid hr)
    (by rw [getF_setJ]; exact hmap)
    (by simp only [truthy_undef, Bool.false_eq_true, if_false]; exact isFutureV_undef)
    (by simp only [truthy_undef, Bool.false_eq_true, if_false]; exact hr)
  have hlos2 : ∀ v ∈ vs, raceLoserHyp
      (scheduleFuture (setF (setJ s j { future := none, values := none, pending := p })
        fid (settledRecord (getF (setJ s j { future := none, values := none, pending := p }) fid)
          (if truthy Val.undef then Val.undef else Val.undef)
          (if truthy Val.undef then Val.undef else r))) fid) j fid v := by
    intro w hw hwf
    obtain ⟨a1, a2, a3, a4, a5⟩ := hlos w hw hwf
    rw [getF_scheduleFuture, getF_setF_ne _ _ _ _ a1, getF_setJ]
    exact ⟨a1, a2, a3, a4, a5⟩
  obtain ⟨hfexn, hframe, -⟩ := forceDeinit_inert vs
    (scheduleFuture (setF (setJ s j { future := none, values := none, pending := p })
      fid (settledRecord (getF (setJ s j { future := none, values := none, pending := p }) fid)
        (if truthy Val.undef then Val.undef else Val.undef)
        (if truthy Val.undef then Val.undef else r))) fid)
    none (F2 + 1) j fid hlos2
    (by rw [getJ_scheduleFuture, getJ_setF, getJ_setJ_eq])
    hF
  have hffid := hframe fid (fun w hw hwf => (hlos2 w hw hwf).1)
  rw [show exec (F2 + 2) (.settleRaceJcall j .undef r) s =
    settleRaceJBody (exec (F2 + 1)) j .undef r s from rfl]
  simp only [settleRaceJBody, hj, hterm, Out.done, Out.dropRet]
  simp only [hfexn, hffid]
  simp only [getF_scheduleFuture, getF_setF_eq, getF_setJ, settledRecord,
    Bits.replaceState, orVal, truthy_undef, Bool.false_eq_true, if_false,
    Bool.false_or, Bool.not_false]
  refine ⟨by first | rfl | trivial, by first | rfl | trivial,
    by first | rfl | trivial, by first | rfl | trivial⟩

/-- One-step description of `settle` when the error argument is a settled
task with an empty successor slot and the receiver carries no mapper (the
flattening fast path): the receiver is armed with the `alwaysThrow` mapper
and linked as the task's successor, and the settled task is scheduled. -/
theorem settle_flatten_error (F : Nat) (s : St) (i tw : Nat)
    (hst : (getF s i).bits.settled = false)
    (hmp : (getF s i).bits.mapping = false)
    (hmap : (getF s i).mapper = none)
    (hne : tw ≠ i)
    (hcon : (getF s tw).bits.consumed = false)
    (hsuc : (getF s tw).successor = none)
    (htws : (getF s tw).bits.settled = true) :
    exec (F + 1) (.settle i (.fut tw) .undef) s =
      Out.done (scheduleFuture (modF (modF
        (setF s i { getF s i with mapper := some .alwaysThrow }) tw
        (fun f => { f with successor := some i })) i
        (fun f => { f with predecessor := some tw })) tw) := by
  have hself : isSelfRef (.fut tw) i = false := by
    simp [isSelfRef, hne]
  have hcond : (getF (modF (modF
      (setF s i { getF s i with mapper := some .alwaysThrow }) tw
      (fun f => { f with successor := some i })) i
      (fun f => { f with predecessor := some tw })) tw).bits.settled = true := by
    rw [getF_modF_ne _ _ _ _ hne, getF_modF_eq, getF_setF_ne _ _ _ _ hne]
    exact htws
  rw [show exec (F + 1) (.settle i (.fut tw) .undef) s =
    settleBody (exec F) i (.fut tw) .undef s from rfl]
  simp only [settleBody, hst, hmp, Bool.or_self, Bool.false_eq_true, if_false,
    hself, isSelfRef_undef, truthy, if_true, isFutureV, futId, hcon, hsuc, hmap,
    Option.isNone_none, Bool.and_self, eq_self_iff_true, setupPair, hcond]

/-- `settle` on a pending receiver armed with the `alwaysThrow` mapper and
given a truthy plain error: the mapper rethrows the error and the receiver
settles in error with it. -/
theorem settle_alwaysThrow (F : Nat) (s : St) (i : Nat) (E : Val)
    (hst : (getF s i).bits.settled = false)
    (hmp : (getF s i).bits.mapping = false)
    (hmap : (getF s i).mapper = some .alwaysThrow)
    (he : truthy E = true) (hef : isFutureV E = false) :
    exec (F + 2) (.settle i E .undef) s =
      Out.done (scheduleFuture (setF s i
        (settledRecord { getF s i with mapper := none } E .undef)) i) := by
  have hes : isSelfRef E i = false := isSelfRef_false_of_not_future E i hef
  have hbits : ({ (getF s i).bits with mapping := false } : Bits) =
      (getF s i).bits := by rw [← hmp]
  have hstep : exec (F + 2) (.settle i E .undef) s =
      (let o := exec (F + 1) (.runMapper .alwaysThrow E .undef) (setF s i { getF s i with mapper := none, bits := { (getF s i).bits with mapping := true } })
       let s4 := modF o.st i (fun g => { g with bits := { g.bits with mapping := false } })
       match o.exn with
       | some err => exec (F + 1) (.settle i err .undef) s4
       | none => exec (F + 1) (.settle i .undef o.ret) s4) := by
    simp only [exec, settleBody, hst, hmp, hes, isSelfRef_undef, Bool.or_self,
      Bool.false_eq_true, if_false, he, if_true, hef, isFutureV_undef, hmap]
  have hsB :
      modF (setF s i { getF s i with mapper := none, bits := { (getF s i).bits with mapping := true } }) i (fun g => { g with bits := { g.bits with mapping := false } }) =
      setF s i { getF s i with mapper := none } := by
    rw [modF, getF_setF_eq, setF_setF]
    congr 1
    simp only []
    rw [hbits]
  rw [hstep]
  have hrm : exec (F + 1) (.runMapper .alwaysThrow E .undef)
      (setF s i { getF s i with mapper := none, bits := { (getF s i).bits with mapping := true } }) =
      Out.raise (setF s i { getF s i with mapper := none, bits := { (getF s i).bits with mapping := true } }) (orVal E .undef) := by
    simp only [exec, runMapperBody]
  have horv : orVal E Val.undef = E := by simp only [orVal, he, if_true]
  simp only [hrm, Out.raise, horv]
  rw [hsB]
  have hterm := settle_terminal F (setF s i { getF s i with mapper := none })
    i E Val.undef (by rw [getF_setF_eq]; exact hst)
    (by rw [getF_setF_eq]; exact hmp) hes (isSelfRef_undef i)
    (by rw [getF_setF_eq])
    (by simp only [he, if_true]; exact hef)
    (by simp only [he, if_true]; exact isFutureV_undef)
  rw [hterm, getF_setF_eq, setF_setF]
  simp only [he, if_true]

/-- `settleRaceJuncture(race, winner, undefined)` on a live juncture when
the winning input is a task already settled in error: the output is armed
with the `alwaysThrow` mapper and chained after the winner, the winner
keeps its settled outcome (rejection flag cleared, finalizer popped) and
gains the output as its successor, every input is force-deinited
harmlessly, and nothing escapes. -/
theorem settleRaceJ_error (F2 : Nat) (s : St) (j fid tw : Nat) (p : Int)
    (vs : List Val)
    (hj : getJ s j = { future := some fid, values := some vs, pending := p })
    (hst : (getF s fid).bits.settled = false)
    (hmp : (getF s fid).bits.mapping = false)
    (hmap : (getF s fid).mapper = none)
    (hne : tw ≠ fid)
    (hcon : (getF s tw).bits.consumed = false)
    (hsuc : (getF s tw).successor = none)
    (herr : (getF s tw).bits.error = true)
    (hmem : Val.fut tw ∈ vs)
    (hlos : ∀ v ∈ vs, raceLoserHyp s j fid v)
    (hF : vs.length + 6 ≤ F2 + 1) :
    (exec (F2 + 2) (.settleRaceJcall j (.fut tw) .undef) s).exn = none ∧
    getF (exec (F2 + 2) (.settleRaceJcall j (.fut tw) .undef) s).st fid =
      { getF s fid with mapper := some .alwaysThrow, predecessor := some tw } ∧
    (getF (exec (F2 + 2) (.settleRaceJcall j (.fut tw) .undef) s).st tw).value =
      (getF s tw).value ∧
    (getF (exec (F2 + 2) (.settleRaceJcall j (.fut tw) .undef) s).st tw).successor =
      some fid ∧
    (getF (exec (F2 + 2) (.settleRaceJcall j (.fut tw) .undef) s).st tw).weaks =
      (getF s tw).weaks ∧
    (getF (exec (F2 + 2) (.settleRaceJcall j (.fut tw) .undef) s).st tw).bits.error =
      true ∧
    (getF (exec (F2 + 2) (.settleRaceJcall j (.fut tw) .undef) s).st tw).bits.pendingRejection =
      false ∧
    (getF (exec (F2 + 2) (.settleRaceJcall j (.fut tw) .undef) s).st tw).finalizer =
      none := by
  have htws : (getF s tw).bits.settled = true := by
    simp only [Bits.settled, herr, Bool.true_or]
  have hflat := settle_flatten_error F2
    (setJ s j { future := none, values := none, pending := p }) fid tw
    (by rw [getF_setJ]; exact hst) (by rw [getF_setJ]; exact hmp)
    (by rw [getF_setJ]; exact hmap) hne
    (by rw [getF_setJ]; exact hcon) (by rw [getF_setJ]; exact hsuc)
    (by rw [getF_setJ]; exact htws)
  have hS2tw : getF (scheduleFuture (modF (modF
      (setF (setJ s j { future := none, values := none, pending := p }) fid
        { getF (setJ s j { future := none, values := none, pending := p }) fid with
          mapper := some .alwaysThrow }) tw
      (fun f => { f with successor := some fid })) fid
      (fun f => { f with predecessor := some tw })) tw) tw =
      { getF s tw with successor := some fid } := by
    rw [getF_scheduleFuture, getF_modF_ne _ _ _ _ hne, getF_modF_eq,
      getF_setF_ne _ _ _ _ hne, getF_setJ]
  have hlos2 : ∀ v ∈ vs, raceLoserHyp (scheduleFuture (modF (modF
      (setF (setJ s j { future := none, values := none, pending := p }) fid
        { getF (setJ s j { future := none, values := none, pending := p }) fid with
          mapper := some .alwaysThrow }) tw
      (fun f => { f with successor := some fid })) fid
      (fun f => { f with predecessor := some tw })) tw) j fid v := by
    intro w hw hwf
    obtain ⟨a1, a2, a3, a4, a5⟩ := hlos w hw hwf
    by_cases hsame : futId w = tw
    · rw [hsame, hS2tw]
      exact ⟨hsame ▸ a1, hsame ▸ a2, hsame ▸ a3, hsame ▸ a4, hsame ▸ a5⟩
    · rw [getF_scheduleFuture, getF_modF_ne _ _ _ _ a1,
        getF_modF_ne _ _ _ _ hsame, getF_setF_ne _ _ _ _ a1, getF_setJ]
      exact ⟨a1, a2, a3, a4, a5⟩
  obtain ⟨hfexn, hframe, hkeep⟩ := forceDeinit_inert vs
    (scheduleFuture (modF (modF
      (setF (setJ s j { future := none, values := none, pending := p }) fid
        { getF (setJ s j { future := none, values := none, pending := p }) fid with
          mapper := some .alwaysThrow }) tw
      (fun f => { f with successor := some fid })) fid
      (fun f => { f with predecessor := some tw })) tw)
    none (F2 + 1) j fid hlos2
    (by rw [getJ_scheduleFuture, getJ_modF, getJ_modF, getJ_setF, getJ_setJ_eq])
    hF
  have hffid := hframe fid (fun w hw hwf => (hlos2 w hw hwf).1)
  have hsetS2 : (getF (scheduleFuture (modF (modF
      (setF (setJ s j { future := none, values := none, pending := p }) fid
        { getF (setJ s j { future := none, values := none, pending := p }) fid with
          mapper := some .alwaysThrow }) tw
      (fun f => { f with successor := some fid })) fid
      (fun f => { f with predecessor := some tw })) tw) tw).bits.settled = true := by
    rw [hS2tw]
    exact htws
  obtain ⟨m1, m2, m3, m4, m5, m6, m7⟩ := hkeep tw hsetS2 hmem
  simp only [hS2tw] at m1 m2 m3 m4 m5
  rw [herr] at m4
  rw [show exec (F2 + 2) (.settleRaceJcall j (.fut tw) .undef) s =
    settleRaceJBody (exec (F2 + 1)) j (.fut tw) .undef s from rfl]
  simp only [settleRaceJBody, hj, hflat, Out.done, Out.dropRet]
  refine ⟨hfexn, ?_, m1, m2, m3, m4, m6, m7⟩
  rw [hffid, getF_scheduleFuture, getF_modF_eq, getF_modF_ne _ _ _ _ (Ne.symm hne),
    getF_setF_eq, getF_setJ]

/-- `finishPending` on a task settled in error whose successor is armed
with the `alwaysThrow` mapper and which has no weak branches and no
finalizer left: the successor settles in error with the task's value, and
nothing is thrown. -/
theorem finishPending_alwaysThrow (F : Nat) (S : St) (tw fid : Nat)
    (hne : fid ≠ tw)
    (herr : (getF S tw).bits.error = true)
    (hsucc : (getF S tw).successor = some fid)
    (hweaks : (getF S tw).weaks = [])
    (hfin : (getF S tw).finalizer = none)
    (he : truthy ((getF S tw).value) = true)
    (hef : isFutureV ((getF S tw).value) = false)
    (hst2 : (getF S fid).bits.settled = false)
    (hmp2 : (getF S fid).bits.mapping = false)
    (hmap2 : (getF S fid).mapper = some .alwaysThrow) :
    (exec (F + 3) (.finishPending tw) S).exn = none ∧
    (getF (exec (F + 3) (.finishPending tw) S).st fid).bits.error = true ∧
    (getF (exec (F + 3) (.finishPending tw) S).st fid).bits.success = false ∧
    (getF (exec (F + 3) (.finishPending tw) S).st fid).value = (getF S tw).value := by
  have htw : tw ≠ fid := Ne.symm hne
  have hset : (getF S tw).bits.settled = true := by
    simp only [Bits.settled, herr, Bool.true_or]
  have hsettle := settle_alwaysThrow F
    (modF (setF S tw { getF S tw with successor := none }) tw
      (fun g => { g with bits := { g.bits with pendingRejection := false } }))
    fid ((getF S tw).value)
    (by rw [getF_modF_ne _ _ _ _ hne, getF_setF_ne _ _ _ _ hne]; exact hst2)
    (by rw [getF_modF_ne _ _ _ _ hne, getF_setF_ne _ _ _ _ hne]; exact hmp2)
    (by rw [getF_modF_ne _ _ _ _ hne, getF_setF_ne _ _ _ _ hne]; exact hmap2)
    he hef
  rw [show exec (F + 3) (.finishPending tw) S =
    finishPendingBody (exec (F + 2)) tw S from rfl]
  simp only [finishPendingBody, hset, hsucc, herr, eq_self_iff_true, if_true,
    hsettle, Out.done]
  generalize hS3 : scheduleFuture (setF
      (modF (setF S tw { getF S tw with successor := none }) tw
        (fun g => { g with bits := { g.bits with pendingRejection := false } }))
      fid (settledRecord { getF (modF (setF S tw { getF S tw with successor := none }) tw
        (fun g => { g with bits := { g.bits with pendingRejection := false } })) fid with
        mapper := none } ((getF S tw).value) Val.undef)) fid = S3
  have hwk3 : (getF S3 tw).weaks = [] := by
    rw [← hS3, getF_scheduleFuture, getF_setF_ne _ _ _ _ htw, getF_modF_eq, getF_setF_eq]
    exact hweaks
  have hfn3 : (getF S3 tw).finalizer = none := by
    rw [← hS3, getF_scheduleFuture, getF_setF_ne _ _ _ _ htw, getF_modF_eq, getF_setF_eq]
    exact hfin
  have hpr3 : (getF S3 tw).bits.pendingRejection = false := by
    rw [← hS3, getF_scheduleFuture, getF_setF_ne _ _ _ _ htw, getF_modF_eq, getF_setF_eq]
  have hfid3 : getF S3 fid =
      settledRecord { getF S fid with mapper := none } ((getF S tw).value) Val.undef := by
    rw [← hS3, getF_scheduleFuture, getF_setF_eq, getF_modF_ne _ _ _ _ hne,
      getF_setF_ne _ _ _ _ hne]
  have hwstep : exec (F + 2) (.weakLoop tw) S3 = Out.done S3 := by
    rw [show exec (F + 2) (.weakLoop tw) S3 = weakLoopBody (exec (F + 1)) tw S3 from rfl]
    simp only [weakLoopBody, hwk3]
  have hfstep : exec (F + 2) (.finalizeFut tw) S3 =
      Out.done (setF S3 tw { getF S3 tw with finalizer := none }) := by
    rw [show exec (F + 2) (.finalizeFut tw) S3 = finalizeBody (exec (F + 1)) tw S3 from rfl]
    simp only [finalizeBody, hfn3, Out.done]
  have hrstep : rejectionCheck (setF S3 tw { getF S3 tw with finalizer := none }) tw =
      Out.done (setF S3 tw { getF S3 tw with finalizer := none }) := by
    have hpr4 : (getF (setF S3 tw { getF S3 tw with finalizer := none }) tw).bits.pendingRejection = false := by
      rw [getF_setF_eq]
      exact hpr3
    simp only [rejectionCheck, hpr4, Bool.false_eq_true, if_false, Out.done]
  simp only [hwstep, Out.done, hfstep, hrstep]
  refine ⟨by first | rfl | trivial, ?_, ?_, ?_⟩
  · rw [getF_setF_ne _ _ _ _ hne, hfid3]
    simp only [settledRecord, Bits.replaceState, he]
  · rw [getF_setF_ne _ _ _ _ hne, hfid3]
    simp only [settledRecord, Bits.replaceState, he, Bool.not_true]
  · rw [getF_setF_ne _ _ _ _ hne, hfid3]
    simp only [settledRecord, orVal, he, if_true]

/-- A race input that is still undecided when inspected: an unconsumed,
unsettled, finalizer-free pending task other than the output. -/
def racePre (s : St) (fid : Nat) (v : Val) : Prop :=
  ∃ t, v = .fut t ∧ t ≠ fid ∧ (getF s t).bits.consumed = false ∧
    (getF s t).bits.error = false ∧ (getF s t).bits.success = false ∧
    (getF s t).bits.pending = true ∧ (getF s t).finalizer = none

/-- A race input that decides the race with outcome value `V`: either a
plain value, or an unconsumed task already settled in success. -/
def raceWin (s : St) (fid : Nat) (v V : Val) : Prop :=
  (isFutureV v = false ∧ V = v) ∨
  (∃ t, v = .fut t ∧ t ≠ fid ∧ (getF s t).bits.consumed = false ∧
    (getF s t).bits.error = false ∧ (getF s t).bits.success = true ∧
    (getF s t).value = V ∧ isFutureV V = false)

/-- The `initRaceJuncture` loop from index `i`: undecided pending tasks up
to index `i + k` are skipped (given a registration), and the first decided
input — at index `i + k` — wins: the output settles in success with that
input's value, everything else is cleaned up, nothing is thrown. -/
theorem initRace_win_aux (k : Nat) :
    ∀ (i : Nat) (s : St) (vs : List Val) (p : Int) (F j fid : Nat) (V : Val),
    i + k < vs.length →
    k + vs.length + 8 ≤ F →
    getJ s j = { future := some fid, values := some vs, pending := p } →
    (∀ idx, i ≤ idx → idx < i + k → racePre s fid (vs.getD idx .undef)) →
    raceWin s fid (vs.getD (i + k) .undef) V →
    (∀ v ∈ vs, raceLoserHyp s j fid v) →
    (∀ idx1 idx2, i ≤ idx1 → idx1 < idx2 → idx2 ≤ i + k →
      isFutureV (vs.getD idx1 .undef) = true →
      isFutureV (vs.getD idx2 .undef) = true →
      futId (vs.getD idx1 .undef) ≠ futId (vs.getD idx2 .undef)) →
    (getF s fid).bits.settled = false →
    (getF s fid).bits.mapping = false →
    (getF s fid).mapper = none →
    (exec F (.initRace j i) s).exn = none ∧
    (getF (exec F (.initRace j i) s).st fid).bits.success = true ∧
    (getF (exec F (.initRace j i) s).st fid).bits.error = false ∧
    (getF (exec F (.initRace j i) s).st fid).value = V := by
  induction k with
  | zero =>
    intro i s vs p F j fid V hW hF hj hpre hwin hlos hdist hst hmp hmap
    obtain ⟨F2, rfl⟩ : ∃ F2, F = F2 + 2 + 1 := ⟨F - 3, by omega⟩
    rw [show exec (F2 + 2 + 1) (.initRace j i) s =
      initRaceBody (exec (F2 + 2)) j i s from rfl]
    rcases hwin with ⟨hvf, hV⟩ | ⟨t, hv, hne, hcon, herr, hsucc, hval, hVf⟩
    · rw [Nat.add_zero] at hW hvf hV
      obtain ⟨hwexn, hwsucc, hwerr, hwval⟩ := settleRaceJ_win F2 s j fid p vs
        (vs.getD i .undef) hj hvf hst hmp hmap hlos (by omega)
      simp only [initRaceBody, hj, Option.getD, if_pos hW, hvf, Bool.not_false,
        eq_self_iff_true, if_true, Out.dropRet, hwexn, hwsucc, hwerr, hwval]
      exact ⟨by first | rfl | trivial, by first | rfl | trivial,
        by first | rfl | trivial, hV.symm⟩
    · rw [Nat.add_zero] at hW hv
      have hfid2 : fid ≠ t := Ne.symm hne
      obtain ⟨hwexn, hwsucc, hwerr, hwval⟩ := settleRaceJ_win F2
        (modF s t (fun f => { f with bits := { f.bits with consumed := true } }))
        j fid p vs (getF s t).value (by rw [getJ_modF]; exact hj)
        (hval ▸ hVf)
        (by rw [getF_modF_ne _ _ _ _ hfid2]; exact hst)
        (by rw [getF_modF_ne _ _ _ _ hfid2]; exact hmp)
        (by rw [getF_modF_ne _ _ _ _ hfid2]; exact hmap)
        (by intro w hw hwf
            obtain ⟨a1, a2, a3, a4, a5⟩ := hlos w hw hwf
            by_cases hsame : futId w = t
            · rw [hsame, getF_modF_eq]
              exact ⟨hsame ▸ a1, hsame ▸ a2, hsame ▸ a3, hsame ▸ a4, hsame ▸ a5⟩
            · rw [getF_modF_ne _ _ _ _ hsame]
              exact ⟨a1, a2, a3, a4, a5⟩)
        (by omega)
      simp only [initRaceBody, hj, Option.getD, if_pos hW, hv, isFutureV,
        Bool.not_true, Bool.false_eq_true, if_false, futId, hcon, herr, hsucc,
        eq_self_iff_true, if_true, quietlyConsume, Out.dropRet, hwexn, hwsucc,
        hwerr, hwval]
      exact ⟨by first | rfl | trivial, by first | rfl | trivial,
        by first | rfl | trivial, hval⟩
  | succ k ihk =>
    intro i s vs p F j fid V hW hF hj hpre hwin hlos hdist hst hmp hmap
    obtain ⟨t, hv, hne, hcon, herr, hsucc, hpend, hfinN⟩ :=
      hpre i (Nat.le_refl i) (by omega)
    have hfid2 : fid ≠ t := Ne.symm hne
    obtain ⟨F1, rfl⟩ : ∃ F1, F = F1 + 1 := ⟨F - 1, by omega⟩
    rw [show exec (F1 + 1) (.initRace j i) s =
      initRaceBody (exec F1) j i s from rfl]
    have hiW : i < vs.length := by omega
    have hset2 : (getF (modF s t (fun f => { f with finalizer := some (.settleRaceF j) })) t).bits.settled = false := by
      rw [getF_modF_eq]
      show Bits.settled (getF s t).bits = false
      simp [Bits.settled, herr, hsucc]
    have hpend2 : (getF (modF s t (fun f => { f with finalizer := some (.settleRaceF j) })) t).bits.pending = true := by
      rw [getF_modF_eq]
      exact hpend
    have hsf : setupFinalizer s t (.settleRaceF j) =
        modF s t (fun f => { f with finalizer := some (.settleRaceF j) }) := by
      simp only [setupFinalizer]
      rw [if_neg (by rw [hset2]; exact Bool.false_ne_true)]
    have hstep : exec (F1 + 1) (.initRace j i) s =
        exec F1 (.initRace j (i + 1))
          (setJ (modF s t (fun f => { f with finalizer := some (.settleRaceF j) })) j
            { future := some fid, values := some vs, pending := p + 1 }) := by
      rw [show exec (F1 + 1) (.initRace j i) s =
        initRaceBody (exec F1) j i s from rfl]
      simp only [initRaceBody, hj, Option.getD, if_pos hiW, hv, isFutureV,
        Bool.not_true, Bool.false_eq_true, if_false, futId, hcon, herr, hsucc,
        hfinN, Option.isNone, eq_self_iff_true, if_true, hsf, hpend2, hset2,
        getJ_modF]
    rw [show initRaceBody (exec F1) j i s = exec (F1 + 1) (.initRace j i) s from rfl,
      hstep]
    have hframe : ∀ m, m ≠ t →
        getF (setJ (modF s t (fun f => { f with finalizer := some (.settleRaceF j) })) j
          { future := some fid, values := some vs, pending := p + 1 }) m = getF s m := by
      intro m hm
      rw [getF_setJ, getF_modF_ne _ _ _ _ hm]
    have htrec : getF (setJ (modF s t (fun f => { f with finalizer := some (.settleRaceF j) })) j
        { future := some fid, values := some vs, pending := p + 1 }) t =
        { getF s t with finalizer := some (.settleRaceF j) } := by
      rw [getF_setJ, getF_modF_eq]
    refine ihk (i + 1) _ vs (p + 1) F1 j fid V (by omega) (by omega)
      (getJ_setJ_eq _ _ _) ?_ ?_ ?_ ?_ ?_ ?_ ?_
    · intro idx h1 h2
      obtain ⟨t2, hv2, b1, b2, b3, b4, b5, b6⟩ := hpre idx (by omega) (by omega)
      have hvt : isFutureV (vs.getD i .undef) = true := by rw [hv]; rfl
      have hvt2 : isFutureV (vs.getD idx .undef) = true := by rw [hv2]; rfl
      have hid : futId (vs.getD i .undef) ≠ futId (vs.getD idx .undef) :=
        hdist i idx (Nat.le_refl i) (by omega) (by omega) hvt hvt2
      rw [hv, hv2] at hid
      have ht2 : t2 ≠ t := fun hEq => hid (by rw [hEq])
      refine ⟨t2, hv2, b1, ?_, ?_, ?_, ?_, ?_⟩ <;> rw [hframe t2 ht2] <;> assumption
    · rcases hwin with ⟨hvf, hV⟩ | ⟨tw, hvw, c1, c2, c3, c4, c5, c6⟩
      · exact Or.inl ⟨by rw [show i + 1 + k = i + (k + 1) from by omega]; exact hvf,
          by rw [show i + 1 + k = i + (k + 1) from by omega]; exact hV⟩
      · have hvt : isFutureV (vs.getD i .undef) = true := by rw [hv]; rfl
        have hvtw : isFutureV (vs.getD (i + (k + 1)) .undef) = true := by
          rw [hvw]; rfl
        have hid : futId (vs.getD i .undef) ≠ futId (vs.getD (i + (k + 1)) .undef) :=
          hdist i (i + (k + 1)) (Nat.le_refl i) (by omega) (by omega) hvt hvtw
        rw [hv, hvw] at hid
        have htw : tw ≠ t := fun hEq => hid (by rw [hEq])
        refine Or.inr ⟨tw, by rw [show i + 1 + k = i + (k + 1) from by omega]; exact hvw,
          c1, ?_, ?_, ?_, ?_, c6⟩ <;> rw [hframe tw htw] <;> assumption
    · intro w hw hwf
      obtain ⟨a1, a2, a3, a4, a5⟩ := hlos w hw hwf
      by_cases hsame : futId w = t
      · rw [hsame, htrec]
        exact ⟨hsame ▸ a1, hsame ▸ a2, hsame ▸ a3, hsame ▸ a4, Or.inr rfl⟩
      · rw [hframe (futId w) hsame]
        exact ⟨a1, a2, a3, a4, a5⟩
    · intro idx1 idx2 h1 h2 h3 h4 h5
      exact hdist idx1 idx2 (by omega) h2 (by omega) h4 h5
    · rw [hframe fid hfid2]; exact hst
    · rw [hframe fid hfid2]; exact hmp
    · rw [hframe fid hfid2]; exact hmap

/-- The `initRaceJuncture` loop from index `i` when the first decided
input — at index `i + k` — is a task already settled in error: undecided
pending tasks before it are skipped (given a registration), the output is
armed with the `alwaysThrow` mapper and chained after the winner, the
winner keeps its settled error outcome with the output as its successor,
and nothing is thrown. -/
theorem initRace_errwin_aux (k : Nat) :
    ∀ (i : Nat) (s : St) (vs : List Val) (p : Int) (F j fid tw : Nat),
    i + k < vs.length →
    k + vs.length + 8 ≤ F →
    getJ s j = { future := some fid, values := some vs, pending := p } →
    (∀ idx, i ≤ idx → idx < i + k → racePre s fid (vs.getD idx .undef)) →
    vs.getD (i + k) .undef = .fut tw →
    tw ≠ fid →
    (getF s tw).bits.consumed = false →
    (getF s tw).bits.error = true →
    (getF s tw).successor = none →
    (∀ v ∈ vs, raceLoserHyp s j fid v) →
    (∀ idx1 idx2, i ≤ idx1 → idx1 < idx2 → idx2 ≤ i + k →
      isFutureV (vs.getD idx1 .undef) = true →
      isFutureV (vs.getD idx2 .undef) = true →
      futId (vs.getD idx1 .undef) ≠ futId (vs.getD idx2 .undef)) →
    (getF s fid).bits.settled = false →
    (getF s fid).bits.mapping = false →
    (getF s fid).mapper = none →
    (exec F (.initRace j i) s).exn = none ∧
    getF (exec F (.initRace j i) s).st fid =
      { getF s fid with mapper := some .alwaysThrow, predecessor := some tw } ∧
    (getF (exec F (.initRace j i) s).st tw).value = (getF s tw).value ∧
    (getF (exec F (.initRace j i) s).st tw).successor = some fid ∧
    (getF (exec F (.initRace j i) s).st tw).weaks = (getF s tw).weaks ∧
    (getF (exec F (.initRace j i) s).st tw).bits.error = true ∧
    (getF (exec F (.initRace j i) s).st tw).bits.pendingRejection = false ∧
    (getF (exec F (.initRace j i) s).st tw).finalizer = none := by
  induction k with
  | zero =>
    intro i s vs p F j fid tw hW hF hj hpre hv htwfid hcon herr hsuc hlos hdist hst hmp hmap
    rw [Nat.add_zero] at hW hv
    have hmem : Val.fut tw ∈ vs := by
      rw [← hv, List.getD_eq_getElem vs .undef hW]
      exact List.getElem_mem _
    obtain ⟨F2, rfl⟩ : ∃ F2, F = F2 + 2 + 1 := ⟨F - 3, by omega⟩
    obtain ⟨hrexn, hrfid, hr1, hr2, hr3, hr4, hr5, hr6⟩ :=
      settleRaceJ_error F2 s j fid tw p vs hj hst hmp hmap htwfid hcon hsuc herr
        hmem hlos (by omega)
    rw [show exec (F2 + 2 + 1) (.initRace j i) s =
      initRaceBody (exec (F2 + 2)) j i s from rfl]
    simp only [initRaceBody, hj, Option.getD, if_pos hW, hv, isFutureV,
      Bool.not_true, Bool.false_eq_true, if_false, futId, hcon, herr,
      eq_self_iff_true, if_true, Out.dropRet, hrexn, hrfid, hr1, hr2, hr3, hr4,
      hr5, hr6]
    exact ⟨by first | rfl | trivial, by first | rfl | trivial,
      by first | rfl | trivial, by first | rfl | trivial,
      by first | rfl | trivial, by first | rfl | trivial,
      by first | rfl | trivial, by first | rfl | trivial⟩
  | succ k ihk =>
    intro i s vs p F j fid tw hW hF hj hpre hv htwfid hcon herr hsuc hlos hdist hst hmp hmap
    obtain ⟨t, hv0, hne, hcont, herrt, hsucct, hpendt, hfinNt⟩ :=
      hpre i (Nat.le_refl i) (by omega)
    have hfid2 : fid ≠ t := Ne.symm hne
    have htwt : tw ≠ t := by
      have hvti : isFutureV (vs.getD i .undef) = true := by rw [hv0]; rfl
      have hvtw : isFutureV (vs.getD (i + (k + 1)) .undef) = true := by
        rw [hv]; rfl
      have hid : futId (vs.getD i .undef) ≠ futId (vs.getD (i + (k + 1)) .undef) :=
        hdist i (i + (k + 1)) (Nat.le_refl i) (by omega) (by omega) hvti hvtw
      rw [hv0, hv] at hid
      exact fun hEq => hid (by rw [hEq])
    obtain ⟨F1, rfl⟩ : ∃ F1, F = F1 + 1 := ⟨F - 1, by omega⟩
    rw [show exec (F1 + 1) (.initRace j i) s =
      initRaceBody (exec F1) j i s from rfl]
    have hiW : i < vs.length := by omega
    have hset2 : (getF (modF s t (fun f => { f with finalizer := some (.settleRaceF j) })) t).bits.settled = false := by
      rw [getF_modF_eq]
      show Bits.settled (getF s t).bits = false
      simp [Bits.settled, herrt, hsucct]
    have hpend2 : (getF (modF s t (fun f => { f with finalizer := some (.settleRaceF j) })) t).bits.pending = true := by
      rw [getF_modF_eq]
      exact hpendt
    have hsf : setupFinalizer s t (.settleRaceF j) =
        modF s t (fun f => { f with finalizer := some (.settleRaceF j) }) := by
      simp only [setupFinalizer]
      rw [if_neg (by rw [hset2]; exact Bool.false_ne_true)]
    have hstep : exec (F1 + 1) (.initRace j i) s =
        exec F1 (.initRace j (i + 1))
          (setJ (modF s t (fun f => { f with finalizer := some (.settleRaceF j) })) j
            { future := some fid, values := some vs, pending := p + 1 }) := by
      rw [show exec (F1 + 1) (.initRace j i) s =
        initRaceBody (exec F1) j i s from rfl]
      simp only [initRaceBody, hj, Option.getD, if_pos hiW, hv0, isFutureV,
        Bool.not_true, Bool.false_eq_true, if_false, futId, hcont, herrt, hsucct,
        hfinNt, Option.isNone, eq_self_iff_true, if_true, hsf, hpend2, hset2,
        getJ_modF]
    rw [show initRaceBody (exec F1) j i s = exec (F1 + 1) (.initRace j i) s from rfl,
      hstep]
    have hframe : ∀ m, m ≠ t →
        getF (setJ (modF s t (fun f => { f with finalizer := some (.settleRaceF j) })) j
          { future := some fid, values := some vs, pending := p + 1 }) m = getF s m := by
      intro m hm
      rw [getF_setJ, getF_modF_ne _ _ _ _ hm]
    have htrec : getF (setJ (modF s t (fun f => { f with finalizer := some (.settleRaceF j) })) j
        { future := some fid, values := some vs, pending := p + 1 }) t =
        { getF s t with finalizer := some (.settleRaceF j) } := by
      rw [getF_setJ, getF_modF_eq]
    obtain ⟨e1, e2, e3, e4, e5, e6, e7, e8⟩ := ihk (i + 1)
      (setJ (modF s t (fun f => { f with finalizer := some (.settleRaceF j) })) j
        { future := some fid, values := some vs, pending := p + 1 })
      vs (p + 1) F1 j fid tw (by omega) (by omega) (getJ_setJ_eq _ _ _)
      (by intro idx h1 h2
          obtain ⟨t2, hv2, b1, b2, b3, b4, b5, b6⟩ := hpre idx (by omega) (by omega)
          have hvti : isFutureV (vs.getD i .undef) = true := by rw [hv0]; rfl
          have hvt2 : isFutureV (vs.getD idx .undef) = true := by rw [hv2]; rfl
          have hid : futId (vs.getD i .undef) ≠ futId (vs.getD idx .undef) :=
            hdist i idx (Nat.le_refl i) (by omega) (by omega) hvti hvt2
          rw [hv0, hv2] at hid
          have ht2 : t2 ≠ t := fun hEq => hid (by rw [hEq])
          refine ⟨t2, hv2, b1, ?_, ?_, ?_, ?_, ?_⟩ <;> rw [hframe t2 ht2] <;>
            assumption)
      (by rw [show i + 1 + k = i + (k + 1) from by omega]; exact hv)
      htwfid
      (by rw [hframe tw htwt]; exact hcon)
      (by rw [hframe tw htwt]; exact herr)
      (by rw [hframe tw htwt]; exact hsuc)
      (by intro w2 hw hwf
          obtain ⟨a1, a2, a3, a4, a5⟩ := hlos w2 hw hwf
          by_cases hsame : futId w2 = t
          · rw [hsame, htrec]
            exact ⟨hsame ▸ a1, hsame ▸ a2, hsame ▸ a3, hsame ▸ a4, Or.inr rfl⟩
          · rw [hframe (futId w2) hsame]
            exact ⟨a1, a2, a3, a4, a5⟩)
      (fun idx1 idx2 h1 h2 h3 h4 h5 => hdist idx1 idx2 (by omega) h2 (by omega) h4 h5)
      (by rw [hframe fid hfid2]; exact hst)
      (by rw [hframe fid hfid2]; exact hmp)
      (by rw [hframe fid hfid2]; exact hmap)
    rw [hframe fid hfid2] at e2
    rw [hframe tw htwt] at e3 e5
    exact ⟨e1, e2, e3, e4, e5, e6, e7, e8⟩

/-- C8: `race`.  Empty input: the output resolves at once with the
undefined sentinel.  Otherwise, with pending tasks at every index before
`w` and the first decided input at index `w` — inspected in input order
during construction — the output's outcome equals that input's: a plain
value or a task already settled in success settles the output in success
with that value at once; a task already settled in error hands the output
its error outcome at the next notification flush of the winner (the
output, chained after the winner via the always-throw mapper, then settles
in error with the winner's value).  In each case nothing is thrown and the
losers are cleaned up. -/
theorem race_first_settled_wins :
    (∀ (s : St) (F j fid : Nat),
      9 ≤ F →
      getJ s j = { future := some fid, values := some [], pending := 0 } →
      (getF s fid).bits.settled = false →
      (getF s fid).bits.mapping = false →
      (getF s fid).mapper = none →
      (exec F (.initRace j 0) s).exn = none ∧
      (getF (exec F (.initRace j 0) s).st fid).bits.success = true ∧
      (getF (exec F (.initRace j 0) s).st fid).value = Val.undef) ∧
    (∀ (w : Nat) (s : St) (vs : List Val) (p : Int) (F j fid : Nat) (V : Val),
      w < vs.length →
      w + vs.length + 8 ≤ F →
      getJ s j = { future := some fid, values := some vs, pending := p } →
      (∀ idx, idx < w → racePre s fid (vs.getD idx .undef)) →
      raceWin s fid (vs.getD w .undef) V →
      (∀ v ∈ vs, raceLoserHyp s j fid v) →
      (∀ idx1 idx2, idx1 < idx2 → idx2 ≤ w →
        isFutureV (vs.getD idx1 .undef) = true →
        isFutureV (vs.getD idx2 .undef) = true →
        futId (vs.getD idx1 .undef) ≠ futId (vs.getD idx2 .undef)) →
      (getF s fid).bits.settled = false →
      (getF s fid).bits.mapping = false →
      (getF s fid).mapper = none →
      (exec F (.initRace j 0) s).exn = none ∧
      (getF (exec F (.initRace j 0) s).st fid).bits.success = true ∧
      (getF (exec F (.initRace j 0) s).st fid).bits.error = false ∧
      (getF (exec F (.initRace j 0) s).st fid).value = V) ∧
    (∀ (w : Nat) (s : St) (vs : List Val) (p : Int) (F F2 j fid tw : Nat) (V : Val),
      w < vs.length →
      w + vs.length + 8 ≤ F →
      3 ≤ F2 →
      getJ s j = { future := some fid, values := some vs, pending := p } →
      (∀ idx, idx < w → racePre s fid (vs.getD idx .undef)) →
      vs.getD w .undef = .fut tw →
      tw ≠ fid →
      (getF s tw).bits.consumed = false →
      (getF s tw).bits.error = true →
      (getF s tw).successor = none →
      (getF s tw).weaks = [] →
      (getF s tw).value = V →
      truthy V = true →
      isFutureV V = false →
      (∀ v ∈ vs, raceLoserHyp s j fid v) →
      (∀ idx1 idx2, idx1 < idx2 → idx2 ≤ w →
        isFutureV (vs.getD idx1 .undef) = true →
        isFutureV (vs.getD idx2 .undef) = true →
        futId (vs.getD idx1 .undef) ≠ futId (vs.getD idx2 .undef)) →
      (getF s fid).bits.settled = false →
      (getF s fid).bits.mapping = false →
      (getF s fid).mapper = none →
      (exec F (.initRace j 0) s).exn = none ∧
      (exec F2 (.finishPending tw) (exec F (.initRace j 0) s).st).exn = none ∧
      (getF (exec F2 (.finishPending tw) (exec F (.initRace j 0) s).st).st fid).bits.error = true ∧
      (getF (exec F2 (.finishPending tw) (exec F (.initRace j 0) s).st).st fid).bits.success = false ∧
      (getF (exec F2 (.finishPending tw) (exec F (.initRace j 0) s).st).st fid).value = V) := by
  refine ⟨?_, ?_, ?_⟩
  · intro s F j fid hF hj hst hmp hmap
    obtain ⟨F2, rfl⟩ : ∃ F2, F = F2 + 2 + 1 := ⟨F - 3, by omega⟩
    obtain ⟨hwexn, hwsucc, hwerr, hwval⟩ := settleRaceJ_win F2 s j fid 0 []
      Val.undef hj rfl hst hmp hmap (fun v hv => absurd hv (List.not_mem_nil v))
      (by simp only [List.length_nil]; omega)
    have hnz : ((0 : Int) != 0) = false := by decide
    rw [show exec (F2 + 2 + 1) (.initRace j 0) s =
      initRaceBody (exec (F2 + 2)) j 0 s from rfl]
    simp only [initRaceBody, hj, Option.getD, List.length_nil, lt_self_iff_false,
      if_false, hnz, Bool.false_eq_true, Out.dropRet, hwexn, hwsucc, hwval]
    exact ⟨by first | rfl | trivial, by first | rfl | trivial,
      by first | rfl | trivial⟩
  · intro w s vs p F j fid V hW hF hj hpre hwin hlos hdist hst hmp hmap
    exact initRace_win_aux w 0 s vs p F j fid V (by omega) (by omega) hj
      (fun idx h1 h2 => hpre idx (by omega)) (by rw [Nat.zero_add]; exact hwin)
      hlos
      (fun idx1 idx2 h1 h2 h3 h4 h5 => hdist idx1 idx2 h2 (by omega) h4 h5)
      hst hmp hmap
  · intro w s vs p F F2 j fid tw V hW hF hF2 hj hpre hv htwfid hcon herr hsuc hwk
      hvalV htr hvf hlos hdist hst hmp hmap
    obtain ⟨e1, e2, e3, e4, e5, e6, e7, e8⟩ := initRace_errwin_aux w 0 s vs p F j
      fid tw (by omega) (by omega) hj (fun idx h1 h2 => hpre idx (by omega))
      (by rw [Nat.zero_add]; exact hv) htwfid hcon herr hsuc hlos
      (fun idx1 idx2 h1 h2 h3 h4 h5 => hdist idx1 idx2 h2 (by omega) h4 h5)
      hst hmp hmap
    obtain ⟨G, rfl⟩ : ∃ G, F2 = G + 3 := ⟨F2 - 3, by omega⟩
    obtain ⟨d1, d2, d3, d4⟩ := finishPending_alwaysThrow G
      (exec F (.initRace j 0) s).st tw fid (Ne.symm htwfid)
      e6 e4 (e5.trans hwk) e8
      (by rw [e3, hvalV]; exact htr)
      (by rw [e3, hvalV]; exact hvf)
      (by rw [e2]; exact hst) (by rw [e2]; exact hmp) (by rw [e2])
    rw [e3, hvalV] at d4
    exact ⟨e1, d1, d2, d3, d4⟩

/-- An empty race, just allocated: output future 0, juncture 0. -/
def c8EmptyState : St := (allocJ (allocF St.empty).1 0 []).1

/-- A task already settled in success with the string value `win`. -/
def c8WinFut : Fut :=
  { freshFut with
      bits := { pending := false, error := false, success := true,
                pendingRejection := false, consumed := false, mapping := false }
      value := .str "win" }

/-- A race over a pending task 0 and the settled task 1; output future 2. -/
def c8State : St :=
  (allocJ (allocF (setF (allocF (allocF St.empty).1).1 1 c8WinFut)).1 2
    [.fut 0, .fut 1]).1

/-- A task already settled in error with the value `boom`, its rejection
still pending. -/
def c8ErrFut : Fut :=
  { freshFut with
      bits := { pending := false, error := true, success := false,
                pendingRejection := true, consumed := false, mapping := false }
      value := .errObj "boom" }

/-- A race over a pending task 0 and the error-settled task 1; output
future 2. -/
def c8ErrState : St :=
  (allocJ (allocF (setF (allocF (allocF St.empty).1).1 1 c8ErrFut)).1 2
    [.fut 0, .fut 1]).1

theorem race_first_settled_wins_witness :
    (exec 9 (.initRace 0 0) c8EmptyState).exn = none ∧
    (getF (exec 9 (.initRace 0 0) c8EmptyState).st 0).value = Val.undef ∧
    (exec 11 (.initRace 0 0) c8State).exn = none ∧
    (getF (exec 11 (.initRace 0 0) c8State).st 2).bits.success = true ∧
    (getF (exec 11 (.initRace 0 0) c8State).st 2).value = Val.str "win" ∧
    (exec 3 (.finishPending 1) (exec 11 (.initRace 0 0) c8ErrState).st).exn = none ∧
    (getF (exec 3 (.finishPending 1) (exec 11 (.initRace 0 0) c8ErrState).st).st 2).bits.error = true ∧
    (getF (exec 3 (.finishPending 1) (exec 11 (.initRace 0 0) c8ErrState).st).st 2).value = Val.errObj "boom" := by
  have h := race_first_settled_wins
  have hA := h.1 c8EmptyState 9 0 0 (by decide) rfl rfl rfl rfl
  have hB := h.2.1 1 c8State [.fut 0, .fut 1] 0 11 0 2 (.str "win")
    (by decide) (by decide) rfl
    (by intro idx hlt
        interval_cases idx
        exact ⟨0, rfl, by decide, rfl, rfl, rfl, rfl, rfl⟩)
    (Or.inr ⟨1, rfl, by decide, rfl, rfl, rfl, rfl, rfl⟩)
    (by intro v hv
        rcases List.mem_cons.mp hv with rfl | hv2
        · exact fun _ => ⟨by decide, rfl, rfl, rfl, Or.inl rfl⟩
        · rcases List.mem_cons.mp hv2 with rfl | hv3
          · exact fun _ => ⟨by decide, rfl, rfl, rfl, Or.inl rfl⟩
          · cases hv3)
    (by intro idx1 idx2 h1 h2 _ _
        obtain ⟨rfl, rfl⟩ : idx1 = 0 ∧ idx2 = 1 := by omega
        decide)
    rfl rfl rfl
  have hC := h.2.2 1 c8ErrState [.fut 0, .fut 1] 0 11 3 0 2 1 (.errObj "boom")
    (by decide) (by decide) (by decide) rfl
    (by intro idx hlt
        interval_cases idx
        exact ⟨0, rfl, by decide, rfl, rfl, rfl, rfl, rfl⟩)
    rfl (by decide) rfl rfl rfl rfl rfl rfl rfl
    (by intro v hv
        rcases List.mem_cons.mp hv with rfl | hv2
        · exact fun _ => ⟨by decide, rfl, rfl, rfl, Or.inl rfl⟩
        · rcases List.mem_cons.mp hv2 with rfl | hv3
          · exact fun _ => ⟨by decide, rfl, rfl, rfl, Or.inl rfl⟩
          · cases hv3)
    (by intro idx1 idx2 h1 h2 _ _
        obtain ⟨rfl, rfl⟩ : idx1 = 0 ∧ idx2 = 1 := by omega
        decide)
    rfl rfl rfl
  exact ⟨hA.1, hA.2.2, hB.1, hB.2.1, hB.2.2.2, hC.2.1, hC.2.2.1, hC.2.2.2.2⟩

/-! ## Claim C1: settlement is final -/

/-- `stepOK s s2`: every allocated task that is settled in `s` keeps its
three state flags and its value slot in `s2` (and the allocation counter
never shrinks). -/
def stepOK (s s2 : St) : Prop :=
  s.nFuts ≤ s2.nFuts ∧
  ∀ i, i < s.nFuts → (getF s i).bits.settled = true →
    (getF s2 i).bits.pending = (getF s i).bits.pending ∧
    (getF s2 i).bits.error = (getF s i).bits.error ∧
    (getF s2 i).bits.success = (getF s i).bits.success ∧
    (getF s2 i).value = (getF s i).value

theorem stepOK_refl (s : St) : stepOK s s :=
  ⟨Nat.le_refl _, fun _ _ _ => ⟨rfl, rfl, rfl, rfl⟩⟩

theorem stepOK_trans {a b c : St} (h1 : stepOK a b) (h2 : stepOK b c) :
    stepOK a c := by
  refine ⟨Nat.le_trans h1.1 h2.1, fun i hi hs => ?_⟩
  obtain ⟨hp1, he1, hs1, hv1⟩ := h1.2 i hi hs
  have hsb : (getF b i).bits.settled = true := by
    simp only [Bits.settled] at hs ⊢
    rw [he1, hs1]
    exact hs
  obtain ⟨hp2, he2, hs2, hv2⟩ := h2.2 i (Nat.lt_of_lt_of_le hi h1.1) hsb
  exact ⟨hp2.trans hp1, he2.trans he1, hs2.trans hs1, hv2.trans hv1⟩

theorem stepOK_of_futs {a b : St} (hn : a.nFuts ≤ b.nFuts)
    (h : ∀ i, i < a.nFuts → getF b i = getF a i) : stepOK a b :=
  ⟨hn, fun i hi _ => by rw [h i hi]; exact ⟨rfl, rfl, rfl, rfl⟩⟩

theorem stepOK_futsEq {a b : St} (hf : b.futs = a.futs) (hn : b.nFuts = a.nFuts) :
    stepOK a b :=
  stepOK_of_futs (le_of_eq hn.symm) (fun i _ => by simp only [getF, hf])

theorem stepOK_setF_keep (s : St) (i : Nat) (f : Fut)
    (hp : f.bits.pending = (getF s i).bits.pending)
    (he : f.bits.error = (getF s i).bits.error)
    (hs : f.bits.success = (getF s i).bits.success)
    (hv : f.value = (getF s i).value) : stepOK s (setF s i f) := by
  refine ⟨le_of_eq (nFuts_setF s i f).symm, fun m hm _ => ?_⟩
  by_cases hmi : m = i
  · subst hmi
    rw [getF_setF_eq]
    exact ⟨hp, he, hs, hv⟩
  · rw [getF_setF_ne _ _ _ _ hmi]
    exact ⟨rfl, rfl, rfl, rfl⟩

theorem stepOK_setF_unsettled (s : St) (i : Nat) (f : Fut)
    (h : (getF s i).bits.settled = false) : stepOK s (setF s i f) := by
  refine ⟨le_of_eq (nFuts_setF s i f).symm, fun m hm hms => ?_⟩
  have hmi : m ≠ i := fun hEq => by rw [hEq, h] at hms; cases hms
  rw [getF_setF_ne _ _ _ _ hmi]
  exact ⟨rfl, rfl, rfl, rfl⟩

theorem stepOK_allocF (s : St) : stepOK s (allocF s).1 := by
  refine stepOK_of_futs (Nat.le_succ _) (fun i hi => ?_)
  show Function.update s.futs s.nFuts freshFut i = s.futs i
  exact Function.update_noteq (Nat.ne_of_lt hi) _ _

theorem stepOK_scheduleFuture (s : St) (i : Nat) : stepOK s (scheduleFuture s i) :=
  stepOK_of_futs (le_of_eq (nFuts_scheduleFuture s i).symm)
    (fun m _ => getF_scheduleFuture s i m)

theorem stepOK_modF_keep (s : St) (i : Nat) (g : Fut → Fut)
    (hp : (g (getF s i)).bits.pending = (getF s i).bits.pending)
    (he : (g (getF s i)).bits.error = (getF s i).bits.error)
    (hs : (g (getF s i)).bits.success = (getF s i).bits.success)
    (hv : (g (getF s i)).value = (getF s i).value) : stepOK s (modF s i g) :=
  stepOK_setF_keep s i (g (getF s i)) hp he hs hv

theorem stepOK_setupPair (s : St) (a b : Nat) : stepOK s (setupPair s a b) := by
  simp only [setupPair]
  split
  · exact stepOK_trans (stepOK_modF_keep s a _ rfl rfl rfl rfl)
      (stepOK_trans (stepOK_modF_keep _ b _ rfl rfl rfl rfl)
        (stepOK_scheduleFuture _ _))
  · exact stepOK_trans (stepOK_modF_keep s a _ rfl rfl rfl rfl)
      (stepOK_modF_keep _ b _ rfl rfl rfl rfl)

theorem stepOK_setupFinalizer (s : St) (i : Nat) (fn : Finalizer) :
    stepOK s (setupFinalizer s i fn) := by
  simp only [setupFinalizer]
  split
  · exact stepOK_trans (stepOK_modF_keep s i _ rfl rfl rfl rfl)
      (stepOK_scheduleFuture _ _)
  · exact stepOK_modF_keep s i _ rfl rfl rfl rfl

theorem stepOK_quietlyConsume (s : St) (i : Nat) :
    stepOK s (quietlyConsume s i).1 :=
  stepOK_modF_keep s i _ rfl rfl rfl rfl

theorem stepOK_settleProm (s : St) (p : Nat) (pr : Prom) :
    stepOK s (settleProm s p pr) := by
  simp only [settleProm]
  split
  · exact stepOK_futsEq rfl rfl
  · exact stepOK_refl _

theorem stepOK_setJ (s : St) (j : Nat) (ju : Junct) : stepOK s (setJ s j ju) :=
  stepOK_futsEq rfl rfl

theorem stepOK_mapFut (s : St) (i : Nat) (m : Mapper) :
    stepOK s (mapFut s i m).1 := by
  cases hc : (getF s i).bits.consumed with
  | true =>
    have heq : (mapFut s i m).1 = s := by
      simp [mapFut, hc]
    rw [heq]
    exact stepOK_refl s
  | false =>
    have heq : (mapFut s i m).1 =
        setupPair (setF (allocF (setF s i { getF s i with bits := { (getF s i).bits with consumed := true, pendingRejection := false } })).1 (allocF (setF s i { getF s i with bits := { (getF s i).bits with consumed := true, pendingRejection := false } })).2 { freshFut with mapper := some m }) i (allocF (setF s i { getF s i with bits := { (getF s i).bits with consumed := true, pendingRejection := false } })).2 := by
      simp only [mapFut, hc, Bool.false_eq_true, if_false]
    rw [heq]
    have h1 : stepOK s (setF s i { getF s i with bits := { (getF s i).bits with consumed := true, pendingRejection := false } }) :=
      stepOK_setF_keep s i _ rfl rfl rfl rfl
    have h2 := stepOK_allocF (setF s i { getF s i with bits := { (getF s i).bits with consumed := true, pendingRejection := false } })
    have h3 : stepOK (allocF (setF s i { getF s i with bits := { (getF s i).bits with consumed := true, pendingRejection := false } })).1
        (setF (allocF (setF s i { getF s i with bits := { (getF s i).bits with consumed := true, pendingRejection := false } })).1 (allocF (setF s i { getF s i with bits := { (getF s i).bits with consumed := true, pendingRejection := false } })).2 { freshFut with mapper := some m }) := by
      refine stepOK_setF_unsettled _ _ _ ?_
      rw [allocF_snd, getF_allocF_new]
      rfl
    have h4 := stepOK_setupPair (setF (allocF (setF s i { getF s i with bits := { (getF s i).bits with consumed := true, pendingRejection := false } })).1 (allocF (setF s i { getF s i with bits := { (getF s i).bits with consumed := true, pendingRejection := false } })).2 { freshFut with mapper := some m }) i (allocF (setF s i { getF s i with bits := { (getF s i).bits with consumed := true, pendingRejection := false } })).2
    exact stepOK_trans h1 (stepOK_trans h2 (stepOK_trans h3 h4))

theorem stepOK_rejectionCheck (s : St) (i : Nat) :
    stepOK s (rejectionCheck s i).st := by
  simp only [rejectionCheck]
  split
  · exact stepOK_modF_keep s i _ rfl rfl rfl rfl
  · exact stepOK_refl _

set_option maxHeartbeats 2000000 in
theorem settleBody_stepOK (recur : Call → St → Out)
    (hrec : ∀ c s, stepOK s (recur c s).st) (i : Nat) (e r : Val) (s : St) :
    stepOK s (settleBody recur i e r s).st := by
  simp only [settleBody]
  split
  · exact stepOK_refl s
  next hguard =>
  split
  · exact stepOK_refl s
  have hsf : (getF s i).bits.settled = false := by
    simp only [Bool.or_eq_true, not_or, Bool.not_eq_true] at hguard
    exact hguard.1
  cases htr : truthy e with
  | true =>
    simp only [htr, eq_self_iff_true, if_true, isFutureV_undef, Bool.false_eq_true,
      if_false]
    split
    · -- error-position flattening
      split
      · exact stepOK_refl s
      split
      · exact stepOK_trans
          (stepOK_setF_keep s i { getF s i with mapper := some .alwaysThrow } rfl rfl rfl rfl)
          (stepOK_setupPair _ _ _)
      · split
        next s2 ex heq =>
          have h := stepOK_mapFut s (futId e) (.errorSettle i)
          rw [heq] at h
          exact h
        next s2 nid heq =>
          have h := stepOK_mapFut s (futId e) (.errorSettle i)
          rw [heq] at h
          exact stepOK_trans h (stepOK_modF_keep _ i _ rfl rfl rfl rfl)
    · -- mapper / terminal
      split
      · split <;>
          exact stepOK_trans
            (stepOK_setF_keep s i { getF s i with mapper := none, bits := { (getF s i).bits with mapping := true } } rfl rfl rfl rfl)
            (stepOK_trans (hrec _ _)
              (stepOK_trans (stepOK_modF_keep _ i _ rfl rfl rfl rfl) (hrec _ _)))
      · exact stepOK_trans (stepOK_setF_unsettled s i _ hsf)
          (stepOK_scheduleFuture _ _)
  | false =>
    simp only [htr, Bool.false_eq_true, if_false, isFutureV_undef]
    split
    · -- result-position flattening
      split
      · exact stepOK_refl s
      split
      · exact stepOK_setupPair _ _ _
      · split
        next s2 ex heq =>
          have h := stepOK_mapFut s (futId r) (.valueSettle i)
          rw [heq] at h
          exact h
        next s2 nid heq =>
          have h := stepOK_mapFut s (futId r) (.valueSettle i)
          rw [heq] at h
          exact stepOK_trans h (stepOK_modF_keep _ i _ rfl rfl rfl rfl)
    · -- mapper / terminal
      split
      · split <;>
          exact stepOK_trans
            (stepOK_setF_keep s i { getF s i with mapper := none, bits := { (getF s i).bits with mapping := true } } rfl rfl rfl rfl)
            (stepOK_trans (hrec _ _)
              (stepOK_trans (stepOK_modF_keep _ i _ rfl rfl rfl rfl) (hrec _ _)))
      · exact stepOK_trans (stepOK_setF_unsettled s i _ hsf)
          (stepOK_scheduleFuture _ _)

theorem runMapperBody_stepOK (recur : Call → St → Out)
    (hrec : ∀ c s, stepOK s (recur c s).st) (m : Mapper) (e r : Val) (s : St) :
    stepOK s (runMapperBody recur m e r s).st := by
  cases m with
  | fn f =>
    simp only [runMapperBody]
    split <;> exact stepOK_refl s
  | alwaysThrow => exact stepOK_refl s
  | mapErrorW f =>
    simp only [runMapperBody]
    split
    · split <;> exact stepOK_refl s
    · exact stepOK_refl s
  | mapResultW f =>
    simp only [runMapperBody]
    split
    · exact stepOK_refl s
    · split <;> exact stepOK_refl s
  | finallyW f =>
    simp only [runMapperBody]
    split
    · exact stepOK_refl s
    next fin heq2 =>
      split
      · split
        next s2 ex heq =>
          have h := stepOK_mapFut s (futId fin) (.mapResultW (fun _ => .ok r))
          rw [heq] at h
          exact h
        next s2 nid heq =>
          have h := stepOK_mapFut s (futId fin) (.mapResultW (fun _ => .ok r))
          rw [heq] at h
          exact h
      · split <;> exact stepOK_refl s
  | errorSettle i2 => exact hrec _ _
  | valueSettle i2 => exact hrec _ _
  | settleAllAtIndex j2 i2 => exact hrec _ _
  | settleRaceWith j2 => exact hrec _ _
  | settlePromise fid pid =>
    simp only [runMapperBody]
    split <;>
      exact stepOK_trans
        (stepOK_modF_keep s fid (fun g => { g with bits := { g.bits with pendingRejection := false } }) rfl rfl rfl rfl)
        (stepOK_settleProm _ _ _)

theorem weakLoopBody_stepOK (recur : Call → St → Out)
    (hrec : ∀ c s, stepOK s (recur c s).st) (i : Nat) (s : St) :
    stepOK s (weakLoopBody recur i s).st := by
  simp only [weakLoopBody]
  split
  · exact stepOK_refl s
  next w rest heq =>
    have h1 : stepOK s (setF s i { getF s i with weaks := rest }) :=
      stepOK_setF_keep s i { getF s i with weaks := rest } rfl rfl rfl rfl
    split <;> split <;>
      first
        | exact stepOK_trans h1 (hrec _ _)
        | exact stepOK_trans h1 (stepOK_trans (hrec _ _) (hrec _ _))

theorem finalizeBody_stepOK (recur : Call → St → Out)
    (hrec : ∀ c s, stepOK s (recur c s).st) (i : Nat) (s : St) :
    stepOK s (finalizeBody recur i s).st := by
  simp only [finalizeBody]
  have h1 : stepOK s (setF s i { getF s i with finalizer := none }) :=
    stepOK_setF_keep s i { getF s i with finalizer := none } rfl rfl rfl rfl
  split
  · exact h1
  · split <;> exact stepOK_trans h1 (hrec _ _)

theorem runFinalizerBody_stepOK (recur : Call → St → Out)
    (hrec : ∀ c s, stepOK s (recur c s).st) (fn : Finalizer) (e r : Val) (s : St) :
    stepOK s (runFinalizerBody recur fn e r s).st := by
  cases fn with
  | ext tag exn => exact stepOK_futsEq rfl rfl
  | settleAllAtIndexF j2 i2 => exact hrec _ _
  | settleRaceF j2 => exact hrec _ _
  | junctDeinitF j2 => exact hrec _ _
  | settlePromiseF fid pid =>
    simp only [runFinalizerBody]
    split <;>
      exact stepOK_trans
        (stepOK_modF_keep s fid (fun g => { g with bits := { g.bits with pendingRejection := false } }) rfl rfl rfl rfl)
        (stepOK_settleProm _ _ _)

theorem finishPendingBody_stepOK (recur : Call → St → Out)
    (hrec : ∀ c s, stepOK s (recur c s).st) (i : Nat) (s : St) :
    stepOK s (finishPendingBody recur i s).st := by
  have h1 : stepOK s (setF s i { getF s i with successor := none }) :=
    stepOK_setF_keep s i { getF s i with successor := none } rfl rfl rfl rfl
  have h2 : stepOK s (modF (setF s i { getF s i with successor := none }) i
      (fun g => { g with bits := { g.bits with pendingRejection := false } })) :=
    stepOK_trans h1 (stepOK_modF_keep _ i _ rfl rfl rfl rfl)
  simp only [finishPendingBody]
  split
  · cases hsucc : (getF s i).successor with
    | none =>
      simp only [hsucc, Out.done]
      split
      · exact stepOK_trans h1 (hrec _ _)
      · split
        · exact stepOK_trans h1 (stepOK_trans (hrec _ _) (hrec _ _))
        · exact stepOK_trans h1 (stepOK_trans (hrec _ _)
            (stepOK_trans (hrec _ _) (stepOK_rejectionCheck _ _)))
    | some sc =>
      simp only [hsucc]
      cases herr : (getF s i).bits.error <;>
        simp only [herr, Bool.false_eq_true, if_false, eq_self_iff_true, if_true] <;>
        · split
          · exact stepOK_trans h2 (hrec _ _)
          · split
            · exact stepOK_trans h2 (stepOK_trans (hrec _ _) (hrec _ _))
            · split
              · exact stepOK_trans h2 (stepOK_trans (hrec _ _)
                  (stepOK_trans (hrec _ _) (hrec _ _)))
              · exact stepOK_trans h2 (stepOK_trans (hrec _ _)
                  (stepOK_trans (hrec _ _)
                    (stepOK_trans (hrec _ _) (stepOK_rejectionCheck _ _))))
  · exact stepOK_rejectionCheck s i

theorem deinitBody_stepOK (recur : Call → St → Out)
    (hrec : ∀ c s, stepOK s (recur c s).st) (i : Nat) (s : St) :
    stepOK s (deinitBody recur i s).st := by
  have h1 : stepOK s (setF s i { getF s i with predecessor := none }) :=
    stepOK_setF_keep s i { getF s i with predecessor := none } rfl rfl rfl rfl
  simp only [deinitBody]
  cases hmp : (getF s i).bits.mapping with
  | true =>
    simp only [hmp, eq_self_iff_true, if_true]
    exact stepOK_refl s
  | false =>
    simp only [hmp, Bool.false_eq_true, if_false]
    have htail : ∀ C : St, stepOK s C →
        stepOK s ((match (getF C i).predecessor with
          | some p2 => recur (.deinit p2) (modF C i (fun g => { g with predecessor := none }))
          | none => Out.done (modF C i (fun g => { g with predecessor := none })) : Out)).st := by
      intro C hC
      cases hnx : (getF C i).predecessor with
      | some p2 =>
        simp only [hnx]
        exact stepOK_trans (stepOK_trans hC (stepOK_modF_keep _ i _ rfl rfl rfl rfl))
          (hrec _ _)
      | none =>
        simp only [hnx, Out.done]
        exact stepOK_trans hC (stepOK_modF_keep _ i _ rfl rfl rfl rfl)
    cases hset : (getF s i).bits.settled with
    | true =>
      simp only [hset, eq_self_iff_true, if_true, Out.done]
      have hA1 : stepOK s (modF (setF s i { getF s i with predecessor := none }) i
          (fun g => { g with bits := { g.bits with pendingRejection := false } })) :=
        stepOK_trans h1 (stepOK_modF_keep _ i _ rfl rfl rfl rfl)
      have hB := stepOK_trans hA1 (hrec (.finalizeFut i) _)
      cases hpred : (getF s i).predecessor with
      | some p =>
        simp only [hpred]
        exact htail _ (stepOK_trans hB (hrec _ _))
      | none =>
        simp only [hpred, Out.done]
        exact htail _ hB
    | false =>
      simp only [hset, Bool.false_eq_true, if_false]
      have hA0 : stepOK s (recur (.settle i (.errObj DEINIT_ERROR) .undef)
          (setF s i { getF s i with predecessor := none })).st :=
        stepOK_trans h1 (hrec _ _)
      cases hexn : (recur (.settle i (.errObj DEINIT_ERROR) .undef)
          (setF s i { getF s i with predecessor := none })).exn with
      | some ex =>
        simp only [hexn]
        have hB := stepOK_trans hA0 (hrec (.finalizeFut i) _)
        cases hpred : (getF s i).predecessor with
        | some p =>
          simp only [hpred]
          exact htail _ (stepOK_trans hB (hrec _ _))
        | none =>
          simp only [hpred, Out.done]
          exact htail _ hB
      | none =>
        simp only [hexn, Out.done]
        have hA1 : stepOK s (modF (recur (.settle i (.errObj DEINIT_ERROR) .undef)
            (setF s i { getF s i with predecessor := none })).st i
            (fun g => { g with bits := { g.bits with pendingRejection := false } })) :=
          stepOK_trans hA0 (stepOK_modF_keep _ i _ rfl rfl rfl rfl)
        have hB := stepOK_trans hA1 (hrec (.finalizeFut i) _)
        cases hpred : (getF s i).predecessor with
        | some p =>
          simp only [hpred]
          exact htail _ (stepOK_trans hB (hrec _ _))
        | none =>
          simp only [hpred, Out.done]
          exact htail _ hB

theorem settleAllIdxBody_stepOK (recur : Call → St → Out)
    (hrec : ∀ c s, stepOK s (recur c s).st) (j i : Nat) (e r : Val) (s : St) :
    stepOK s (settleAllIdxBody recur j i e r s).st := by
  simp only [settleAllIdxBody]
  split
  · exact stepOK_refl s
  · split
    · exact stepOK_trans (stepOK_setJ _ _ _) (hrec _ _)
    · split
      · exact stepOK_trans (stepOK_setJ _ _ _)
          (stepOK_trans (stepOK_setJ _ _ _) (hrec _ _))
      · exact stepOK_trans (stepOK_setJ _ _ _) (stepOK_setJ _ _ _)

theorem settleAllJBody_stepOK (recur : Call → St → Out)
    (hrec : ∀ c s, stepOK s (recur c s).st) (j : Nat) (e : Val) (s : St) :
    stepOK s (settleAllJBody recur j e s).st := by
  simp only [settleAllJBody]
  split
  · exact stepOK_setJ _ _ _
  · split
    · split
      · exact stepOK_trans (stepOK_setJ _ _ _) (hrec _ _)
      · split
        · exact stepOK_trans (stepOK_setJ _ _ _) (hrec _ _)
        · exact stepOK_trans (stepOK_setJ _ _ _)
            (stepOK_trans (hrec _ _) (hrec _ _))
    · exact stepOK_trans (stepOK_setJ _ _ _) (hrec _ _)

theorem settleRaceJBody_stepOK (recur : Call → St → Out)
    (hrec : ∀ c s, stepOK s (recur c s).st) (j : Nat) (e r : Val) (s : St) :
    stepOK s (settleRaceJBody recur j e r s).st := by
  simp only [settleRaceJBody]
  split
  · exact stepOK_setJ _ _ _
  · split
    · exact stepOK_trans (stepOK_setJ _ _ _) (hrec _ _)
    · split
      · exact stepOK_trans (stepOK_setJ _ _ _) (hrec _ _)
      · exact stepOK_trans (stepOK_setJ _ _ _)
          (stepOK_trans (hrec _ _) (hrec _ _))

theorem junctDeinitBody_stepOK (recur : Call → St → Out)
    (hrec : ∀ c s, stepOK s (recur c s).st) (j : Nat) (s : St) :
    stepOK s (junctDeinitBody recur j s).st := by
  simp only [junctDeinitBody]
  split
  · exact stepOK_setJ _ _ _
  · exact stepOK_trans (stepOK_setJ _ _ _) (hrec _ _)

theorem forceDeinitBody_stepOK (recur : Call → St → Out)
    (hrec : ∀ c s, stepOK s (recur c s).st) (vs : List Val) (acc : Option Val)
    (s : St) : stepOK s (forceDeinitBody recur vs acc s).st := by
  simp only [forceDeinitBody]
  split
  · exact stepOK_refl s
  · split
    · split
      · exact stepOK_trans (hrec _ _) (hrec _ _)
      · exact stepOK_trans (hrec _ _) (hrec _ _)
    · exact hrec _ _

theorem tickLoopBody_stepOK (recur : Call → St → Out)
    (hrec : ∀ c s, stepOK s (recur c s).st) (s : St) :
    stepOK s (tickLoopBody recur s).st := by
  simp only [tickLoopBody]
  split
  · exact stepOK_refl s
  next w rest hq =>
    have hqs : stepOK s { s with queue := rest } := stepOK_futsEq rfl rfl
    split
    · exact stepOK_trans hqs (hrec _ _)
    · exact stepOK_trans (stepOK_trans hqs (hrec _ _)) (hrec _ _)

theorem initAllBody_stepOK (recur : Call → St → Out)
    (hrec : ∀ c s, stepOK s (recur c s).st) (j i : Nat) (s : St) :
    stepOK s (initAllBody recur j i s).st := by
  simp only [initAllBody]
  split
  · split
    · exact hrec _ _
    · split
      · exact stepOK_refl s
      split
      · exact hrec _ _
      split
      · exact stepOK_trans (stepOK_quietlyConsume _ _)
          (stepOK_trans (stepOK_setJ _ _ _) (hrec _ _))
      split
      · split
        · exact stepOK_trans
            (stepOK_trans (stepOK_setupFinalizer _ _ _) (stepOK_setJ _ _ _)) (hrec _ _)
        · exact stepOK_trans (stepOK_setupFinalizer _ _ _) (hrec _ _)
      · split
        next s2 ex heq =>
          have h := stepOK_mapFut s (futId (((getJ s j).values.getD []).getD i Val.undef)) (.settleAllAtIndex j i)
          rw [heq] at h
          exact h
        next s2 nid heq =>
          have h := stepOK_mapFut s (futId (((getJ s j).values.getD []).getD i Val.undef)) (.settleAllAtIndex j i)
          rw [heq] at h
          exact stepOK_trans h (stepOK_trans (stepOK_setJ _ _ _) (hrec _ _))
  · split
    · split
      · exact stepOK_modF_keep s _ _ rfl rfl rfl rfl
      · exact stepOK_refl s
    · exact hrec _ _

theorem initRaceBody_stepOK (recur : Call → St → Out)
    (hrec : ∀ c s, stepOK s (recur c s).st) (j i : Nat) (s : St) :
    stepOK s (initRaceBody recur j i s).st := by
  simp only [initRaceBody]
  split
  · split
    · exact hrec _ _
    · split
      · exact stepOK_refl s
      split
      · exact hrec _ _
      split
      · exact stepOK_trans (stepOK_quietlyConsume _ _) (hrec _ _)
      split
      · split
        · exact stepOK_trans
            (stepOK_trans (stepOK_setupFinalizer _ _ _) (stepOK_setJ _ _ _)) (hrec _ _)
        · exact stepOK_trans (stepOK_setupFinalizer _ _ _) (hrec _ _)
      · split
        next s2 ex heq =>
          have h := stepOK_mapFut s (futId (((getJ s j).values.getD []).getD i Val.undef)) (.settleRaceWith j)
          rw [heq] at h
          exact h
        next s2 nid heq =>
          have h := stepOK_mapFut s (futId (((getJ s j).values.getD []).getD i Val.undef)) (.settleRaceWith j)
          rw [heq] at h
          exact stepOK_trans h (stepOK_trans (stepOK_setJ _ _ _) (hrec _ _))
  · split
    · split
      · exact stepOK_modF_keep s _ _ rfl rfl rfl rfl
      · exact stepOK_refl s
    · exact hrec _ _

/-- The interpreter never violates `stepOK`: however execution proceeds, an
allocated task that is settled keeps its state flags and value forever. -/
theorem exec_stepOK : ∀ (n : Nat) (c : Call) (s : St), stepOK s (exec n c s).st := by
  intro n
  induction n with
  | zero => intro c s; exact stepOK_refl s
  | succ n ih =>
    intro c s
    cases c with
    | settle i e r => exact settleBody_stepOK (exec n) ih i e r s
    | runMapper m e r => exact runMapperBody_stepOK (exec n) ih m e r s
    | finishPending i => exact finishPendingBody_stepOK (exec n) ih i s
    | weakLoop i => exact weakLoopBody_stepOK (exec n) ih i s
    | finalizeFut i => exact finalizeBody_stepOK (exec n) ih i s
    | runFinalizer fn e r => exact runFinalizerBody_stepOK (exec n) ih fn e r s
    | deinit i => exact deinitBody_stepOK (exec n) ih i s
    | settleAllIdx j i e r => exact settleAllIdxBody_stepOK (exec n) ih j i e r s
    | settleAllJcall j e => exact settleAllJBody_stepOK (exec n) ih j e s
    | settleRaceJcall j e r => exact settleRaceJBody_stepOK (exec n) ih j e r s
    | junctDeinit j => exact junctDeinitBody_stepOK (exec n) ih j s
    | forceDeinit vs acc => exact forceDeinitBody_stepOK (exec n) ih vs acc s
    | initAll j i => exact initAllBody_stepOK (exec n) ih j i s
    | initRace j i => exact initRaceBody_stepOK (exec n) ih j i s
    | tickLoop => exact tickLoopBody_stepOK (exec n) ih s

/-- C1: settlement is a one-way, one-shot transition.  (1) `settle` on a
task already settled (or mid-mapper) returns silently with the state
untouched.  (2) Whatever operation runs, an allocated task that is settled
keeps its Pending/Error/Success flags and its value slot — a task settles
at most once and never returns to Pending, and its value is immutable.
(3) The terminal settlement record leaves Pending and enters exactly one of
Error or Success. -/
theorem settle_transitions_at_most_once :
    (∀ (n : Nat) (s : St) (i : Nat) (e r : Val),
      (getF s i).bits.settled = true ∨ (getF s i).bits.mapping = true →
      exec (n + 1) (.settle i e r) s = Out.done s) ∧
    (∀ (n : Nat) (c : Call) (s : St), stepOK s (exec n c s).st) ∧
    (∀ (f : Fut) (e2 r2 : Val),
      (settledRecord f e2 r2).bits.pending = false ∧
      (settledRecord f e2 r2).bits.error = truthy e2 ∧
      (settledRecord f e2 r2).bits.success = !truthy e2) := by
  refine ⟨?_, exec_stepOK, fun f e2 r2 => ⟨rfl, rfl, rfl⟩⟩
  intro n s i e r h
  rw [show exec (n + 1) (.settle i e r) s = settleBody (exec n) i e r s from rfl]
  rcases h with h | h
  · simp only [settleBody, h, Bool.true_or, eq_self_iff_true, if_true]
  · simp only [settleBody, h, Bool.or_true, eq_self_iff_true, if_true]

/-- A task settled in success with value 9. -/
def c1WitFut : Fut :=
  { freshFut with
      bits := { pending := false, error := false, success := true,
                pendingRejection := false, consumed := false, mapping := false }
      value := .int 9 }

/-- A one-task heap holding the settled task. -/
def c1WitState : St := setF (allocF St.empty).1 0 c1WitFut

theorem settle_transitions_at_most_once_witness :
    exec 5 (.settle 0 (.str "again") (.int 1)) c1WitState = Out.done c1WitState ∧
    stepOK c1WitState (exec 5 (.settle 0 (.str "again") (.int 1)) c1WitState).st := by
  have h := settle_transitions_at_most_once
  exact ⟨h.1 4 c1WitState 0 (.str "again") (.int 1) (Or.inl rfl),
    h.2.1 5 (.settle 0 (.str "again") (.int 1)) c1WitState⟩

end Posterus
